import Mathlib

/-!
# Call-graph construction and tree navigation of the observability TUI

A shallow embedding of `tui/internal/client/types.go`,
`tui/internal/tui/tree/node.go`, `tui/internal/tui/tree/tree.go`,
`tui/internal/tui/forest/forest.go` and of the role filter of
`tui/internal/tui/promises/list.go`.

Conventions of the embedding:

* a Go `map[string]string` is an association list; `m[k]` is the first
  binding of `k` (or the empty string), `v, ok := m[k]` is `List.lookup`;
* a `*TreeNode` is an index into a store of `TreeNode` cells (`Heap`), so
  that two pointers to the same node stay the same node when it is mutated;
  `nil` is `none`;
* recursive closures that need not terminate (`assign`, `walk`) take a fuel
  argument and return `none` when it runs out; the loop of `fetchWithRootTag` is run
  for a bounded number of iterations and yields the state reached, which records
  whether the function has returned and which calls it has made on the query client;
* the two Go maps local to `BuildTree` are functions from keys;
* `BuildTree` takes the sort it calls as an argument: either any function meeting the
  contract of `sort.Slice` (`SortSliceSpec`), or the model `sort.Slice` of Go's
  pattern-defeating quicksort;
* Go `int` is the 64-bit integer: where a value comes from outside or is arbitrary
  (the window height, the scroll arithmetic of `viewHeight` and `adjustScroll`) every
  operation wraps around (`golang.wrapInt`); sums that are bounded by the length of a
  list held in memory (an index plus one, a depth plus one) are written without the
  wrap-around, which cannot occur there;
* a `tea.Cmd` is the description of what the command does when it is run (`Cmd`), and
  running the closure of `fetchRootsCmd` takes the query client as a function
  `SearchParams → Except String SearchResult`.
-/

namespace golang

/-- The result of an arithmetic operation on Go's `int` (64 bits): the exact result
wrapped around into the range from -2^63 to 2^63 - 1. -/
def wrapInt (x : Int) : Int :=
  (x + 9223372036854775808) % 18446744073709551616 - 9223372036854775808

end golang

namespace client

/-- Input/output data on a promise (`client.Value`). -/
structure Value where
  Headers : List (String × String)
  Data : Option String
deriving DecidableEq, Repr

/-- A promise record as returned by the API (`client.Promise`). -/
structure Promise where
  ID : String
  State : String
  Timeout : Int
  Param : Value
  Value : Value
  Tags : List (String × String)
  CreatedOn : Option Int
  CompletedOn : Option Int
deriving DecidableEq, Repr

/-- Go's `m[k]` on a `map[string]string`: the value, or `""` when absent. -/
def tag (tags : List (String × String)) (k : String) : String :=
  (tags.lookup k).getD ""

/-- The Go composite literal `client.Promise{ID: id}`: every other field zero. -/
def zeroPromise (id : String) : Promise :=
  { ID := id, State := "", Timeout := 0, Param := ⟨[], none⟩, Value := ⟨[], none⟩,
    Tags := [], CreatedOn := none, CompletedOn := none }

end client

namespace tree

open client

/-- A cell of the node store; `Children` holds pointers (`tree.TreeNode`). -/
structure TreeNode where
  Promise : Promise
  Children : List Nat
  Expanded : Bool
  Depth : Int
deriving DecidableEq, Repr

/-- The store of all allocated `TreeNode` cells; a `*TreeNode` is an index. -/
abbrev Heap := List TreeNode

/-- Model of `safeInt64`: a nil pointer reads as 0. -/
def safeInt64 (p : Option Int) : Int :=
  match p with
  | none => 0
  | some v => v

/-- The node a pointer refers to has this `CreatedOn`. -/
def createdOnOf (h : Heap) (ptr : Nat) : Option Int :=
  match h[ptr]? with
  | some n => n.Promise.CreatedOn
  | none => none

/-- The comparison closure handed to `sort.Slice` in `BuildTree`. -/
def lessCreatedOn (h : Heap) (a b : Nat) : Bool :=
  decide (safeInt64 (createdOnOf h a) < safeInt64 (createdOnOf h b))

/-- The state built by the first loop of `BuildTree`. -/
structure Index where
  nodes : Heap
  nodeMap : String → Option Nat
  childrenMap : String → List Nat

/-- The Go composite literal `&TreeNode{Promise: p, Expanded: true}`. -/
def newNode (p : Promise) : TreeNode :=
  { Promise := p, Children := [], Expanded := true, Depth := 0 }

/-- One iteration of the first loop of `BuildTree` (node.go lines 29-35). -/
def indexStep (s : Index) (p : Promise) : Index :=
  let node := s.nodes.length
  { nodes := s.nodes ++ [newNode p]
    nodeMap := fun k => if k = p.ID then some node else s.nodeMap k
    childrenMap :=
      match p.Tags.lookup "resonate:parent" with
      | some parent =>
        if parent ≠ p.ID then
          fun k => if k = parent then s.childrenMap k ++ [node] else s.childrenMap k
        else s.childrenMap
      | none => s.childrenMap }

/-- The first loop of `BuildTree`. -/
def buildIndex (promises : List Promise) : Index :=
  promises.foldl indexStep { nodes := [], nodeMap := fun _ => none, childrenMap := fun _ => [] }

/-- The body of the loop `for _, child := range node.Children` inside `assign`
(node.go lines 57-60); `recur` is the recursive call `assign(child)`. -/
def assignChild (recur : Nat → Heap → Option Heap) (node : Nat) (h : Heap) (child : Nat) :
    Option Heap :=
  match h[node]?, h[child]? with
  | some n, some c => recur child (h.set child { c with Depth := n.Depth + 1 })
  | _, _ => none

/-- The recursive closure `assign` of `BuildTree` (node.go lines 54-61). -/
def assign (childrenMap : String → List Nat) : Nat → Nat → Heap → Option Heap
  | 0, _, _ => none
  | fuel + 1, node, h =>
    match h[node]? with
    | none => none
    | some n =>
      (childrenMap n.Promise.ID).foldlM (assignChild (assign childrenMap fuel) node)
        (h.set node { n with Children := childrenMap n.Promise.ID })

/-- The children index after the loop `for _, children := range childrenMap`
(node.go lines 38-42): every list sorted by `sortSlice`, a model of `sort.Slice`. -/
def sortChildren (sortSlice : (Nat → Nat → Bool) → List Nat → List Nat) (idx : Index) :
    String → List Nat :=
  fun k => sortSlice (lessCreatedOn idx.nodes) (idx.childrenMap k)

/-- The root lookup of `BuildTree` (node.go lines 44-51): the store, extended by a
placeholder cell when the id is not in `nodeMap`, and the root pointer. -/
def resolveRoot (idx : Index) (rootID : String) : Heap × Nat :=
  match idx.nodeMap rootID with
  | some root => (idx.nodes, root)
  | none => (idx.nodes ++ [newNode (zeroPromise rootID)], idx.nodes.length)

/-- Model of `BuildTree` (node.go lines 25-65), over a model `sortSlice` of the
library call `sort.Slice`.  The result is the final store and the root pointer;
`none` means that `assign` has not returned within `fuel` nested calls. -/
def BuildTree (sortSlice : (Nat → Nat → Bool) → List Nat → List Nat) (fuel : Nat)
    (rootID : String) (promises : List Promise) : Option (Heap × Nat) :=
  let idx := buildIndex promises
  let start := resolveRoot idx rootID
  (assign (sortChildren sortSlice idx) fuel start.2 start.1).map (fun h => (h, start.2))

end tree

/-! ## The library call `sort.Slice`

`BuildTree` sorts each children list with `sort.Slice`, which the Go documentation does
not promise to be stable.  The model follows `pdqsort_func` of the Go standard library
(`sort/zsortfunc.go`), on lists of pointers with `Less` and `Swap` by index. -/

namespace sort

/-- Go's `data.Less(i, j)` for the `lessSwap` built by `sort.Slice`. -/
def Less (less : Nat → Nat → Bool) (data : List Nat) (i j : Nat) : Bool :=
  less (data.getD i 0) (data.getD j 0)

/-- Go's `data.Swap(i, j)`. -/
def Swap (data : List Nat) (i j : Nat) : List Nat :=
  (data.set i (data.getD j 0)).set j (data.getD i 0)

/-- The inner loop of `insertionSortLessFunc`: `for j := i; j > a && Less(j, j-1); j--`. -/
def insertionInner (less : Nat → Nat → Bool) (a : Nat) : Nat → List Nat → List Nat
  | 0, data => data
  | j + 1, data =>
    if a < j + 1 ∧ Less less data (j + 1) j = true then
      insertionInner less a j (Swap data (j + 1) j)
    else data

/-- Go's `insertionSortLessFunc(data, a, b)`. -/
def insertionSortLessFunc (less : Nat → Nat → Bool) (data : List Nat) (a b : Nat) : List Nat :=
  (List.range' (a + 1) (b - (a + 1))).foldl (fun d i => insertionInner less a i d) data

/-- Go's `siftDownLessFunc(data, lo, hi, first)`; the loop variable `root` starts at `lo`. -/
def siftDownLessFunc (less : Nat → Nat → Bool) (hi first : Nat) : Nat → Nat → List Nat → List Nat
  | 0, _, data => data
  | fuel + 1, root, data =>
    let child := 2 * root + 1
    if hi ≤ child then data
    else
      let child :=
        if child + 1 < hi ∧ Less less data (first + child) (first + child + 1) = true
        then child + 1 else child
      if Less less data (first + root) (first + child) = true then
        siftDownLessFunc less hi first fuel child (Swap data (first + root) (first + child))
      else data

/-- Go's `heapSortLessFunc(data, a, b)`. -/
def heapSortLessFunc (less : Nat → Nat → Bool) (data : List Nat) (a b : Nat) : List Nat :=
  let first := a
  let hi := b - a
  let built := (List.range ((hi - 1) / 2 + 1)).reverse.foldl
    (fun d i => siftDownLessFunc less hi first hi i d) data
  (List.range hi).reverse.foldl
    (fun d i => siftDownLessFunc less i first hi 0 (Swap d first (first + i))) built

/-- Go's `bits.Len`. -/
def bitsLen (x : Nat) : Nat := if x = 0 then 0 else Nat.log2 x + 1

/-- Go's `(*xorshift).Next` on a 64-bit state.  The sort takes the generator step as
a parameter, so nothing proved below depends on its constants. -/
def xorshiftNext (r : Nat) : Nat :=
  let r := r ^^^ ((r <<< 13) % 2 ^ 64)
  let r := r ^^^ (r >>> 17)
  r ^^^ ((r <<< 5) % 2 ^ 64)

/-- Go's `breakPatternsLessFunc(data, a, b)`, over the generator step `next`
(`random.Next()`, see `xorshiftNext`). -/
def breakPatternsLessFunc (next : Nat → Nat) (data : List Nat) (a b : Nat) : List Nat :=
  let length := b - a
  if 8 ≤ length then
    let modulus := 2 ^ bitsLen length
    let idx := a + (length / 4) * 2 - 1
    ([0, 1, 2].foldl
      (fun (s : Nat × List Nat) i =>
        let random := next s.1
        let other := random &&& (modulus - 1)
        let other := if length ≤ other then other - length else other
        (random, Swap s.2 (idx - 1 + i) (a + other)))
      (length, data)).2
  else data

/-- Go's `sortedHint`. -/
inductive sortedHint where
  | unknownHint
  | increasingHint
  | decreasingHint
deriving DecidableEq, Repr

/-- Go's `order2LessFunc`; the swap counter is threaded through. -/
def order2LessFunc (less : Nat → Nat → Bool) (data : List Nat) (a b swaps : Nat) :
    Nat × Nat × Nat :=
  if Less less data b a = true then (b, a, swaps + 1) else (a, b, swaps)

/-- Go's `medianLessFunc`: returns the median index and the updated swap counter. -/
def medianLessFunc (less : Nat → Nat → Bool) (data : List Nat) (a b c swaps : Nat) : Nat × Nat :=
  let (a, b, swaps) := order2LessFunc less data a b swaps
  let (b, _, swaps) := order2LessFunc less data b c swaps
  let (_, b, swaps) := order2LessFunc less data a b swaps
  (b, swaps)

/-- Go's `medianAdjacentLessFunc`. -/
def medianAdjacentLessFunc (less : Nat → Nat → Bool) (data : List Nat) (a swaps : Nat) :
    Nat × Nat :=
  medianLessFunc less data (a - 1) a (a + 1) swaps

/-- Go's `choosePivotLessFunc(data, a, b)`. -/
def choosePivotLessFunc (less : Nat → Nat → Bool) (data : List Nat) (a b : Nat) :
    Nat × sortedHint :=
  let l := b - a
  let i := a + l / 4 * 1
  let j := a + l / 4 * 2
  let k := a + l / 4 * 3
  let (j, swaps) :=
    if 8 ≤ l then
      let (i, j, k, swaps) :=
        if 50 ≤ l then
          let (i, s) := medianAdjacentLessFunc less data i 0
          let (j, s) := medianAdjacentLessFunc less data j s
          let (k, s) := medianAdjacentLessFunc less data k s
          (i, j, k, s)
        else (i, j, k, 0)
      medianLessFunc less data i j k swaps
    else (j, 0)
  if swaps = 0 then (j, sortedHint.increasingHint)
  else if swaps = 4 * 3 then (j, sortedHint.decreasingHint)
  else (j, sortedHint.unknownHint)

/-- Go's `reverseRangeLessFunc(data, a, b)`. -/
def reverseRangeLessFunc (data : List Nat) (a b : Nat) : List Nat :=
  (List.range ((b - a) / 2)).foldl (fun d t => Swap d (a + t) (b - 1 - t)) data

/-- The scan `for i <= j && data.Less(i, a) { i++ }` of `partitionLessFunc`;
indices are shifted by one so that `j` may drop below zero (`j1 = j + 1`). -/
def scanUp (less : Nat → Nat → Bool) (data : List Nat) (a j1 : Nat) : Nat → Nat → Nat
  | 0, i => i
  | fuel + 1, i =>
    if i + 1 ≤ j1 ∧ Less less data i a = true then scanUp less data a j1 fuel (i + 1) else i

/-- The scan `for i <= j && !data.Less(j, a) { j-- }` of `partitionLessFunc` (`j1 = j + 1`). -/
def scanDown (less : Nat → Nat → Bool) (data : List Nat) (a i : Nat) : Nat → Nat
  | 0 => 0
  | j + 1 =>
    if i ≤ j ∧ Less less data j a = false then scanDown less data a i j else j + 1

/-- The main loop of `partitionLessFunc`; returns the data and `j + 1`. -/
def partitionLoop (less : Nat → Nat → Bool) (a : Nat) :
    Nat → List Nat → Nat → Nat → List Nat × Nat
  | 0, data, _, j1 => (data, j1)
  | fuel + 1, data, i, j1 =>
    let i := scanUp less data a j1 (j1 - i) i
    let j1 := scanDown less data a i j1
    if j1 < i + 1 then (data, j1)
    else partitionLoop less a fuel (Swap data i (j1 - 1)) (i + 1) (j1 - 1)

/-- Go's `partitionLessFunc(data, a, b, pivot)`. -/
def partitionLessFunc (less : Nat → Nat → Bool) (data : List Nat) (a b pivot : Nat) :
    List Nat × Nat × Bool :=
  let data := Swap data a pivot
  let i := scanUp less data a b (b - (a + 1)) (a + 1)
  let j1 := scanDown less data a i b
  if j1 < i + 1 then (Swap data (j1 - 1) a, j1 - 1, true)
  else
    let (data, j1) := partitionLoop less a (b - a) (Swap data i (j1 - 1)) (i + 1) (j1 - 1)
    (Swap data (j1 - 1) a, j1 - 1, false)

/-- The scan `for i <= j && !data.Less(a, i) { i++ }` of `partitionEqualLessFunc`. -/
def scanUpEq (less : Nat → Nat → Bool) (data : List Nat) (a j1 : Nat) : Nat → Nat → Nat
  | 0, i => i
  | fuel + 1, i =>
    if i + 1 ≤ j1 ∧ Less less data a i = false then scanUpEq less data a j1 fuel (i + 1) else i

/-- The scan `for i <= j && data.Less(a, j) { j-- }` of `partitionEqualLessFunc`. -/
def scanDownEq (less : Nat → Nat → Bool) (data : List Nat) (a i : Nat) : Nat → Nat
  | 0 => 0
  | j + 1 =>
    if i ≤ j ∧ Less less data a j = true then scanDownEq less data a i j else j + 1

/-- The loop of `partitionEqualLessFunc`; returns the data and `i`. -/
def partitionEqualLoop (less : Nat → Nat → Bool) (a : Nat) :
    Nat → List Nat → Nat → Nat → List Nat × Nat
  | 0, data, i, _ => (data, i)
  | fuel + 1, data, i, j1 =>
    let i := scanUpEq less data a j1 (j1 - i) i
    let j1 := scanDownEq less data a i j1
    if j1 < i + 1 then (data, i)
    else partitionEqualLoop less a fuel (Swap data i (j1 - 1)) (i + 1) (j1 - 1)

/-- Go's `partitionEqualLessFunc(data, a, b, pivot)`. -/
def partitionEqualLessFunc (less : Nat → Nat → Bool) (data : List Nat) (a b pivot : Nat) :
    List Nat × Nat :=
  partitionEqualLoop less a (b - a + 1) (Swap data a pivot) (a + 1) b

/-- The left shift `for j := i - 1; j >= 1; j--` of `partialInsertionSortLessFunc`. -/
def shiftLeft (less : Nat → Nat → Bool) : Nat → List Nat → List Nat
  | 0, data => data
  | j + 1, data =>
    if Less less data (j + 1) j = true then shiftLeft less j (Swap data (j + 1) j) else data

/-- The right shift `for j := i + 1; j < b; j++` of `partialInsertionSortLessFunc`. -/
def shiftRight (less : Nat → Nat → Bool) (b : Nat) : Nat → Nat → List Nat → List Nat
  | 0, _, data => data
  | fuel + 1, j, data =>
    if j < b ∧ Less less data j (j - 1) = true then
      shiftRight less b fuel (j + 1) (Swap data j (j - 1))
    else data

/-- The scan `for i < b && !data.Less(i, i-1) { i++ }` of `partialInsertionSortLessFunc`. -/
def scanSorted (less : Nat → Nat → Bool) (data : List Nat) (b : Nat) : Nat → Nat → Nat
  | 0, i => i
  | fuel + 1, i =>
    if i < b ∧ Less less data i (i - 1) = false then scanSorted less data b fuel (i + 1) else i

/-- The outer loop (at most `maxSteps = 5` rounds) of `partialInsertionSortLessFunc`. -/
def partialInsertionLoop (less : Nat → Nat → Bool) (a b : Nat) :
    Nat → Nat → List Nat → List Nat × Bool
  | 0, _, data => (data, false)
  | steps + 1, i, data =>
    let i := scanSorted less data b (b - i) i
    if i = b then (data, true)
    else if b - a < 50 then (data, false)
    else
      let data := Swap data i (i - 1)
      let data := if 2 ≤ i - a then shiftLeft less (i - 1) data else data
      let data := if 2 ≤ b - i then shiftRight less b (b - i) (i + 1) data else data
      partialInsertionLoop less a b steps i data

/-- Go's `partialInsertionSortLessFunc(data, a, b)`. -/
def partialInsertionSortLessFunc (less : Nat → Nat → Bool) (data : List Nat) (a b : Nat) :
    List Nat × Bool :=
  partialInsertionLoop less a b 5 (a + 1) data

/-- Go's `pdqsortLessFunc(data, a, b, limit)`: the loop state `wasBalanced`,
`wasPartitioned` is explicit, and every loop round or recursive call uses one unit of fuel. -/
def pdqsortLoop (less : Nat → Nat → Bool) (next : Nat → Nat) :
    Nat → List Nat → Nat → Nat → Nat → Bool → Bool → List Nat
  | 0, data, _, _, _, _, _ => data
  | fuel + 1, data, a, b, limit, wasBalanced, wasPartitioned =>
    let length := b - a
    if length ≤ 12 then insertionSortLessFunc less data a b
    else if limit = 0 then heapSortLessFunc less data a b
    else
      let data := if wasBalanced then data else breakPatternsLessFunc next data a b
      let limit := if wasBalanced then limit else limit - 1
      let (pivot, hint) := choosePivotLessFunc less data a b
      let data := if hint = sortedHint.decreasingHint then reverseRangeLessFunc data a b else data
      let pivot := if hint = sortedHint.decreasingHint then (b - 1) - (pivot - a) else pivot
      let hint := if hint = sortedHint.decreasingHint then sortedHint.increasingHint else hint
      let tried : List Nat × Bool :=
        if wasBalanced ∧ wasPartitioned ∧ hint = sortedHint.increasingHint then
          partialInsertionSortLessFunc less data a b
        else (data, false)
      if tried.2 then tried.1
      else
        let data := tried.1
        if 0 < a ∧ Less less data (a - 1) pivot = false then
          let (data, mid) := partitionEqualLessFunc less data a b pivot
          pdqsortLoop less next fuel data mid b limit wasBalanced wasPartitioned
        else
          let (data, mid, alreadyPartitioned) := partitionLessFunc less data a b pivot
          let leftLen := mid - a
          let rightLen := b - mid
          let balanceThreshold := length / 8
          if leftLen < rightLen then
            let data := pdqsortLoop less next fuel data a mid limit true true
            pdqsortLoop less next fuel data (mid + 1) b limit
              (decide (balanceThreshold ≤ leftLen)) alreadyPartitioned
          else
            let data := pdqsortLoop less next fuel data (mid + 1) b limit true true
            pdqsortLoop less next fuel data a mid limit
              (decide (balanceThreshold ≤ rightLen)) alreadyPartitioned

/-- Go's `sort.Slice(x, less)` (Go 1.19 and later): pattern-defeating quicksort
started with `limit = bits.Len(length)`, on a slice of pointers.  Every loop round and
every recursive call works on a shorter range, so `length + 1` units of fuel suffice. -/
def Slice (next : Nat → Nat) (less : Nat → Nat → Bool) (x : List Nat) : List Nat :=
  pdqsortLoop less next (x.length + 1) x 0 x.length (bitsLen x.length) true true

end sort

namespace tree

open client

/-- The pointer-level child relation fixed by a children index `cm` over the
records `P` held by the store: `c` is listed under the id of the node at `p`. -/
def Edge (cm : String → List Nat) (P : List Promise) (p c : Nat) : Prop :=
  ∃ x, P[p]? = some x ∧ c ∈ cm x.ID

/-- The records held by the cells of a store, cell by cell. -/
def promisesOf (h : Heap) : List Promise := h.map (fun n => n.Promise)

/-- Node `q` has received its children from the index and every child has depth one more. -/
def Assigned (cm : String → List Nat) (h : Heap) (q : Nat) : Prop :=
  ∃ n, h[q]? = some n ∧ n.Children = cm n.Promise.ID ∧
    ∀ c ∈ n.Children, ∃ m, h[c]? = some m ∧ m.Depth = n.Depth + 1

/-- The children index describes a forest over the store: listed pointers are
allocated, no list repeats a pointer, no node has two parents, and no node is
its own descendant. -/
structure ForestLike (cm : String → List Nat) (P : List Promise) : Prop where
  valid : ∀ p c, Edge cm P p c → c < P.length
  nodup : ∀ k, (cm k).Nodup
  uniqueParent : ∀ p q c, Edge cm P p c → Edge cm P q c → p = q
  acyclic : ∀ p, ¬ Relation.TransGen (Edge cm P) p p

/-- Record `child` names `parent` in its parent tag, and is not its own parent
(the edges `BuildTree` enters into `childrenMap`). -/
def ParentEdge (promises : List Promise) (parent child : String) : Prop :=
  ∃ p ∈ promises, p.ID = child ∧ p.Tags.lookup "resonate:parent" = some parent ∧ parent ≠ child

/-- An acyclic record collection: following parent tags never leads back to the start. -/
def Acyclic (promises : List Promise) : Prop :=
  ∀ id, ¬ Relation.TransGen (ParentEdge promises) id id

/-- The documented contract of `sort.Slice` for a comparison by an integer key:
the result is a rearrangement of the input in non-decreasing key order. -/
def SortSliceSpec (sortSlice : (Nat → Nat → Bool) → List Nat → List Nat) : Prop :=
  ∀ (key : Nat → Int) (l : List Nat),
    (sortSlice (fun a b => decide (key a < key b)) l).Perm l ∧
    (sortSlice (fun a b => decide (key a < key b)) l).Pairwise (fun a b => key a ≤ key b)

/-- On the index of the records `ps`, `sortSlice` only rearranges each children list. -/
def SortsIndex (sortSlice : (Nat → Nat → Bool) → List Nat → List Nat) (ps : List Promise) :
    Prop :=
  ∀ k, (sortChildren sortSlice (buildIndex ps) k).Perm ((buildIndex ps).childrenMap k)

/-- Node `c` is listed in the `Children` of node `p`. -/
def ChildOf (h : Heap) (p c : Nat) : Prop :=
  ∃ n, h[p]? = some n ∧ c ∈ n.Children

/-- Node `q` belongs to the tree hanging from `root`. -/
def InTree (h : Heap) (root q : Nat) : Prop :=
  Relation.ReflTransGen (ChildOf h) root q

/-- A sort that meets `SortSliceSpec` (merge sort on the comparison `less`); it shows
that the contract can be met. -/
def referenceSort (less : Nat → Nat → Bool) (l : List Nat) : List Nat :=
  l.mergeSort (fun a b => !less b a)

/-- A record with the given id, optional parent tag and optional creation time;
all other fields zero. -/
def record (id : String) (parent : Option String) (createdOn : Option Int) : Promise :=
  { zeroPromise id with
    Tags := match parent with
      | some p => [("resonate:parent", p)]
      | none => []
    CreatedOn := createdOn }

/-- A cell as `BuildTree` leaves it: expanded, with the given children and depth. -/
def cell (p : Promise) (children : List Nat) (depth : Int) : TreeNode :=
  { Promise := p, Children := children, Expanded := true, Depth := depth }

/-- Check that `rank` grows along every parent tag of the collection. -/
def rankGrows (rank : String → Nat) (promises : List Promise) : Bool :=
  promises.all (fun p =>
    match p.Tags.lookup "resonate:parent" with
    | some parent => decide (parent = p.ID) || decide (rank parent < rank p.ID)
    | none => true)

/-- An acyclic collection in which two records share the id `x` but name different
parents. -/
def sharedIdRecords : List Promise :=
  [record "x" (some "r") none, record "a" (some "r") none, record "x" (some "a") none,
   record "c" (some "x") none, record "r" none none]

/-- A rank for `sharedIdRecords`. -/
def sharedIdRank (s : String) : Nat :=
  if s = "r" then 0 else if s = "a" then 1 else if s = "x" then 2 else 3

/-- A chain `r`, `r.1`, `r.1.1` with a sibling `r.2`, pairwise distinct ids. -/
def chainRecords : List Promise :=
  [record "r.1" (some "r") (some 20), record "r" none (some 10),
   record "r.2" (some "r") (some 15), record "r.1.1" (some "r.1") none]

/-- A collection without a record for the requested root `missing`, one of whose
records names `missing` as its parent. -/
def orphanRecords : List Promise :=
  [record "a" (some "missing") none]

end tree

namespace sort

/-- The order of a stable sort by `key` on elements that start out in increasing
order: by key, and between equal keys by the element itself. -/
def StableLt (key : Nat → Int) (a b : Nat) : Prop :=
  key a < key b ∨ (key a = key b ∧ a < b)

end sort

namespace tree

open client

/-- The root `r` with thirteen children: twelve created at time 1 and, last in the
input, one created at time 0. -/
def thirteenChildren : List Promise :=
  record "r" none none ::
    (["c01", "c02", "c03", "c04", "c05", "c06", "c07", "c08", "c09", "c10", "c11", "c12"].map
        (fun id => record id (some "r") (some 1)) ++
      [record "c13" (some "r") (some 0)])

/-- The store `BuildTree` returns for `thirteenChildren` under Go's `sort.Slice`. -/
def thirteenChildrenHeap : Heap :=
  cell (record "r" none none) [13, 7, 3, 4, 5, 6, 1, 8, 9, 10, 11, 12, 2] 0 ::
    (["c01", "c02", "c03", "c04", "c05", "c06", "c07", "c08", "c09", "c10", "c11", "c12"].map
        (fun id => cell (record id (some "r") (some 1)) [] 1) ++
      [cell (record "c13" (some "r") (some 0)) [] 1])

/-! ### Invariants used in the proofs about `BuildTree` -/

/-- What the first loop has established after reading the records `ps`. -/
structure IndexInv (ps : List Promise) (s : Index) : Prop where
  nodes : s.nodes = ps.map newNode
  nodeMap_some : ∀ k i, s.nodeMap k = some i → ∃ p, ps[i]? = some p ∧ p.ID = k
  nodeMap_none : ∀ k, s.nodeMap k = none → ∀ p ∈ ps, p.ID ≠ k
  nodeMap_last : ∀ k i, s.nodeMap k = some i → ∀ j p, ps[j]? = some p → p.ID = k → j ≤ i
  mem_children : ∀ k c, c ∈ s.childrenMap k ↔
    ∃ p, ps[c]? = some p ∧ p.Tags.lookup "resonate:parent" = some k ∧ k ≠ p.ID
  sorted_children : ∀ k, (s.childrenMap k).Pairwise (fun a b => a < b)
  len_children : ∀ k, (s.childrenMap k).length ≤
    ps.countP (fun p => decide (p.Tags.lookup "resonate:parent" = some k))

/-- What one call `assign(ptr)` achieves, from store `h` to store `h'`. -/
structure AssignPost (cm : String → List Nat) (P : List Promise) (ptr : Nat) (h h' : Heap) :
    Prop where
  frame : ∀ q, ¬ Relation.ReflTransGen (Edge cm P) ptr q → h'[q]? = h[q]?
  depth : (h'[ptr]?).map (fun n => n.Depth) = (h[ptr]?).map (fun n => n.Depth)
  assigned : ∀ q, Relation.ReflTransGen (Edge cm P) ptr q → Assigned cm h' q

/-- The loop invariant of `for _, child := range node.Children` in `assign(ptr)`. -/
structure AssignLoopInv (cm : String → List Nat) (P : List Promise) (ptr : Nat) (n : TreeNode)
    (h : Heap) (done : List Nat) (hc : Heap) : Prop where
  prom : promisesOf hc = P
  frame : ∀ q, q ≠ ptr → (∀ c ∈ done, ¬ Relation.ReflTransGen (Edge cm P) c q) →
    hc[q]? = h[q]?
  self : hc[ptr]? = some { n with Children := cm n.Promise.ID }
  assigned : ∀ c ∈ done, ∀ q, Relation.ReflTransGen (Edge cm P) c q → Assigned cm hc q
  depth : ∀ c ∈ done, ∃ m, hc[c]? = some m ∧ m.Depth = n.Depth + 1

/-- The store and root pointer with which `BuildTree` starts `assign`. -/
structure Start (ps : List Promise) (rootID : String) (h0 : Heap) (root : Nat) : Prop where
  heap : h0 = (promisesOf h0).map newNode
  pre : ∀ (i : Nat) (p : Promise), ps[i]? = some p → (promisesOf h0)[i]? = some p
  root_lt : root < (promisesOf h0).length
  root_id : ∃ x, (promisesOf h0)[root]? = some x ∧ x.ID = rootID
  ids : ∀ (i : Nat) (x : Promise), (promisesOf h0)[i]? = some x → ps[i]? = some x ∨ (x = zeroPromise rootID ∧
    i = ps.length ∧ root = ps.length ∧ ∀ p ∈ ps, p.ID ≠ rootID)
  last : ∀ (j : Nat) (p : Promise), ps[j]? = some p → p.ID = rootID → j ≤ root

/-- The id held by the cell at a pointer. -/
def idAt (P : List Promise) (q : Nat) : String :=
  match P[q]? with
  | some x => x.ID
  | none => ""

/-- How one cell may differ after `assign` has run: record and `Expanded` are kept,
`Children` is kept or taken from the index under the cell's own id, and `Depth`
is kept unless the cell is listed somewhere in the index. -/
def CellStep (cm : String → List Nat) (q : Nat) (n m : TreeNode) : Prop :=
  m.Promise = n.Promise ∧ m.Expanded = n.Expanded ∧
    (m.Children = n.Children ∨ m.Children = cm n.Promise.ID) ∧
    ((∀ k, q ∉ cm k) → m.Depth = n.Depth)

/-- Every cell of `h` is still there in `g`, changed at most as `CellStep` allows. -/
def HeapStep (cm : String → List Nat) (h g : Heap) : Prop :=
  ∀ (q : Nat) (n : TreeNode), h[q]? = some n → ∃ m, g[q]? = some m ∧ CellStep cm q n m

end tree

namespace strings

/-- Go's `strings.HasPrefix(s, pre)`, on the character sequences of the strings. -/
def HasPrefix (s pre : String) : Bool :=
  pre.data.isPrefixOf s.data

end strings

namespace theme

/-- Model of `theme.Key(msg, keys...)`; `msg` stands for `msg.String()`. -/
def Key (msg : String) (keys : List String) : Bool :=
  keys.any (fun k => msg == k)

end theme

namespace forest

open client

/-- Model of `isRoot` (forest.go lines 653-657). -/
def isRoot (p : Promise) : Bool :=
  let parent := tag p.Tags "resonate:parent"
  parent == "" || parent == p.ID

/-- Model of `isRootInSet` (forest.go lines 661-678); the loop with its early
`return false` is `List.any`. -/
def isRootInSet (p : Promise) (allPromises : List Promise) : Bool :=
  let parent := tag p.Tags "resonate:parent"
  if parent ≠ "" ∧ parent ≠ p.ID then false
  else if allPromises.any
      (fun other => decide (other.ID ≠ p.ID) && strings.HasPrefix p.ID (other.ID ++ "."))
    then false
  else true

/-- The reading of the root rule in the words of the specification: no parent tag or
a parent tag equal to the own id, and no record of the page whose id followed by a dot
begins the id of `p`. -/
def SpecRootInSet (p : Promise) (page : List Promise) : Prop :=
  (p.Tags.lookup "resonate:parent" = none ∨ p.Tags.lookup "resonate:parent" = some p.ID) ∧
    ∀ o ∈ page, strings.HasPrefix p.ID (o.ID ++ ".") = false

/-- The page `a`, `a.1` with parent tag `a`, `a.2` without tags. -/
def examplePage : List Promise :=
  [tree.record "a" none none, tree.record "a.1" (some "a") none, tree.record "a.2" none none]

/-- A record with id `a` whose parent tag is present and empty. -/
def emptyParentTag : Promise :=
  { zeroPromise "a" with Tags := [("resonate:parent", "")] }

end forest

namespace tree

open client

/-- Why a run of the model stops without a result: the fuel of a recursive closure
ran out, a slice was indexed out of range (a Go panic), or a pointer was not in the
store. -/
inductive Fault where
  | outOfFuel
  | indexOutOfRange
  | badPointer
deriving DecidableEq, Repr

/-- The recursive closure `walk` of `FlattenVisible` (node.go lines 74-81); `nodes` is
the slice being appended to. -/
def walk (h : Heap) : Nat → Nat → List Nat → Option (List Nat)
  | 0, _, _ => none
  | fuel + 1, node, nodes =>
    match h[node]? with
    | none => none
    | some n =>
      if n.Expanded then
        n.Children.foldlM (fun acc child => walk h fuel child acc) (nodes ++ [node])
      else some (nodes ++ [node])

/-- Model of `FlattenVisible` (node.go lines 68-84): the visible nodes as pointers;
`none` means that `walk` has not returned within `fuel` nested calls. -/
def FlattenVisible (h : Heap) (fuel : Nat) (root : Option Nat) : Option (List Nat) :=
  match root with
  | none => some []
  | some r => walk h fuel r []

/-- A finite tree of pointers: the shape of the nodes hanging from a root. -/
inductive Shape where
  | node (ptr : Nat) (children : List Shape)

/-- The pointer at the root of a shape. -/
def Shape.ptr : Shape → Nat
  | .node p _ => p

/-- The subtrees below the root of a shape. -/
def Shape.children : Shape → List Shape
  | .node _ cs => cs

/-- The store holds the finite tree `t`: each node's `Children` are the roots of its
subtrees. -/
inductive Holds (h : Heap) : Shape → Prop where
  | node (p : Nat) (n : TreeNode) (cs : List Shape) :
      h[p]? = some n → n.Children = cs.map Shape.ptr → (∀ c ∈ cs, Holds h c) →
      Holds h (Shape.node p cs)

mutual
/-- A decision procedure for `Holds`. -/
def Shape.check (h : Heap) : Shape → Bool
  | .node p cs =>
    (match h[p]? with
      | some n => decide (n.Children = cs.map Shape.ptr)
      | none => false) && Shape.checkList h cs
/-- The check of every shape of a list. -/
def Shape.checkList (h : Heap) : List Shape → Bool
  | [] => true
  | t :: ts => t.check h && Shape.checkList h ts
end

/-- The `Expanded` flag of the node at a pointer. -/
def expandedAt (h : Heap) (p : Nat) : Bool :=
  match h[p]? with
  | some n => n.Expanded
  | none => false

mutual
/-- Number of nested calls `walk` needs on a shape. -/
def Shape.height : Shape → Nat
  | .node _ cs => Shape.heightList cs + 1
/-- The largest height in a list of shapes. -/
def Shape.heightList : List Shape → Nat
  | [] => 0
  | t :: ts => max t.height (Shape.heightList ts)
end

mutual
/-- All pointers of a shape in pre-order. -/
def Shape.nodes : Shape → List Nat
  | .node p cs => p :: Shape.nodesList cs
/-- All pointers of a list of shapes, in pre-order, shape after shape. -/
def Shape.nodesList : List Shape → List Nat
  | [] => []
  | t :: ts => t.nodes ++ Shape.nodesList ts
end

mutual
/-- The pre-order walk of a shape that descends only below expanded nodes. -/
def Shape.visible (h : Heap) : Shape → List Nat
  | .node p cs => p :: (if expandedAt h p then Shape.visibleList h cs else [])
/-- The walk of a list of shapes, shape after shape. -/
def Shape.visibleList (h : Heap) : List Shape → List Nat
  | [] => []
  | t :: ts => t.visible h ++ Shape.visibleList h ts
end

mutual
/-- In the words of the specification: the pre-order listing of every node of the tree
(a node before its children, children in list order), each with the flag whether all
its proper ancestors are expanded; `anc` is that flag for the root. -/
def Shape.preorderFlagged (h : Heap) : Bool → Shape → List (Nat × Bool)
  | anc, .node p cs => (p, anc) :: Shape.preorderFlaggedList h (anc && expandedAt h p) cs
/-- The flagged pre-order listing of a list of sibling shapes. -/
def Shape.preorderFlaggedList (h : Heap) : Bool → List Shape → List (Nat × Bool)
  | _, [] => []
  | anc, t :: ts => t.preorderFlagged h anc ++ Shape.preorderFlaggedList h anc ts
end

/-- In the words of the specification: the pre-order listing of exactly the nodes all
of whose proper ancestors are expanded. -/
def Shape.specVisible (h : Heap) (t : Shape) : List Nat :=
  ((t.preorderFlagged h true).filter (fun x => x.2)).map (fun x => x.1)

/-- Writing the `Expanded` flag of the node at `p` (`node.Expanded = b`). -/
def setExpanded (h : Heap) (p : Nat) (b : Bool) : Heap :=
  match h[p]? with
  | some n => h.set p { n with Expanded := b }
  | none => h

/-- What a handler hands back besides the model (`tea.Cmd`): nothing, a request to
open the detail view of a record, the batch of spinner tick and fetch, or the command
of the spinner alone. -/
inductive Cmd where
  | none
  | openDetail (p : Promise)
  | tickAndFetch
  | tick
deriving DecidableEq, Repr

/-- The state of the tree view (`tree.Model`), with the store its pointers refer to;
the client and the spinner are left out. -/
structure Model where
  RootID : String
  heap : Heap
  root : Option Nat
  visible : List Nat
  selected : Int
  loading : Bool
  err : Option String
  width : Int
  height : Int
  offset : Int
deriving DecidableEq, Repr

/-- Model of `Model.viewHeight` (tree.go lines 185-191). -/
def Model.viewHeight (m : Model) : Int :=
  let h := golang.wrapInt (m.height - 6)
  if h < 5 then 5 else h

/-- Model of `Model.adjustScroll` (tree.go lines 175-183). -/
def Model.adjustScroll (m : Model) : Model :=
  let availableHeight := m.viewHeight
  let m := if m.selected < m.offset then { m with offset := m.selected } else m
  if m.selected ≥ golang.wrapInt (m.offset + availableHeight) then
    { m with offset := golang.wrapInt (golang.wrapInt (m.selected - availableHeight) + 1) }
  else m

/-- Go's `m.visible[m.selected]` followed by the dereference of the pointer found. -/
def Model.selectedNode (m : Model) : Except Fault (Nat × TreeNode) :=
  if m.selected < 0 then .error Fault.indexOutOfRange
  else
    match m.visible[m.selected.toNat]? with
    | none => .error Fault.indexOutOfRange
    | some node =>
      match m.heap[node]? with
      | none => .error Fault.badPointer
      | some n => .ok (node, n)

/-- `FlattenVisible(m.root)` inside a handler. -/
def Model.flatten (fuel : Nat) (heap : Heap) (root : Option Nat) : Except Fault (List Nat) :=
  match FlattenVisible heap fuel root with
  | some visible => .ok visible
  | none => .error Fault.outOfFuel

/-- The loop `for i, n := range m.visible` of the jump to the parent: the first index
whose node has the id `parentID`. -/
def findByID (heap : Heap) (parentID : String) : List Nat → Nat → Option Nat
  | [], _ => none
  | node :: rest, i =>
    match heap[node]? with
    | some n => if n.Promise.ID = parentID then some i else findByID heap parentID rest (i + 1)
    | none => findByID heap parentID rest (i + 1)

/-- The case `enter`/space of `updateNavigation` (tree.go lines 108-124). -/
def Model.toggle (fuel : Nat) (m : Model) : Except Fault (Model × Cmd) :=
  if m.visible.length > 0 ∧ m.selected < (m.visible.length : Int) then
    match m.selectedNode with
    | .error e => .error e
    | .ok (node, n) =>
      if n.Children.length > 0 then
        let heap := m.heap.set node { n with Expanded := !n.Expanded }
        match Model.flatten fuel heap m.root with
        | .error e => .error e
        | .ok visible =>
          let selected :=
            if m.selected ≥ (visible.length : Int) then (visible.length : Int) - 1
            else m.selected
          .ok ({ m with heap := heap, visible := visible, selected := selected }, Cmd.none)
      else .ok (m, Cmd.openDetail n.Promise)
  else .ok (m, Cmd.none)

/-- The case `l`/right of `updateNavigation` (tree.go lines 126-134). -/
def Model.expand (fuel : Nat) (m : Model) : Except Fault (Model × Cmd) :=
  if m.visible.length > 0 ∧ m.selected < (m.visible.length : Int) then
    match m.selectedNode with
    | .error e => .error e
    | .ok (node, n) =>
      if n.Children.length > 0 ∧ n.Expanded = false then
        let heap := m.heap.set node { n with Expanded := true }
        match Model.flatten fuel heap m.root with
        | .error e => .error e
        | .ok visible => .ok ({ m with heap := heap, visible := visible }, Cmd.none)
      else .ok (m, Cmd.none)
  else .ok (m, Cmd.none)

/-- The case `h`/left of `updateNavigation` (tree.go lines 136-156). -/
def Model.collapse (fuel : Nat) (m : Model) : Except Fault (Model × Cmd) :=
  if m.visible.length > 0 ∧ m.selected < (m.visible.length : Int) then
    match m.selectedNode with
    | .error e => .error e
    | .ok (node, n) =>
      if n.Expanded = true ∧ n.Children.length > 0 then
        let heap := m.heap.set node { n with Expanded := false }
        match Model.flatten fuel heap m.root with
        | .error e => .error e
        | .ok visible => .ok ({ m with heap := heap, visible := visible }, Cmd.none)
      else
        let parentID := tag n.Promise.Tags "resonate:parent"
        if parentID ≠ "" then
          match findByID m.heap parentID m.visible 0 with
          | some i => .ok (({ m with selected := (i : Int) } : Model).adjustScroll, Cmd.none)
          | none => .ok (m, Cmd.none)
        else .ok (m, Cmd.none)
  else .ok (m, Cmd.none)

/-- The case `i` of `updateNavigation` (tree.go lines 158-165). -/
def Model.inspect (m : Model) : Except Fault (Model × Cmd) :=
  if m.visible.length > 0 ∧ m.selected < (m.visible.length : Int) then
    match m.selectedNode with
    | .error e => .error e
    | .ok (_, n) => .ok (m, Cmd.openDetail n.Promise)
  else .ok (m, Cmd.none)

/-- Model of `Model.updateNavigation` (tree.go lines 94-173); `key` is `msg.String()`. -/
def Model.updateNavigation (fuel : Nat) (m : Model) (key : String) :
    Except Fault (Model × Cmd) :=
  if theme.Key key ["j", "down"] then
    if m.selected < (m.visible.length : Int) - 1 then
      .ok (({ m with selected := m.selected + 1 } : Model).adjustScroll, Cmd.none)
    else .ok (m, Cmd.none)
  else if theme.Key key ["k", "up"] then
    if m.selected > 0 then
      .ok (({ m with selected := m.selected - 1 } : Model).adjustScroll, Cmd.none)
    else .ok (m, Cmd.none)
  else if theme.Key key ["enter", " "] then m.toggle fuel
  else if theme.Key key ["l", "right"] then m.expand fuel
  else if theme.Key key ["h", "left"] then m.collapse fuel
  else if theme.Key key ["i"] then m.inspect
  else if theme.Key key ["r"] then
    .ok ({ m with loading := true }, Cmd.tickAndFetch)
  else .ok (m, Cmd.none)

/-- A store holding the tree `0 -> [1 -> [3, 4], 2]`, every node expanded. -/
def exampleHeap : Heap :=
  [cell (record "r" none none) [1, 2] 0, cell (record "r.1" (some "r") none) [3, 4] 1,
   cell (record "r.2" (some "r") none) [] 1, cell (record "r.1.1" (some "r.1") none) [] 2,
   cell (record "r.1.2" (some "r.1") none) [] 2]

/-- The shape of `exampleHeap`. -/
def exampleShape : Shape :=
  .node 0 [.node 1 [.node 3 [], .node 4 []], .node 2 []]

/-- The tree view showing `exampleHeap`, the node 1 selected. -/
def exampleModel : Model :=
  { RootID := "r", heap := exampleHeap, root := some 0, visible := [0, 1, 3, 4, 2],
    selected := 1, loading := false, err := none, width := 80, height := 24, offset := 0 }

end tree

namespace client

/-- The parameters of a promise search (`client.SearchParams`). -/
structure SearchParams where
  ID : String
  State : String
  Tags : List (String × String)
  Limit : Int
  Cursor : String
  SortID : Option Int
deriving DecidableEq, Repr

/-- The response of a promise search (`client.SearchResult`). -/
structure SearchResult where
  Promises : List Promise
  Cursor : Option String
deriving DecidableEq, Repr

end client

namespace forest

open client

/-- Go's `type SortMode int`. -/
abbrev SortMode := Int

/-- `SortCreatedDesc`, newest first (the default). -/
def SortCreatedDesc : SortMode := 0

/-- `SortCreatedAsc`, oldest first. -/
def SortCreatedAsc : SortMode := 1

/-- `SortResolvedDesc`. -/
def SortResolvedDesc : SortMode := 2

/-- `SortResolvedAsc`. -/
def SortResolvedAsc : SortMode := 3

/-- A root promise with its optional tree (`forest.RootItem`); the tree is the root
pointer together with the store `BuildTree` returned. -/
structure RootItem where
  Promise : Promise
  Tree : Option (tree.Heap × Nat)
  Expanded : Bool
  Loading : Bool
deriving DecidableEq, Repr

/-- The messages handled by the forest view; an `error` is its text. -/
inductive Msg where
  | RootsLoadedMsg (Promises : List Promise) (Cursor : Option String) (Err : Option String)
  | TreeLoadedForRootMsg (RootID : String) (Tree : Option (tree.Heap × Nat))
      (Err : Option String)
  | TickMsg
  | WindowSizeMsg (Width Height : Int)
  | KeyMsg (key : String)
deriving DecidableEq, Repr

/-- The state of the forest view (`forest.Model`); the client and the spinner are left
out, and the `[]*RootItem` is the list of the items pointed to. -/
structure Model where
  roots : List RootItem
  selected : Int
  loading : Bool
  err : Option String
  stateFilter : String
  typeFilter : String
  sortMode : SortMode
  cursor : Option String
  prevCursors : List String
  limit : Int
  width : Int
  height : Int
  offset : Int
deriving DecidableEq, Repr

/-- What a handler of the forest view hands back besides the model (`tea.Cmd`);
`fetchRoots` carries the model whose fields the closure of `fetchRootsCmd` captured, and
`panics` is a command that indexes out of range when it is run. -/
inductive Cmd where
  | none
  | tick
  | fetchRoots (captured : Model)
  | fetchTreeForRoot (rootID : String)
  | openDetail (p : Promise)
  | panics
  | batch (cmds : List Cmd)

/-- Model of `promiseRole` (forest.go lines 681-692). -/
def promiseRole (p : Promise) : String :=
  if tag p.Tags "resonate:timeout" ≠ "" then "sleep"
  else if tag p.Tags "resonate:scope" = "global" then "rpc"
  else if tag p.Tags "resonate:scope" = "local" then "run"
  else "root"

/-- The role rule in the words of the specification: sleep when a timeout tag is
present, otherwise by the scope tag. -/
def SpecRole (p : Promise) : String :=
  if (p.Tags.lookup "resonate:timeout").isSome then "sleep"
  else if p.Tags.lookup "resonate:scope" = some "global" then "rpc"
  else if p.Tags.lookup "resonate:scope" = some "local" then "run"
  else "root"

/-- A record of global scope whose timeout tag is present and empty. -/
def emptyTimeoutTag : Promise :=
  { zeroPromise "a" with Tags := [("resonate:timeout", ""), ("resonate:scope", "global")] }

/-- Model of `currentCursorPlaceholder` (forest.go lines 711-714). -/
def currentCursorPlaceholder (_roots : List RootItem) : String := ""

/-- Model of `Model.viewHeight` of the forest (forest.go lines 347-353). -/
def Model.viewHeight (m : Model) : Int :=
  let h := golang.wrapInt (m.height - 12)
  if h < 5 then 5 else h

/-- Model of `Model.adjustScroll` of the forest (forest.go lines 337-345). -/
def Model.adjustScroll (m : Model) : Model :=
  let availableHeight := m.viewHeight
  let m := if m.selected < m.offset then { m with offset := m.selected } else m
  if m.selected ≥ golang.wrapInt (m.offset + availableHeight) then
    { m with offset := golang.wrapInt (golang.wrapInt (m.selected - availableHeight) + 1) }
  else m

/-- The `client.SearchParams` built inside the closure of `fetchRootsCmd`
(forest.go lines 542-561). -/
def Model.fetchRootsParams (m : Model) : SearchParams :=
  { ID := "*"
    State := if m.stateFilter ≠ "" then m.stateFilter else ""
    Tags := []
    Limit := m.limit
    Cursor := match m.cursor with
      | some c => c
      | none => ""
    SortID :=
      if m.sortMode = SortCreatedDesc then some (-1)
      else if m.sortMode = SortCreatedAsc then some 1
      else none }

/-- The client-side filter of `fetchRootsCmd` (forest.go lines 568-583). -/
def filterRoots (typeFilter : String) (promises : List Promise) : List Promise :=
  promises.filter (fun p =>
    if typeFilter = "" then isRootInSet p promises
    else decide (promiseRole p = typeFilter))

/-- Running the closure returned by `fetchRootsCmd` (forest.go lines 541-589) against
the query collaborator `search`. -/
def Model.fetchRootsCmd (search : SearchParams → Except String SearchResult) (m : Model) :
    Msg :=
  match search m.fetchRootsParams with
  | .error err => Msg.RootsLoadedMsg [] none (some err)
  | .ok result => Msg.RootsLoadedMsg (filterRoots m.typeFilter result.Promises) result.Cursor none

/-- The map `oldRoots` built in the `RootsLoadedMsg` case (forest.go lines 122-125). -/
def oldRootsOf (roots : List RootItem) : String → Option RootItem :=
  roots.foldl (fun mp root => fun k => if k = root.Promise.ID then some root else mp k)
    (fun _ => none)

/-- The item made for one page record in the `RootsLoadedMsg` case
(forest.go lines 129-135). -/
def mergeRoot (oldRoots : String → Option RootItem) (p : Promise) : RootItem :=
  let newRoot : RootItem := { Promise := p, Tree := none, Expanded := false, Loading := false }
  match oldRoots p.ID with
  | some oldRoot =>
    { newRoot with Expanded := oldRoot.Expanded, Tree := oldRoot.Tree,
                   Loading := oldRoot.Loading }
  | none => newRoot

/-- The loop of the `TreeLoadedForRootMsg` case (forest.go lines 143-153) on the items:
the first item with the id stops loading and, without an error, receives the tree. -/
def attachTree (rootID : String) (t : Option (tree.Heap × Nat)) (err : Option String) :
    List RootItem → List RootItem
  | [] => []
  | root :: rest =>
    if root.Promise.ID = rootID then
      (match err with
        | some _ => { root with Loading := false }
        | none => { root with Loading := false, Tree := t }) :: rest
    else root :: attachTree rootID t err rest

/-- The next value of `typeFilter` for the key `5` (forest.go lines 279-290). -/
def nextTypeFilter (typeFilter : String) : String :=
  if typeFilter = "" then "root"
  else if typeFilter = "root" then "rpc"
  else if typeFilter = "rpc" then "run"
  else if typeFilter = "run" then "sleep"
  else if typeFilter = "sleep" then ""
  else typeFilter

/-- The common tail of the filter, sort and refresh keys: back to page 1 with the
roots dropped, and the batch of spinner tick and fetch. -/
def Model.reload (m : Model) : Model × Cmd :=
  let m := { m with roots := [], cursor := none, prevCursors := [], selected := 0,
                    loading := true }
  (m, Cmd.batch [Cmd.tick, Cmd.fetchRoots m])

/-- The loop of the key `a` (forest.go lines 214-222): every collapsed root is
expanded, and a fetch is queued for each of them that has no tree and is not loading. -/
def expandAll : List RootItem → List RootItem × List Cmd
  | [] => ([], [])
  | root :: rest =>
    let r := expandAll rest
    if root.Expanded = false then
      if root.Tree = none ∧ root.Loading = false then
        ({ root with Expanded := true, Loading := true } :: r.1,
          Cmd.fetchTreeForRoot root.Promise.ID :: r.2)
      else ({ root with Expanded := true } :: r.1, r.2)
    else (root :: r.1, r.2)

/-- Writing through the pointer `m.roots[m.selected]`: the item at the selection is
replaced by its updated value. -/
def Model.setSelectedRoot (m : Model) (root : RootItem) : Model :=
  { m with roots := m.roots.set m.selected.toNat root }

/-- Model of the forest's `Model.updateNavigation` (forest.go lines 172-335); `key` is
`msg.String()`.  Indexing `m.roots` with a negative `selected` is the Go panic; for the
key `i` the indexing happens only when the returned command is run. -/
def Model.updateNavigation (m : Model) (key : String) : Except tree.Fault (Model × Cmd) :=
  if theme.Key key ["j", "down"] then
    if m.selected < (m.roots.length : Int) - 1 then
      .ok (({ m with selected := m.selected + 1 } : Model).adjustScroll, Cmd.none)
    else .ok (m, Cmd.none)
  else if theme.Key key ["k", "up"] then
    if m.selected > 0 then
      .ok (({ m with selected := m.selected - 1 } : Model).adjustScroll, Cmd.none)
    else .ok (m, Cmd.none)
  else if theme.Key key ["enter", " "] then
    if m.selected < (m.roots.length : Int) then
      if m.selected < 0 then .error tree.Fault.indexOutOfRange
      else
        match m.roots[m.selected.toNat]? with
        | none => .error tree.Fault.indexOutOfRange
        | some root =>
          if root.Expanded then
            .ok (m.setSelectedRoot { root with Expanded := false }, Cmd.none)
          else if root.Tree = none ∧ root.Loading = false then
            .ok (m.setSelectedRoot { root with Expanded := true, Loading := true },
              Cmd.batch [Cmd.tick, Cmd.fetchTreeForRoot root.Promise.ID])
          else
            .ok (m.setSelectedRoot { root with Expanded := true }, Cmd.none)
    else .ok (m, Cmd.none)
  else if theme.Key key ["i"] then
    if m.selected < (m.roots.length : Int) then
      if m.selected < 0 then .ok (m, Cmd.panics)
      else
        match m.roots[m.selected.toNat]? with
        | none => .ok (m, Cmd.panics)
        | some root => .ok (m, Cmd.openDetail root.Promise)
    else .ok (m, Cmd.none)
  else if theme.Key key ["a"] then
    let r := expandAll m.roots
    .ok ({ m with roots := r.1 }, Cmd.batch r.2)
  else if theme.Key key ["c"] then
    .ok ({ m with roots := m.roots.map (fun root => { root with Expanded := false }) }, Cmd.none)
  else if theme.Key key ["s"] then
    .ok ({ m with sortMode := (m.sortMode + 1).tmod 4 } : Model).reload
  else if theme.Key key ["1"] then
    .ok ({ m with stateFilter := "" } : Model).reload
  else if theme.Key key ["2"] then
    .ok ({ m with stateFilter := "pending" } : Model).reload
  else if theme.Key key ["3"] then
    .ok ({ m with stateFilter := "resolved" } : Model).reload
  else if theme.Key key ["4"] then
    .ok ({ m with stateFilter := "rejected" } : Model).reload
  else if theme.Key key ["5"] then
    .ok ({ m with typeFilter := nextTypeFilter m.typeFilter } : Model).reload
  else if theme.Key key ["n"] then
    match m.cursor with
    | some _ =>
      let m := { m with prevCursors := m.prevCursors ++ [currentCursorPlaceholder m.roots],
                        roots := [], selected := 0, loading := true }
      .ok (m, Cmd.batch [Cmd.tick, Cmd.fetchRoots m])
    | none => .ok (m, Cmd.none)
  else if theme.Key key ["p"] then
    match m.prevCursors.getLast? with
    | some prevCursor =>
      let m := { m with prevCursors := m.prevCursors.dropLast,
                        cursor := if prevCursor = "" then none else some prevCursor,
                        roots := [], selected := 0, loading := true }
      .ok (m, Cmd.batch [Cmd.tick, Cmd.fetchRoots m])
    | none => .ok (m, Cmd.none)
  else if theme.Key key ["r"] then .ok m.reload
  else .ok (m, Cmd.none)

/-- Model of the forest's `Model.Update` (forest.go lines 110-170). -/
def Model.Update (m : Model) (msg : Msg) : Except tree.Fault (Model × Cmd) :=
  match msg with
  | Msg.RootsLoadedMsg promises cursor err =>
    let m := { m with loading := false }
    match err with
    | some e => .ok ({ m with err := some e }, Cmd.none)
    | none =>
      .ok ({ m with err := none, roots := promises.map (mergeRoot (oldRootsOf m.roots)),
                    cursor := cursor }, Cmd.none)
  | Msg.TreeLoadedForRootMsg rootID t err =>
    let roots := attachTree rootID t err m.roots
    if m.roots.any (fun root => decide (root.Promise.ID = rootID)) then
      match err with
      | some e => .ok ({ m with roots := roots, err := some e }, Cmd.none)
      | none => .ok ({ m with roots := roots }, Cmd.none)
    else .ok (m, Cmd.none)
  | Msg.TickMsg => .ok (m, Cmd.batch [Cmd.tick])
  | Msg.WindowSizeMsg w h => .ok ({ m with width := w, height := h }, Cmd.batch [])
  | Msg.KeyMsg key => m.updateNavigation key

/-- Model of `New` (forest.go lines 90-101): every field zero but `limit` and
`sortMode`. -/
def New : Model :=
  { roots := [], selected := 0, loading := false, err := none, stateFilter := "",
    typeFilter := "", sortMode := SortCreatedDesc, cursor := none, prevCursors := [],
    limit := 50, width := 0, height := 0, offset := 0 }

/-- A forest model on its first page, with the given roots. -/
def exampleForest (roots : List RootItem) : Model :=
  { roots := roots, selected := 0, loading := false, err := none, stateFilter := "",
    typeFilter := "", sortMode := SortCreatedDesc, cursor := none, prevCursors := [],
    limit := 50, width := 80, height := 24, offset := 0 }

/-- A page with a record of each role; the `rpc` record `a.1` names `a` as its parent. -/
def rolePage : List Promise :=
  [tree.record "a" none none,
   { zeroPromise "a.1" with Tags := [("resonate:parent", "a"), ("resonate:scope", "global")] },
   { zeroPromise "b" with Tags := [("resonate:scope", "local")] },
   { zeroPromise "c" with Tags := [("resonate:timeout", "5000")] }]

/-- A forest model with the role filter `rpc`. -/
def rpcFilterForest : Model :=
  { exampleForest [] with typeFilter := "rpc" }

/-- A forest model on a later page: a continuation cursor and one marker on the
back-stack. -/
def laterPage : Model :=
  { exampleForest [] with cursor := some "c2", prevCursors := [""] }

/-- An expanded root item `x` whose tree has been loaded. -/
def expandedRoot : RootItem :=
  { Promise := tree.record "x" none none, Tree := some (tree.exampleHeap, 0),
    Expanded := true, Loading := false }

end forest

namespace tree

open client

/-- The cyclic collection of the specification: `a` has parent `b` and `b` has
parent `a`. -/
def cycleRecords : List Promise :=
  [record "a" (some "b") none, record "b" (some "a") none]

/-- An acyclic collection in which the record `s` names itself as its parent. -/
def selfParentRecords : List Promise :=
  [record "r" none none, record "s" (some "s") none, record "r.1" (some "r") none]

/-- An acyclic collection in which the record `st` names a parent `q` that no record
has, next to the tree of `r`. -/
def strayRecords : List Promise :=
  [record "r" none none, record "r.1" (some "r") none, record "st" (some "q") none,
   record "st.1" (some "st") none]

/-- The tree view showing `exampleHeap` with the leaf `r.1.1` (node 3) selected. -/
def leafSelected : Model :=
  { exampleModel with selected := 2 }

/-- A tree view of 24 lines whose selection, at index 30, lies below the window that
starts at the offset 4. -/
def scrolledModel : Model :=
  { exampleModel with selected := 30, offset := 4 }

/-- A tree view whose window height is the least value of Go's `int`, with the
selection 10 and the offset 6. -/
def leastHeightModel : Model :=
  { exampleModel with height := -9223372036854775808, selected := 10, offset := 6 }

/-- A tree view of 24 lines whose offset is 10 and whose selection is 5 below the
greatest value of Go's `int`. -/
def farScrolledModel : Model :=
  { exampleModel with selected := 9223372036854775802, offset := 9223372036854775797 }

end tree

namespace promises

open client

/-- Model of `promiseRole` of the promise list (list.go lines 421-437). -/
def promiseRole (p : Promise) : String :=
  if tag p.Tags "resonate:timeout" ≠ "" then "sleep"
  else if tag p.Tags "resonate:scope" = "global" then "rpc"
  else if tag p.Tags "resonate:scope" = "local" then "run"
  else
    let parent := tag p.Tags "resonate:parent"
    if parent = "" ∨ parent = p.ID then "root" else ""

/-- The fields of the promise list view (`promises.Model`) that `applyFilter` reads and
writes. -/
structure Model where
  allPromises : List Promise
  promises : List Promise
  selected : Int
  rootsOnly : Bool
deriving DecidableEq, Repr

/-- Model of `Model.applyFilter` (list.go lines 403-418). -/
def Model.applyFilter (m : Model) : Model :=
  let m :=
    if m.rootsOnly then
      { m with promises := m.allPromises.filter (fun p => decide (promiseRole p = "root")) }
    else { m with promises := m.allPromises }
  if m.selected ≥ (m.promises.length : Int) then
    { m with selected := max ((m.promises.length : Int) - 1) 0 }
  else m

/-- A page with the record `a` and its child `a.1`, which has a parent tag and neither
a scope nor a timeout tag. -/
def childPage : List Promise :=
  [tree.record "a" none none, tree.record "a.1" (some "a") none]

end promises

namespace forest

open client

/-- A forest with the roots `x` and `y`, both expanded and waiting for their trees. -/
def twoLoading : Model :=
  exampleForest
    [{ Promise := tree.record "x" none none, Tree := none, Expanded := true, Loading := true },
     { Promise := tree.record "y" none none, Tree := none, Expanded := true, Loading := true }]

end forest

namespace tree

open client

/-! ### The legacy loader `fetchWithRootTag` -/

/-- The query collaborator `Client.SearchPromises`: its answer to a query, which may
depend on the queries made before it (the first argument, oldest first). -/
abbrev Searcher := List SearchParams → SearchParams → Except String SearchResult

/-- The local type `searchItem` of `fetchWithRootTag` (tree.go lines 317-321). -/
structure searchItem where
  id : String
  origin : String
  cursor : String
deriving DecidableEq, Repr

/-- The variables of `fetchWithRootTag`, with the calls made on the collaborator so far
(`log`: each query with its answer, oldest first) and whether the function has
returned. -/
structure FetchState where
  allPromises : List Promise
  queue : List searchItem
  log : List (SearchParams × Except String SearchResult)
  returned : Bool

/-- The `client.SearchParams` built for a queue item (tree.go lines 330-335). -/
def rootTagParams (item : searchItem) : SearchParams :=
  { ID := item.id, State := "", Tags := [("resonate:root", item.origin)], Limit := 100,
    Cursor := item.cursor, SortID := none }

/-- The body of `for _, p := range result.Promises` (tree.go lines 341-347) on the
pair of `allPromises` and `queue`. -/
def scanRecord (origin : String) (acc : List Promise × List searchItem) (p : Promise) :
    List Promise × List searchItem :=
  let allPromises := acc.1 ++ [p]
  if tag p.Tags "resonate:scope" = "global" ∧ p.ID ≠ origin then
    (allPromises, acc.2 ++ [{ id := "*", origin := p.ID, cursor := "" }])
  else (allPromises, acc.2)

/-- One iteration of `for len(queue) > 0` (tree.go lines 326-355), from a state in
which the function has not returned; an empty queue and a failing query (`break`) both
lead to the return. -/
def fetchStep (search : Searcher) (s : FetchState) : FetchState :=
  match s.queue with
  | [] => { s with returned := true }
  | item :: queue =>
    let params := rootTagParams item
    match search (s.log.map Prod.fst) params with
    | .error err =>
      { s with queue := queue, log := s.log ++ [(params, .error err)], returned := true }
    | .ok result =>
      let r := result.Promises.foldl (scanRecord item.origin) (s.allPromises, queue)
      let queue :=
        match result.Cursor with
        | some cursor => r.2 ++ [{ id := item.id, origin := item.origin, cursor := cursor }]
        | none => r.2
      { allPromises := r.1, queue := queue, log := s.log ++ [(params, .ok result)],
        returned := false }

/-- The loop of `fetchWithRootTag` run for at most `fuel` iterations: the state reached,
with `returned = false` when the loop is still going. -/
def fetchLoop (search : Searcher) : Nat → FetchState → FetchState
  | 0, s => s
  | fuel + 1, s => if s.returned then s else fetchLoop search fuel (fetchStep search s)

/-- The variables of `fetchWithRootTag` before the loop (tree.go lines 323-324). -/
def fetchStart (rootID : String) : FetchState :=
  { allPromises := [], queue := [{ id := "*", origin := rootID, cursor := "" }], log := [],
    returned := false }

/-- Model of `fetchWithRootTag` (tree.go lines 315-358) run for at most `fuel`
iterations of its loop; the value the Go function returns is `allPromises` of a state
with `returned = true`. -/
def fetchWithRootTag (search : Searcher) (fuel : Nat) (rootID : String) : FetchState :=
  fetchLoop search fuel (fetchStart rootID)

/-- The records of the successful queries of a log, query after query. -/
def recordsOf (log : List (SearchParams × Except String SearchResult)) : List Promise :=
  log.flatMap (fun e =>
    match e.2 with
    | .ok result => result.Promises
    | .error _ => [])

/-- The queue items a successful answer adds for newly reported origins: one for each
record of global scope whose id is not the origin queried, in page order. -/
def newOrigins (origin : String) (page : List Promise) : List searchItem :=
  (page.filter (fun p => decide (tag p.Tags "resonate:scope" = "global" ∧ p.ID ≠ origin))).map
    (fun p => { id := "*", origin := p.ID, cursor := "" })

/-- What the loop puts on the queue after the query for `item`, for a collaborator
whose answers do not depend on earlier queries: nothing after a failure, else the new
origins followed by the continuation for the same origin, if the answer has a cursor. -/
def nextItems (f : SearchParams → Except String SearchResult) (item : searchItem) :
    List searchItem :=
  match f (rootTagParams item) with
  | .error _ => []
  | .ok result =>
    newOrigins item.origin result.Promises ++
      (match result.Cursor with
        | some cursor => [{ id := item.id, origin := item.origin, cursor := cursor }]
        | none => [])

/-- The number of queries it takes to empty a queue, when that is finite: one for each
item plus those for what the item puts on the queue. -/
inductive QuerySize (f : SearchParams → Except String SearchResult) :
    List searchItem → Nat → Prop
  | nil : QuerySize f [] 0
  | cons (item : searchItem) (rest : List searchItem) (n m : Nat) :
      QuerySize f (nextItems f item) n → QuerySize f rest m →
      QuerySize f (item :: rest) (n + m + 1)

/-- The origins queried according to a log, query after query. -/
def queriedOrigins (log : List (SearchParams × Except String SearchResult)) : List String :=
  log.map (fun e => tag e.1.Tags "resonate:root")

/-- The origins the collaborator has reported according to a log: the ids of the
returned records of global scope that differ from the origin of their query. -/
def reportedOrigins (log : List (SearchParams × Except String SearchResult)) : List String :=
  log.flatMap (fun e =>
    match e.2 with
    | .ok result =>
      (newOrigins (tag e.1.Tags "resonate:root") result.Promises).map (fun it => it.origin)
    | .error _ => [])

/-- Every origin on the queue or in the log is the requested root or a reported one. -/
structure OriginInv (rootID : String) (s : FetchState) : Prop where
  queue : ∀ it ∈ s.queue, it.origin = rootID ∨ it.origin ∈ reportedOrigins s.log
  log : ∀ o ∈ queriedOrigins s.log, o = rootID ∨ o ∈ reportedOrigins s.log

/-- What holds of the variables of `fetchWithRootTag` after every iteration: the result
so far is the records of the successful queries, every logged answer is the answer of
the collaborator, and a failed query is the last one, after which the function has
returned. -/
structure FetchInv (search : Searcher) (s : FetchState) : Prop where
  records : s.allPromises = recordsOf s.log
  answers : ∀ (i : Nat) (e : SearchParams × Except String SearchResult), s.log[i]? = some e →
    e.2 = search ((s.log.take i).map Prod.fst) e.1
  failure : ∀ (i : Nat) (e : SearchParams × Except String SearchResult) (err : String),
    s.log[i]? = some e → e.2 = .error err → i + 1 = s.log.length ∧ s.returned = true

/-- A record with the given id and the scope `global`. -/
def globalRecord (id : String) : Promise :=
  { zeroPromise id with Tags := [("resonate:scope", "global")] }

/-- A collaborator with two pages for the origin `r`, the first reporting the new
origin `a`, and nothing for any other origin. -/
def pagedSearch : Searcher := fun _ params =>
  if tag params.Tags "resonate:root" = "r" then
    if params.Cursor = "" then .ok { Promises := [globalRecord "a"], Cursor := some "c1" }
    else .ok { Promises := [zeroPromise "r.2"], Cursor := none }
  else .ok { Promises := [], Cursor := none }

/-- The answers of `pagedSearch`, which do not depend on earlier queries. -/
def pagedAnswers : SearchParams → Except String SearchResult := pagedSearch []

/-- A collaborator with one page for every origin, on which the origin `r` reports the
origin `a` and the origin `a` reports the origin `r`. -/
def pingPong : Searcher := fun _ params =>
  if tag params.Tags "resonate:root" = "r" then
    .ok { Promises := [globalRecord "a"], Cursor := none }
  else if tag params.Tags "resonate:root" = "a" then
    .ok { Promises := [globalRecord "r"], Cursor := none }
  else .ok { Promises := [], Cursor := none }

/-- A collaborator whose first answer is a page with the record `x` and whose every later
answer is a failure. -/
def failsSecond : Searcher := fun earlier _ =>
  if earlier = [] then .ok { Promises := [globalRecord "x"], Cursor := some "c1" }
  else .error "connection refused"

/-! ### The events of the tree view -/

/-- The messages handled by the tree view; an `error` is its text. -/
inductive Msg where
  | KeyMsg (key : String)
  | TreeLoadedMsg (Promises : List Promise) (Err : Option String)
  | TickMsg
  | WindowSizeMsg (Width Height : Int)

/-- Model of `New` (tree.go lines 40-49): every field zero. -/
def New : Model :=
  { RootID := "", heap := [], root := none, visible := [], selected := 0, loading := false,
    err := none, width := 0, height := 0, offset := 0 }

/-- Model of `Model.Load` (tree.go lines 52-60). -/
def Model.Load (m : Model) (rootID : String) : Model × Cmd :=
  ({ m with RootID := rootID, loading := true, root := none, visible := [], selected := 0,
            offset := 0 }, Cmd.tickAndFetch)

/-- The successful case of `TreeLoadedMsg` (tree.go lines 73-78): the tree is built and
flattened, selection and scroll offset go back to 0. -/
def Model.loaded (sortSlice : (Nat → Nat → Bool) → List Nat → List Nat) (fuel : Nat) (m : Model)
    (promises : List Promise) : Except Fault (Model × Cmd) :=
  match BuildTree sortSlice fuel m.RootID promises with
  | none => .error Fault.outOfFuel
  | some built =>
    match Model.flatten fuel built.1 (some built.2) with
    | .error e => .error e
    | .ok visible =>
      .ok ({ m with loading := false, err := none, heap := built.1, root := some built.2,
                    visible := visible, selected := 0, offset := 0 }, Cmd.none)

/-- Model of `Model.Update` of the tree view (tree.go lines 62-92) over a model
`sortSlice` of `sort.Slice`; `fuel` bounds the nested calls of the recursive closures. -/
def Model.Update (sortSlice : (Nat → Nat → Bool) → List Nat → List Nat) (fuel : Nat) (m : Model)
    (msg : Msg) : Except Fault (Model × Cmd) :=
  match msg with
  | Msg.KeyMsg key => m.updateNavigation fuel key
  | Msg.TreeLoadedMsg promises err =>
    match err with
    | some e => .ok ({ m with loading := false, err := some e }, Cmd.none)
    | none => m.loaded sortSlice fuel promises
  | Msg.TickMsg => .ok (m, Cmd.tick)
  | Msg.WindowSizeMsg w h => .ok ({ m with width := w, height := h }, Cmd.none)

/-- The states of the tree view reached from `New` by `Load` and by the messages that
`Update` handles to the end, the record collections of the tree-loaded messages being
`allowed`. -/
inductive Reachable (sortSlice : (Nat → Nat → Bool) → List Nat → List Nat)
    (allowed : List Promise → Prop) : Model → Prop
  | init : Reachable sortSlice allowed New
  | load (m : Model) (rootID : String) :
      Reachable sortSlice allowed m → Reachable sortSlice allowed (m.Load rootID).1
  | update (m m' : Model) (fuel : Nat) (msg : Msg) (c : Cmd) :
      Reachable sortSlice allowed m →
      (∀ promises, msg = Msg.TreeLoadedMsg promises none → allowed promises) →
      m.Update sortSlice fuel msg = .ok (m', c) → Reachable sortSlice allowed m'

/-- What a key can do to the state: the tree stays as it is and the selection stays,
moves by one inside the list or jumps to an index of the list; or the flag of the
selected node, which has children, is flipped, the list is flattened again and the
selection stays or is clamped to the last index. -/
def KeyEffect (fuel : Nat) (m m' : Model) : Prop :=
  m'.root = m.root ∧
  ((m'.heap = m.heap ∧ m'.visible = m.visible ∧
      (m'.selected = m.selected ∨
        (m'.selected = m.selected + 1 ∧ m.selected < (m.visible.length : Int) - 1) ∨
        (m'.selected = m.selected - 1 ∧ m.selected > 0) ∨
        (∃ i : Nat, i < m.visible.length ∧ m'.selected = (i : Int)))) ∨
    (∃ node n, m.selectedNode = .ok (node, n) ∧ n.Children ≠ [] ∧
      m'.heap = m.heap.set node { n with Expanded := !n.Expanded } ∧
      FlattenVisible m'.heap fuel m.root = some m'.visible ∧
      (m'.selected = m.selected ∨
        ((m'.visible.length : Int) ≤ m.selected ∧
          m'.selected = (m'.visible.length : Int) - 1))))

/-- The flattened list and the tree agree, and the list can be indexed by the
selection as far as the sign goes. -/
structure ViewInv (m : Model) : Prop where
  flat : ∃ f, ∀ fuel, f ≤ fuel → FlattenVisible m.heap fuel m.root = some m.visible
  nonneg : 0 ≤ m.selected

/-- The tree view shows a finite tree without shared nodes, flattened, with the
selection inside the visible list. -/
structure TreeInv (m : Model) : Prop where
  shape : m.root = none ∧ m.visible = [] ∨
    ∃ t : Shape, m.root = some t.ptr ∧ Holds m.heap t ∧ t.nodes.Nodup ∧
      m.visible = t.visible m.heap
  nonneg : 0 ≤ m.selected
  inRange : m.visible ≠ [] → m.selected < (m.visible.length : Int)

/-- The cell of `r.1` in `exampleHeap`, collapsed. -/
def collapsedCell : TreeNode :=
  { Promise := record "r.1" (some "r") none, Children := [3, 4], Expanded := false, Depth := 1 }

/-- The tree view showing `exampleHeap` with the subtree of `r.1` collapsed and `r.1`
selected. -/
def collapsedModel : Model :=
  { exampleModel with heap := exampleHeap.set 1 collapsedCell, visible := [0, 1, 2] }

/-- The tree view after `Load` of `r`, the arrival of `chainRecords` and the key `j`. -/
def loadedChain : Model :=
  { RootID := "r",
    heap := [cell (record "r.1" (some "r") (some 20)) [3] 1, cell (record "r" none (some 10)) [2, 0] 0,
      cell (record "r.2" (some "r") (some 15)) [] 1, cell (record "r.1.1" (some "r.1") none) [] 2],
    root := some 1, visible := [1, 2, 0, 3], selected := 1, loading := false, err := none,
    width := 0, height := 0, offset := 0 }

/-- Records in which the id `x` occurs twice, and the node `c` below `x` has a child. -/
def sharedChildRecords : List Promise :=
  [record "r" none none, record "x" (some "r") none, record "x" (some "r") none,
   record "c" (some "x") none, record "d" (some "c") none]

/-- Records in which the id `x` occurs twice, the node `c` below `x` has a child, and
the root has a further child `y` with a child of its own. -/
def sharedToggleRecords : List Promise :=
  [record "r" none none, record "x" (some "r") none, record "x" (some "r") none,
   record "c" (some "x") none, record "d" (some "c") none, record "y" (some "r") none,
   record "z" (some "y") none]

/-! ### Graph facts about a forest-like children index -/

theorem reach_comparable {cm : String → List Nat} {P : List Promise}
    (hu : ∀ p q c, Edge cm P p c → Edge cm P q c → p = q) {a b q : Nat}
    (ha : Relation.ReflTransGen (Edge cm P) a q) (hb : Relation.ReflTransGen (Edge cm P) b q) :
    Relation.ReflTransGen (Edge cm P) a b ∨ Relation.ReflTransGen (Edge cm P) b a := by
  induction ha generalizing b with
  | refl => exact Or.inr hb
  | tail hq he ih =>
    rcases Relation.ReflTransGen.cases_tail hb with hbq | ⟨x, hbx, hxe⟩
    · subst hbq
      exact Or.inl (hq.tail he)
    · have := hu _ _ _ he hxe
      subst this
      exact ih hbx

theorem ForestLike.not_reach_parent {cm : String → List Nat} {P : List Promise}
    (F : ForestLike cm P) {p c : Nat} (he : Edge cm P p c) :
    ¬ Relation.ReflTransGen (Edge cm P) c p := by
  intro h
  exact F.acyclic p (Relation.TransGen.head' he h)

theorem ForestLike.siblings_disjoint {cm : String → List Nat} {P : List Promise}
    (F : ForestLike cm P) {p c d q : Nat} (hc : Edge cm P p c) (hd : Edge cm P p d)
    (hne : c ≠ d) (hcq : Relation.ReflTransGen (Edge cm P) c q) :
    ¬ Relation.ReflTransGen (Edge cm P) d q := by
  intro hdq
  have key : ∀ {x y : Nat}, Edge cm P p x → Edge cm P p y → x ≠ y →
      ¬ Relation.ReflTransGen (Edge cm P) x y := by
    intro x y hx hy hxy hr
    rcases Relation.ReflTransGen.cases_tail hr with h | ⟨z, hxz, hzy⟩
    · exact hxy h.symm
    · have := F.uniqueParent _ _ _ hzy hy
      subst this
      exact F.not_reach_parent hx hxz
  rcases reach_comparable F.uniqueParent hcq hdq with h | h
  · exact key hc hd hne h
  · exact key hd hc (Ne.symm hne) h

/-! ### What `assign` leaves alone -/

theorem getElem?_set_other {h : Heap} {i q : Nat} {n : TreeNode} (hne : q ≠ i) :
    (h.set i n)[q]? = h[q]? := by
  rw [List.getElem?_set]
  simp [Ne.symm hne]

theorem getElem?_set_same {h : Heap} {i : Nat} {n m : TreeNode} (hi : h[i]? = some m) :
    (h.set i n)[i]? = some n := by
  have hlt : i < h.length := by
    rcases List.getElem?_eq_some_iff.mp hi with ⟨hlt, _⟩
    exact hlt
  rw [List.getElem?_set]
  simp [hlt]

theorem promisesOf_set {h : Heap} {i : Nat} {m : TreeNode} (hi : h[i]? = some m)
    (n : TreeNode) (hp : n.Promise = m.Promise) : promisesOf (h.set i n) = promisesOf h := by
  apply List.ext_getElem?
  intro q
  unfold promisesOf
  rw [List.getElem?_map, List.getElem?_map]
  by_cases hq : q = i
  · subst hq
    rw [getElem?_set_same hi, hi]
    simp [hp]
  · rw [getElem?_set_other hq]

theorem promisesOf_getElem? (h : Heap) (q : Nat) :
    (promisesOf h)[q]? = (h[q]?).map (fun n => n.Promise) := by
  simp [promisesOf, List.getElem?_map]

theorem foldlM_assignChild_promisesOf (recur : Nat → Heap → Option Heap) (node : Nat)
    (hrec : ∀ c h h', recur c h = some h' → promisesOf h' = promisesOf h) :
    ∀ (cs : List Nat) (h h' : Heap),
      cs.foldlM (assignChild recur node) h = some h' → promisesOf h' = promisesOf h := by
  intro cs
  induction cs with
  | nil =>
    intro h h' hf
    simp at hf
    rw [hf]
  | cons c cs ih =>
    intro h h' hf
    rw [List.foldlM_cons] at hf
    cases hstep : assignChild recur node h c with
    | none => rw [hstep] at hf; simp at hf
    | some h1 =>
      rw [hstep] at hf
      have h1eq : promisesOf h1 = promisesOf h := by
        unfold assignChild at hstep
        split at hstep
        · rename_i n m hn hm
          rw [hrec _ _ _ hstep]
          exact promisesOf_set hm _ rfl
        · simp at hstep
      rw [← h1eq]
      exact ih h1 h' hf

theorem assign_promisesOf (cm : String → List Nat) :
    ∀ (fuel ptr : Nat) (h h' : Heap), assign cm fuel ptr h = some h' →
      promisesOf h' = promisesOf h := by
  intro fuel
  induction fuel with
  | zero => intro ptr h h' hf; simp [assign] at hf
  | succ fuel ih =>
    intro ptr h h' hf
    unfold assign at hf
    split at hf
    · simp at hf
    · rename_i n hn
      rw [foldlM_assignChild_promisesOf _ ptr (fun c h h' => ih c h h') _ _ _ hf]
      exact promisesOf_set hn _ rfl

/-! ### The effect of `assign` on a forest-like index -/

theorem edge_of_mem {cm : String → List Nat} {h : Heap} {q c : Nat} {n : TreeNode}
    (hq : h[q]? = some n) (hc : c ∈ cm n.Promise.ID) : Edge cm (promisesOf h) q c :=
  ⟨n.Promise, by rw [promisesOf_getElem?, hq]; rfl, hc⟩

theorem mem_of_edge {cm : String → List Nat} {h : Heap} {q c : Nat} {n : TreeNode}
    (hq : h[q]? = some n) (he : Edge cm (promisesOf h) q c) : c ∈ cm n.Promise.ID := by
  rcases he with ⟨x, hx, hc⟩
  rw [promisesOf_getElem?, hq] at hx
  simp at hx
  rw [hx]
  exact hc

theorem Assigned.transfer {cm : String → List Nat} {h h' : Heap} {q : Nat}
    (hagree : ∀ x, Relation.ReflTransGen (Edge cm (promisesOf h)) q x → h'[x]? = h[x]?)
    (ha : Assigned cm h q) : Assigned cm h' q := by
  rcases ha with ⟨n, hn, hch, hd⟩
  refine ⟨n, ?_, hch, ?_⟩
  · rw [hagree q Relation.ReflTransGen.refl]
    exact hn
  · intro c hc
    rcases hd c hc with ⟨m, hm, hmd⟩
    refine ⟨m, ?_, hmd⟩
    rw [hagree c (Relation.ReflTransGen.single (edge_of_mem hn (hch ▸ hc)))]
    exact hm

theorem assign_loop {cm : String → List Nat} {P : List Promise} (F : ForestLike cm P)
    (fuel ptr : Nat) (n : TreeNode) (h : Heap)
    (hn : P[ptr]? = some n.Promise)
    (ih : ∀ (c : Nat) (h h' : Heap), promisesOf h = P → assign cm fuel c h = some h' →
      AssignPost cm P c h h') :
    ∀ (rest done : List Nat) (hc h' : Heap), done ++ rest = cm n.Promise.ID →
      AssignLoopInv cm P ptr n h done hc →
      rest.foldlM (assignChild (assign cm fuel) ptr) hc = some h' →
      AssignLoopInv cm P ptr n h (cm n.Promise.ID) h' := by
  intro rest
  induction rest with
  | nil =>
    intro done hc h' hsplit inv hf
    simp at hf hsplit
    subst hf
    rw [← hsplit]
    exact inv
  | cons c rest ihr =>
    intro done hc h' hsplit inv hf
    rw [List.foldlM_cons] at hf
    cases hstep : assignChild (assign cm fuel) ptr hc c with
    | none => rw [hstep] at hf; simp at hf
    | some h3 =>
      rw [hstep] at hf
      have hsplit' : (done ++ [c]) ++ rest = cm n.Promise.ID := by
        rw [← hsplit]; simp
      refine ihr (done ++ [c]) h3 h' hsplit' ?_ hf
      -- facts about the child `c`
      have hcmem : c ∈ cm n.Promise.ID := by rw [← hsplit]; simp
      have hedge : Edge cm P ptr c := ⟨n.Promise, hn, hcmem⟩
      have hcne : c ≠ ptr := by
        intro e
        rw [e] at hedge
        exact F.acyclic ptr (Relation.TransGen.single hedge)
      have hnd : (done ++ c :: rest).Nodup := by rw [hsplit]; exact F.nodup _
      have hcdone : ∀ d ∈ done, d ≠ c := by
        intro d hd e
        rw [e] at hd
        have := (List.nodup_append.mp hnd).2.2
        exact this hd (List.mem_cons_self _ _)
      have hdedge : ∀ d ∈ done, Edge cm P ptr d := by
        intro d hd
        exact ⟨n.Promise, hn, by rw [← hsplit]; simp [hd]⟩
      -- unfold the step
      unfold assignChild at hstep
      split at hstep
      · rename_i n1 m0 hn1 hm0
        have hprom2 : promisesOf (hc.set c { m0 with Depth := n1.Depth + 1 }) = P := by
          exact (promisesOf_set hm0 { m0 with Depth := n1.Depth + 1 } rfl).trans inv.prom
        have post := ih c _ h3 hprom2 hstep
        have hn1eq : n1 = { n with Children := cm n.Promise.ID } := by
          have := inv.self
          rw [hn1] at this
          exact Option.some.inj this
        -- the store after the step agrees with the store before it away from `c`
        have agree : ∀ q, ¬ Relation.ReflTransGen (Edge cm P) c q → h3[q]? = hc[q]? := by
          intro q hq
          rw [post.frame q hq]
          apply getElem?_set_other
          intro e
          exact hq (e ▸ Relation.ReflTransGen.refl)
        have agree_done : ∀ d ∈ done, ∀ q, Relation.ReflTransGen (Edge cm P) d q →
            h3[q]? = hc[q]? := by
          intro d hd q hq
          exact agree q (F.siblings_disjoint (hdedge d hd) hedge (hcdone d hd) hq)
        constructor
        · rw [assign_promisesOf cm fuel c _ h3 hstep]
          exact hprom2
        · intro q hq hnot
          rw [agree q (hnot c (by simp))]
          exact inv.frame q hq (fun d hd => hnot d (by simp [hd]))
        · rw [agree ptr (F.not_reach_parent hedge)]
          exact inv.self
        · intro d hd q hq
          rcases List.mem_append.mp hd with hd | hd
          · refine Assigned.transfer ?_ (inv.assigned d hd q hq)
            intro x hx
            rw [inv.prom] at hx
            exact agree_done d hd x (hq.trans hx)
          · simp at hd
            subst hd
            exact post.assigned q hq
        · intro d hd
          rcases List.mem_append.mp hd with hd | hd
          · rcases inv.depth d hd with ⟨m, hm, hmd⟩
            refine ⟨m, ?_, hmd⟩
            rw [agree_done d hd d Relation.ReflTransGen.refl]
            exact hm
          · simp at hd
            subst hd
            have hd2 := post.depth
            rw [getElem?_set_same hm0] at hd2
            cases h3d : h3[d]? with
            | none => rw [h3d] at hd2; simp at hd2
            | some m =>
              rw [h3d] at hd2
              simp at hd2
              refine ⟨m, rfl, ?_⟩
              rw [hd2, hn1eq]
      · simp at hstep

theorem assign_spec {cm : String → List Nat} {P : List Promise} (F : ForestLike cm P) :
    ∀ (fuel ptr : Nat) (h h' : Heap), promisesOf h = P → assign cm fuel ptr h = some h' →
      AssignPost cm P ptr h h' := by
  intro fuel
  induction fuel with
  | zero => intro ptr h h' _ hf; simp [assign] at hf
  | succ fuel ih =>
    intro ptr h h' hP hf
    unfold assign at hf
    split at hf
    · simp at hf
    · rename_i n hn
      have hPn : P[ptr]? = some n.Promise := by
        rw [← hP, promisesOf_getElem?, hn]; rfl
      have inv0 : AssignLoopInv cm P ptr n h []
          (h.set ptr { n with Children := cm n.Promise.ID }) := by
        constructor
        · exact (promisesOf_set hn { n with Children := cm n.Promise.ID } rfl).trans hP
        · intro q hq _
          exact getElem?_set_other hq
        · exact getElem?_set_same hn
        · intro c hc; simp at hc
        · intro c hc; simp at hc
      have inv := assign_loop F fuel ptr n h hPn ih (cm n.Promise.ID) [] _ h' (by simp) inv0 hf
      have hedge_mem : ∀ c, Edge cm P ptr c → c ∈ cm n.Promise.ID := by
        intro c he
        rcases he with ⟨x, hx, hc⟩
        rw [hPn] at hx
        rw [Option.some.inj hx]
        exact hc
      constructor
      · intro q hq
        apply inv.frame q
        · intro e
          exact hq (e ▸ Relation.ReflTransGen.refl)
        · intro c hc hcq
          exact hq (Relation.ReflTransGen.head ⟨n.Promise, hPn, hc⟩ hcq)
      · rw [inv.self, hn]
        rfl
      · intro q hq
        rcases Relation.ReflTransGen.cases_head hq with e | ⟨c, he, hcq⟩
        · subst e
          refine ⟨_, inv.self, rfl, ?_⟩
          intro c hc
          exact inv.depth c hc
        · exact inv.assigned c (hedge_mem c he) q hcq

/-! ### The index built by the first loop of `BuildTree` -/

theorem getElem?_snoc_some {α : Type} {l : List α} {x y : α} {i : Nat}
    (h : (l ++ [x])[i]? = some y) : l[i]? = some y ∨ (i = l.length ∧ y = x) := by
  rcases Nat.lt_or_ge i l.length with hlt | hge
  · rw [List.getElem?_append_left hlt] at h
    exact Or.inl h
  · rw [List.getElem?_append_right hge] at h
    right
    cases hi : i - l.length with
    | zero =>
      rw [hi] at h
      simp at h
      exact ⟨by omega, h.symm⟩
    | succ k =>
      rw [hi] at h
      simp at h

theorem getElem?_snoc_of_some {α : Type} {l : List α} {x y : α} {i : Nat}
    (h : l[i]? = some y) : (l ++ [x])[i]? = some y := by
  have hlt : i < l.length := (List.getElem?_eq_some_iff.mp h).1
  rw [List.getElem?_append_left hlt]
  exact h

theorem getElem?_snoc_length {α : Type} (l : List α) (x : α) :
    (l ++ [x])[l.length]? = some x := by
  simp

theorem getElem?_lt {α : Type} {l : List α} {y : α} {i : Nat} (h : l[i]? = some y) :
    i < l.length := (List.getElem?_eq_some_iff.mp h).1

theorem IndexInv.step {ps : List Promise} {s : Index} (inv : IndexInv ps s) (p : Promise) :
    IndexInv (ps ++ [p]) (indexStep s p) := by
  have hlen : s.nodes.length = ps.length := by rw [inv.nodes]; simp
  have hmem : ∀ (cmNew : String → List Nat) (par : Option String),
      p.Tags.lookup "resonate:parent" = par →
      (∀ k, cmNew k =
        if par = some k ∧ k ≠ p.ID then s.childrenMap k ++ [ps.length] else s.childrenMap k) →
      (∀ k c, c ∈ cmNew k ↔ ∃ q, (ps ++ [p])[c]? = some q ∧
          q.Tags.lookup "resonate:parent" = some k ∧ k ≠ q.ID) ∧
        ∀ k, (cmNew k).Pairwise (fun a b => a < b) := by
    intro cmNew par hpar hcm
    constructor
    · intro k c
      rw [hcm k]
      constructor
      · intro hc
        by_cases hk : par = some k ∧ k ≠ p.ID
        · rw [if_pos hk] at hc
          rcases List.mem_append.mp hc with hc | hc
          · rcases (inv.mem_children k c).mp hc with ⟨q, hq, hq2⟩
            exact ⟨q, getElem?_snoc_of_some hq, hq2⟩
          · simp at hc
            subst hc
            exact ⟨p, getElem?_snoc_length ps p, by rw [hpar]; exact hk.1, hk.2⟩
        · rw [if_neg hk] at hc
          rcases (inv.mem_children k c).mp hc with ⟨q, hq, hq2⟩
          exact ⟨q, getElem?_snoc_of_some hq, hq2⟩
      · rintro ⟨q, hq, hq2, hq3⟩
        rcases getElem?_snoc_some hq with hq | ⟨hi, hqp⟩
        · have : c ∈ s.childrenMap k := (inv.mem_children k c).mpr ⟨q, hq, hq2, hq3⟩
          split
          · exact List.mem_append_left _ this
          · exact this
        · subst hqp
          have hk : par = some k ∧ k ≠ q.ID := ⟨by rw [← hpar]; exact hq2, hq3⟩
          rw [if_pos hk, hi]
          simp
    · intro k
      rw [hcm k]
      split
      · rw [List.pairwise_append]
        refine ⟨inv.sorted_children k, by simp, ?_⟩
        intro a ha b hb
        simp at hb
        subst hb
        rcases (inv.mem_children k a).mp ha with ⟨q, hq, _⟩
        exact getElem?_lt hq
      · exact inv.sorted_children k
  have hcm : ∀ k, (indexStep s p).childrenMap k =
      if p.Tags.lookup "resonate:parent" = some k ∧ k ≠ p.ID
      then s.childrenMap k ++ [ps.length] else s.childrenMap k := by
    intro k
    unfold indexStep
    simp only [hlen]
    cases hpar : p.Tags.lookup "resonate:parent" with
    | none => simp
    | some parent =>
      simp only []
      by_cases hself : parent = p.ID
      · have : ¬ (some parent = some k ∧ k ≠ p.ID) := by
          intro h
          exact h.2 ((Option.some.inj h.1).symm.trans hself)
        rw [if_neg this]
        simp [hself]
      · simp only [ne_eq, hself, not_false_eq_true, if_true]
        by_cases hk : k = parent
        · subst hk
          simp [hself]
        · have : ¬ (some parent = some k ∧ k ≠ p.ID) := by
            intro h
            exact hk (Option.some.inj h.1).symm
          rw [if_neg this, if_neg hk]
  have hboth := hmem (indexStep s p).childrenMap _ rfl hcm
  constructor
  · unfold indexStep
    simp [inv.nodes]
  · intro k i hi
    unfold indexStep at hi
    simp only at hi
    split at hi
    · rename_i hk
      rw [hlen] at hi
      have := Option.some.inj hi
      subst this
      exact ⟨p, getElem?_snoc_length ps p, hk.symm⟩
    · rcases inv.nodeMap_some k i hi with ⟨q, hq, hq2⟩
      exact ⟨q, getElem?_snoc_of_some hq, hq2⟩
  · intro k hk q hq
    unfold indexStep at hk
    simp only at hk
    split at hk
    · simp at hk
    · rename_i hne
      rcases List.mem_append.mp hq with hq | hq
      · exact inv.nodeMap_none k hk q hq
      · simp at hq
        subst hq
        exact fun e => hne e.symm
  · intro k i hi j q hq hqk
    unfold indexStep at hi
    simp only at hi
    split at hi
    · rw [hlen] at hi
      have := Option.some.inj hi
      subst this
      have := getElem?_lt hq
      simp at this
      omega
    · rename_i hne
      rcases getElem?_snoc_some hq with hq | ⟨_, hqp⟩
      · exact inv.nodeMap_last k i hi j q hq hqk
      · subst hqp
        exact absurd hqk.symm hne
  · exact hboth.1
  · exact hboth.2
  · intro k
    rw [hcm k, List.countP_append]
    have := inv.len_children k
    split
    · rename_i hk
      simp [hk.1]
      omega
    · simp
      omega

theorem IndexInv.foldl (ps : List Promise) :
    ∀ (qs : List Promise) (s : Index), IndexInv qs s →
      IndexInv (qs ++ ps) (ps.foldl indexStep s) := by
  induction ps with
  | nil => intro qs s inv; simpa using inv
  | cons p ps ih =>
    intro qs s inv
    have := ih (qs ++ [p]) (indexStep s p) (inv.step p)
    simpa using this

theorem buildIndex_inv (ps : List Promise) : IndexInv ps (buildIndex ps) := by
  have h0 : IndexInv [] { nodes := [], nodeMap := fun _ => none, childrenMap := fun _ => [] } := by
    constructor <;> simp
  simpa [buildIndex] using IndexInv.foldl ps [] _ h0

/-! ### Termination of `assign` -/

theorem wellFounded_of_acyclic {α : Type} (r : α → α → Prop) (S : List α)
    (hS : ∀ a b, r a b → a ∈ S) (hac : ∀ a, ¬ Relation.TransGen r a a) : WellFounded r := by
  classical
  let T := { a : α // a ∈ S }
  let rT : T → T → Prop := fun x y => Relation.TransGen r x.1 y.1
  haveI : Finite T := List.finite_toSet S |>.to_subtype
  haveI : IsTrans T rT := ⟨fun _ _ _ h1 h2 => Relation.TransGen.trans h1 h2⟩
  haveI : IsIrrefl T rT := ⟨fun x h => hac x.1 h⟩
  have wfT : WellFounded rT := Finite.wellFounded_of_trans_of_irrefl rT
  have accT : ∀ t : T, Acc r t.1 := by
    intro t
    induction t using wfT.induction with
    | _ t ih =>
      constructor
      intro b hb
      exact ih ⟨b, hS b t.1 hb⟩ (Relation.TransGen.single hb)
  constructor
  intro a
  constructor
  intro b hb
  exact accT ⟨b, hS b a hb⟩

theorem exists_fuel_bound {Q : Nat → Nat → Prop} (cs : List Nat)
    (h : ∀ c ∈ cs, ∃ f, ∀ fuel, f ≤ fuel → Q c fuel) :
    ∃ F, ∀ c ∈ cs, ∀ fuel, F ≤ fuel → Q c fuel := by
  induction cs with
  | nil => exact ⟨0, by simp⟩
  | cons c cs ih =>
    rcases ih (fun d hd => h d (List.mem_cons_of_mem _ hd)) with ⟨F, hF⟩
    rcases h c (List.mem_cons_self _ _) with ⟨f, hf⟩
    refine ⟨max F f, ?_⟩
    intro d hd fuel hfuel
    rcases List.mem_cons.mp hd with e | hd
    · subst e
      exact hf fuel (le_trans (le_max_right _ _) hfuel)
    · exact hF d hd fuel (le_trans (le_max_left _ _) hfuel)

theorem foldlM_assignChild_some {cm : String → List Nat} {P : List Promise} (fuel node : Nat)
    (hnode : node < P.length) :
    ∀ (cs : List Nat) (h : Heap), promisesOf h = P → (∀ c ∈ cs, c < P.length) →
      (∀ c ∈ cs, ∀ g, promisesOf g = P → ∃ g', assign cm fuel c g = some g') →
      ∃ h', cs.foldlM (assignChild (assign cm fuel) node) h = some h' := by
  intro cs
  induction cs with
  | nil => intro h _ _ _; exact ⟨h, by simp⟩
  | cons c cs ih =>
    intro h hP hlt hrec
    have hlen : h.length = P.length := by rw [← hP]; simp [promisesOf]
    have hc : c < h.length := by rw [hlen]; exact hlt c (List.mem_cons_self _ _)
    have hn : node < h.length := by rw [hlen]; exact hnode
    rw [List.foldlM_cons]
    have hstep : ∃ h1, assignChild (assign cm fuel) node h c = some h1 := by
      unfold assignChild
      rw [List.getElem?_eq_getElem hn, List.getElem?_eq_getElem hc]
      simp only []
      apply hrec c (List.mem_cons_self _ _)
      exact (promisesOf_set (List.getElem?_eq_getElem hc)
        { h[c] with Depth := h[node].Depth + 1 } rfl).trans hP
    rcases hstep with ⟨h1, hh1⟩
    rw [hh1]
    have hP1 : promisesOf h1 = P := by
      unfold assignChild at hh1
      rw [List.getElem?_eq_getElem hn, List.getElem?_eq_getElem hc] at hh1
      simp only [] at hh1
      rw [assign_promisesOf cm fuel c _ h1 hh1]
      exact (promisesOf_set (List.getElem?_eq_getElem hc)
        { h[c] with Depth := h[node].Depth + 1 } rfl).trans hP
    exact ih h1 hP1 (fun d hd => hlt d (List.mem_cons_of_mem _ hd))
      (fun d hd => hrec d (List.mem_cons_of_mem _ hd))

theorem assign_terminates {cm : String → List Nat} {P : List Promise}
    (hvalid : ∀ p c, Edge cm P p c → c < P.length)
    (hac : ∀ p, ¬ Relation.TransGen (Edge cm P) p p) :
    ∀ ptr, ptr < P.length → ∃ f, ∀ fuel, f ≤ fuel → ∀ h, promisesOf h = P →
      ∃ h', assign cm fuel ptr h = some h' := by
  have wf : WellFounded (fun c p => Edge cm P p c) := by
    apply wellFounded_of_acyclic _ (List.range P.length)
    · intro a b hab
      exact List.mem_range.mpr (hvalid b a hab)
    · intro a ha
      exact hac a (Relation.transGen_swap.mp ha)
  intro ptr
  induction ptr using wf.induction with
  | _ ptr ih =>
    intro hptr
    obtain ⟨x, hx⟩ : ∃ x, P[ptr]? = some x := ⟨P[ptr], List.getElem?_eq_getElem hptr⟩
    have hkids : ∀ c ∈ cm x.ID, ∃ f, ∀ fuel, f ≤ fuel →
        ∀ h, promisesOf h = P → ∃ h', assign cm fuel c h = some h' := by
      intro c hc
      have he : Edge cm P ptr c := ⟨x, hx, hc⟩
      exact ih c he (hvalid ptr c he)
    rcases exists_fuel_bound (cm x.ID) hkids with ⟨F, hF⟩
    refine ⟨F + 1, ?_⟩
    intro fuel hfuel h hP
    obtain ⟨fuel', rfl⟩ : ∃ k, fuel = k + 1 := ⟨fuel - 1, by omega⟩
    have hlen : h.length = P.length := by rw [← hP]; simp [promisesOf]
    have hn : ptr < h.length := by rw [hlen]; exact hptr
    unfold assign
    rw [List.getElem?_eq_getElem hn]
    simp only []
    have hid : h[ptr].Promise = x := by
      have := promisesOf_getElem? h ptr
      rw [hP, hx, List.getElem?_eq_getElem hn] at this
      simp at this
      exact this.symm
    rw [hid]
    apply foldlM_assignChild_some fuel' ptr hptr
    · exact (promisesOf_set (List.getElem?_eq_getElem hn)
        { Promise := x, Children := cm x.ID, Expanded := h[ptr].Expanded,
          Depth := h[ptr].Depth } hid.symm).trans hP
    · intro c hc
      exact hvalid ptr c ⟨x, hx, hc⟩
    · intro c hc g hg
      exact hF c hc fuel' (by omega) g hg

/-! ### The start state of `assign` inside `BuildTree` -/

theorem promisesOf_map_newNode (ps : List Promise) : promisesOf (ps.map newNode) = ps := by
  unfold promisesOf
  rw [List.map_map]
  exact List.map_id ps

theorem sortChildren_perm {sortSlice : (Nat → Nat → Bool) → List Nat → List Nat}
    (hs : SortSliceSpec sortSlice) (idx : Index) (k : String) :
    (sortChildren sortSlice idx k).Perm (idx.childrenMap k) :=
  (hs (fun a => safeInt64 (createdOnOf idx.nodes a)) (idx.childrenMap k)).1

theorem sortsIndex_of_spec {sortSlice : (Nat → Nat → Bool) → List Nat → List Nat}
    (hs : SortSliceSpec sortSlice) (ps : List Promise) : SortsIndex sortSlice ps :=
  fun k => sortChildren_perm hs (buildIndex ps) k

theorem sortChildren_sorted {sortSlice : (Nat → Nat → Bool) → List Nat → List Nat}
    (hs : SortSliceSpec sortSlice) (idx : Index) (k : String) :
    (sortChildren sortSlice idx k).Pairwise
      (fun a b => safeInt64 (createdOnOf idx.nodes a) ≤ safeInt64 (createdOnOf idx.nodes b)) :=
  (hs (fun a => safeInt64 (createdOnOf idx.nodes a)) (idx.childrenMap k)).2

theorem resolveRoot_start (ps : List Promise) (rootID : String) :
    Start ps rootID (resolveRoot (buildIndex ps) rootID).1 (resolveRoot (buildIndex ps) rootID).2 := by
  have inv := buildIndex_inv ps
  unfold resolveRoot
  cases hr : (buildIndex ps).nodeMap rootID with
  | some r =>
    simp only []
    rcases inv.nodeMap_some rootID r hr with ⟨p, hp, hpid⟩
    rw [inv.nodes]
    constructor
    · rw [promisesOf_map_newNode]
    · intro i q hq
      rw [promisesOf_map_newNode]; exact hq
    · rw [promisesOf_map_newNode]; exact getElem?_lt hp
    · rw [promisesOf_map_newNode]; exact ⟨p, hp, hpid⟩
    · intro i x hx
      rw [promisesOf_map_newNode] at hx
      exact Or.inl hx
    · exact inv.nodeMap_last rootID r hr
  | none =>
    simp only []
    rw [inv.nodes]
    have hP : promisesOf (ps.map newNode ++ [newNode (zeroPromise rootID)]) =
        ps ++ [zeroPromise rootID] := by
      unfold promisesOf
      rw [List.map_append, List.map_map]
      simp only [List.map_cons, List.map_nil]
      congr 1
      exact List.map_id ps
    constructor
    · rw [hP]; simp
    · intro i q hq
      rw [hP]; exact getElem?_snoc_of_some hq
    · rw [hP]; simp
    · rw [hP]
      refine ⟨zeroPromise rootID, ?_, rfl⟩
      simp
    · intro i x hx
      rw [hP] at hx
      rcases getElem?_snoc_some hx with hx | ⟨hi, hxz⟩
      · exact Or.inl hx
      · refine Or.inr ⟨hxz, hi, by simp, ?_⟩
        exact inv.nodeMap_none rootID hr
    · intro j p hj _
      have := getElem?_lt hj
      simp
      omega

theorem mem_of_getElem? {α : Type} {l : List α} {i : Nat} {x : α} (h : l[i]? = some x) :
    x ∈ l := by
  rcases List.getElem?_eq_some_iff.mp h with ⟨hlt, e⟩
  rw [← e]
  exact List.getElem_mem hlt

theorem edge_record {sortSlice : (Nat → Nat → Bool) → List Nat → List Nat}
    {ps : List Promise} (hs : SortsIndex sortSlice ps) {rootID : String} {h0 : Heap}
    {root : Nat} (st : Start ps rootID h0 root) {p c : Nat}
    (he : Edge (sortChildren sortSlice (buildIndex ps)) (promisesOf h0) p c) :
    ∃ x q, (promisesOf h0)[p]? = some x ∧ ps[c]? = some q ∧ (promisesOf h0)[c]? = some q ∧
      q.Tags.lookup "resonate:parent" = some x.ID ∧ x.ID ≠ q.ID := by
  rcases he with ⟨x, hx, hc⟩
  have hc' := (hs x.ID).mem_iff.mp hc
  rcases ((buildIndex_inv ps).mem_children x.ID c).mp hc' with ⟨q, hq, htag, hne⟩
  exact ⟨x, q, hx, hq, st.pre c q hq, htag, hne⟩

theorem start_valid {sortSlice : (Nat → Nat → Bool) → List Nat → List Nat}
    {ps : List Promise} (hs : SortsIndex sortSlice ps) {rootID : String} {h0 : Heap}
    {root : Nat} (st : Start ps rootID h0 root) :
    ∀ p c, Edge (sortChildren sortSlice (buildIndex ps)) (promisesOf h0) p c →
      c < (promisesOf h0).length := by
  intro p c he
  rcases edge_record hs st he with ⟨x, q, _, _, hq, _⟩
  exact getElem?_lt hq

theorem start_acyclic {sortSlice : (Nat → Nat → Bool) → List Nat → List Nat}
    {ps : List Promise} (hs : SortsIndex sortSlice ps) {rootID : String} {h0 : Heap}
    {root : Nat} (st : Start ps rootID h0 root) (hac : Acyclic ps) :
    ∀ p, ¬ Relation.TransGen (Edge (sortChildren sortSlice (buildIndex ps)) (promisesOf h0)) p p := by
  intro p hp
  have lift : Relation.TransGen (ParentEdge ps) (idAt (promisesOf h0) p)
      (idAt (promisesOf h0) p) := Relation.TransGen.lift (idAt (promisesOf h0))
    (fun a b hab => by
      rcases edge_record hs st hab with ⟨x, q, hx, hq, hq', htag, hne⟩
      unfold idAt
      rw [hx, hq']
      exact ⟨q, mem_of_getElem? hq, rfl, htag, hne⟩) hp
  exact hac _ lift

theorem start_forestLike {sortSlice : (Nat → Nat → Bool) → List Nat → List Nat}
    {ps : List Promise} (hs : SortsIndex sortSlice ps) {rootID : String} {h0 : Heap}
    {root : Nat} (st : Start ps rootID h0 root) (hac : Acyclic ps)
    (hid : (ps.map (fun p => p.ID)).Nodup) :
    ForestLike (sortChildren sortSlice (buildIndex ps)) (promisesOf h0) := by
  constructor
  · exact start_valid hs st
  · intro k
    rw [(hs k).nodup_iff]
    exact ((buildIndex_inv ps).sorted_children k).imp (fun hab => Nat.ne_of_lt hab)
  · intro p q c hp hq
    rcases edge_record hs st hp with ⟨x, r, hx, hr, _, htag, _⟩
    rcases edge_record hs st hq with ⟨y, r', hy, hr', _, htag', _⟩
    rw [hr] at hr'
    have := Option.some.inj hr'
    subst this
    rw [htag] at htag'
    have hxy : x.ID = y.ID := Option.some.inj htag'
    -- equal ids sit at equal pointers
    have inj : ∀ (i j : Nat) (a b : Promise), ps[i]? = some a → ps[j]? = some b →
        a.ID = b.ID → i = j := by
      intro i j a b ha hb hab
      have hi : i < (ps.map (fun p => p.ID)).length := by simpa using getElem?_lt ha
      have hj : j < (ps.map (fun p => p.ID)).length := by simpa using getElem?_lt hb
      have h1 : (ps.map (fun p => p.ID))[i] = a.ID := by
        simp [(List.getElem?_eq_some_iff.mp ha).2]
      have h2 : (ps.map (fun p => p.ID))[j] = b.ID := by
        simp [(List.getElem?_eq_some_iff.mp hb).2]
      exact (hid.getElem_inj_iff).mp (by rw [h1, h2, hab])
    rcases st.ids p x hx with hx1 | ⟨hxz, hpi, _, hno⟩
    · rcases st.ids q y hy with hy1 | ⟨hyz, hqi, _, hno⟩
      · exact inj p q x y hx1 hy1 hxy
      · exfalso
        apply hno x (mem_of_getElem? hx1)
        rw [hxy, hyz]; rfl
    · rcases st.ids q y hy with hy1 | ⟨hyz, hqi, _, _⟩
      · exfalso
        apply hno y (mem_of_getElem? hy1)
        rw [← hxy, hxz]; rfl
      · rw [hpi, hqi]
  · exact start_acyclic hs st hac

/-! ### Cell-wise effect of `assign`, for any index -/

theorem HeapStep.refl (cm : String → List Nat) (h : Heap) : HeapStep cm h h :=
  fun _ n hn => ⟨n, hn, rfl, rfl, Or.inl rfl, fun _ => rfl⟩

theorem HeapStep.trans {cm : String → List Nat} {h g k : Heap} (h1 : HeapStep cm h g)
    (h2 : HeapStep cm g k) : HeapStep cm h k := by
  intro q n hn
  rcases h1 q n hn with ⟨m, hm, e1, e2, e3, e4⟩
  rcases h2 q m hm with ⟨r, hr, f1, f2, f3, f4⟩
  refine ⟨r, hr, f1.trans e1, f2.trans e2, ?_, fun hq => (f4 hq).trans (e4 hq)⟩
  rcases f3 with f3 | f3
  · rcases e3 with e3 | e3
    · exact Or.inl (f3.trans e3)
    · exact Or.inr (f3.trans e3)
  · right
    rw [f3, e1]

theorem HeapStep.set {cm : String → List Nat} {h : Heap} {i : Nat} {n m : TreeNode}
    (hi : h[i]? = some n) (hm : CellStep cm i n m) : HeapStep cm h (h.set i m) := by
  intro q r hr
  by_cases hq : q = i
  · subst hq
    rw [hi] at hr
    have := Option.some.inj hr
    subst this
    exact ⟨m, getElem?_set_same hi, hm⟩
  · exact ⟨r, by rw [getElem?_set_other hq]; exact hr, rfl, rfl, Or.inl rfl, fun _ => rfl⟩

theorem foldlM_assignChild_heapStep {cm : String → List Nat} (recur : Nat → Heap → Option Heap)
    (node : Nat) (hrec : ∀ c h h', recur c h = some h' → HeapStep cm h h') :
    ∀ (cs : List Nat) (h h' : Heap), (∀ c ∈ cs, ∃ k, c ∈ cm k) →
      cs.foldlM (assignChild recur node) h = some h' → HeapStep cm h h' := by
  intro cs
  induction cs with
  | nil =>
    intro h h' _ hf
    simp at hf
    rw [hf]
    exact HeapStep.refl cm h'
  | cons c cs ih =>
    intro h h' hmem hf
    rw [List.foldlM_cons] at hf
    cases hstep : assignChild recur node h c with
    | none => rw [hstep] at hf; simp at hf
    | some h1 =>
      rw [hstep] at hf
      have s1 : HeapStep cm h h1 := by
        unfold assignChild at hstep
        split at hstep
        · rename_i n m hn hm
          refine HeapStep.trans (HeapStep.set hm ?_) (hrec _ _ _ hstep)
          refine ⟨rfl, rfl, Or.inl rfl, ?_⟩
          intro hno
          rcases hmem c (List.mem_cons_self _ _) with ⟨k, hk⟩
          exact absurd hk (hno k)
        · simp at hstep
      exact s1.trans (ih h1 h' (fun d hd => hmem d (List.mem_cons_of_mem _ hd)) hf)

theorem assign_heapStep (cm : String → List Nat) :
    ∀ (fuel ptr : Nat) (h h' : Heap), assign cm fuel ptr h = some h' → HeapStep cm h h' := by
  intro fuel
  induction fuel with
  | zero => intro ptr h h' hf; simp [assign] at hf
  | succ fuel ih =>
    intro ptr h h' hf
    unfold assign at hf
    split at hf
    · simp at hf
    · rename_i n hn
      refine HeapStep.trans (HeapStep.set hn ?_)
        (foldlM_assignChild_heapStep _ ptr (fun c h h' => ih c h h') _ _ _
          (fun c hc => ⟨_, hc⟩) hf)
      exact ⟨rfl, rfl, Or.inr rfl, fun _ => rfl⟩

/-- The node on which `assign` is called ends up with the children the index lists
under its id. -/
theorem assign_root_children (cm : String → List Nat) (fuel ptr : Nat) (h h' : Heap)
    (hf : assign cm fuel ptr h = some h') :
    ∃ n m, h[ptr]? = some n ∧ h'[ptr]? = some m ∧ m.Promise = n.Promise ∧
      m.Expanded = n.Expanded ∧ m.Children = cm n.Promise.ID ∧
      ((∀ k, ptr ∉ cm k) → m.Depth = n.Depth) := by
  cases fuel with
  | zero => simp [assign] at hf
  | succ fuel =>
    unfold assign at hf
    split at hf
    · simp at hf
    · rename_i n hn
      have hs : HeapStep cm (h.set ptr { n with Children := cm n.Promise.ID }) h' :=
        foldlM_assignChild_heapStep _ ptr
          (fun c h h' => assign_heapStep cm fuel c h h') _ _ _ (fun c hc => ⟨_, hc⟩) hf
      rcases hs ptr _ (getElem?_set_same hn) with ⟨m, hm, e1, e2, e3, e4⟩
      refine ⟨n, m, hn, hm, e1, e2, ?_, e4⟩
      rcases e3 with e3 | e3
      · exact e3
      · exact e3

/-! ### `BuildTree`: termination and the shape of the result -/

theorem referenceSort_spec : SortSliceSpec referenceSort := by
  intro key l
  unfold referenceSort
  constructor
  · exact List.mergeSort_perm l _
  · have hs : (l.mergeSort (fun a b => !decide (key b < key a))).Pairwise
        (fun a b => (!decide (key b < key a)) = true) :=
      List.sorted_mergeSort
        (by intro a b c; simp; intro h1 h2; exact le_trans h1 h2)
        (by intro a b; simp; exact le_total _ _) l
    exact hs.imp (fun hab => by simpa using hab)

theorem acyclic_of_rankGrows (rank : String → Nat) (ps : List Promise)
    (h : rankGrows rank ps = true) : Acyclic ps := by
  have step : ∀ a b, ParentEdge ps a b → rank a < rank b := by
    intro a b hab
    rcases hab with ⟨p, hp, hid, htag, hne⟩
    unfold rankGrows at h
    have := List.all_eq_true.mp h p hp
    rw [htag] at this
    simp only [Bool.or_eq_true, decide_eq_true_eq] at this
    rcases this with e | e
    · exact absurd (e.trans hid) hne
    · rw [← hid]; exact e
  have tstep : ∀ a b, Relation.TransGen (ParentEdge ps) a b → rank a < rank b := by
    intro a b hab
    induction hab with
    | single h1 => exact step _ _ h1
    | tail _ h2 ih => exact lt_trans ih (step _ _ h2)
  intro id hid
  exact lt_irrefl _ (tstep id id hid)

theorem BuildTree_eq_some {sortSlice : (Nat → Nat → Bool) → List Nat → List Nat} {fuel : Nat}
    {rootID : String} {ps : List Promise} {h : Heap} {root : Nat}
    (hb : BuildTree sortSlice fuel rootID ps = some (h, root)) :
    root = (resolveRoot (buildIndex ps) rootID).2 ∧
      assign (sortChildren sortSlice (buildIndex ps)) fuel root
        (resolveRoot (buildIndex ps) rootID).1 = some h := by
  unfold BuildTree at hb
  simp only [Option.map_eq_some'] at hb
  rcases hb with ⟨h', hh', e⟩
  have e1 : h' = h := congrArg Prod.fst e
  have e2 : (resolveRoot (buildIndex ps) rootID).2 = root := congrArg Prod.snd e
  subst e1
  rw [← e2]
  exact ⟨rfl, hh'⟩

theorem BuildTree_returns {sortSlice : (Nat → Nat → Bool) → List Nat → List Nat}
    (rootID : String) (ps : List Promise) (hs : SortsIndex sortSlice ps) (hac : Acyclic ps) :
    ∃ fuel res, BuildTree sortSlice fuel rootID ps = some res := by
  have st := resolveRoot_start ps rootID
  rcases assign_terminates (start_valid hs st) (start_acyclic hs st hac) _ st.root_lt
    with ⟨f, hf⟩
  rcases hf f (le_refl f) _ rfl with ⟨h', hh'⟩
  refine ⟨f, (h', (resolveRoot (buildIndex ps) rootID).2), ?_⟩
  unfold BuildTree
  simp only [hh', Option.map_some']

theorem inTree_edge {cm : String → List Nat} {P : List Promise} {h : Heap} {root : Nat}
    (hP : promisesOf h = P)
    (hall : ∀ q, Relation.ReflTransGen (Edge cm P) root q → Assigned cm h q) {p : Nat}
    (hp : InTree h root p) : Relation.ReflTransGen (Edge cm P) root p := by
  induction hp with
  | refl => exact Relation.ReflTransGen.refl
  | @tail b c _ hc ih =>
    rcases hall b ih with ⟨n, hn, hch, _⟩
    rcases hc with ⟨n', hn', hc⟩
    rw [hn] at hn'
    have := Option.some.inj hn'
    subst this
    rw [hch] at hc
    exact ih.tail (hP ▸ edge_of_mem hn hc)

theorem Start.cell_eq_newNode {ps : List Promise} {rootID : String} {h0 : Heap} {root : Nat}
    (st : Start ps rootID h0 root) {q : Nat} {n : TreeNode} (hq : h0[q]? = some n) :
    n = newNode n.Promise := by
  have h1 := st.heap
  have h2 : ((promisesOf h0).map newNode)[q]? = some n := by rw [← h1]; exact hq
  rw [List.getElem?_map, promisesOf_getElem?, hq] at h2
  simp at h2
  exact h2.symm

end tree

namespace sort

/-! ### `sort.Slice` on at most 12 elements is a stable insertion sort -/

theorem Swap_adjacent (l : List Nat) (x e : Nat) (post : List Nat) :
    Swap (l ++ x :: e :: post) (l.length + 1) l.length = l ++ e :: x :: post := by
  induction l with
  | nil => simp [Swap]
  | cons a l ih =>
    unfold Swap at ih ⊢
    simp only [List.cons_append, List.length_cons, List.getD_cons_succ, List.set_cons_succ]
    rw [ih]

theorem getD_append_length (l : List Nat) (x : Nat) (post : List Nat) :
    (l ++ x :: post).getD l.length 0 = x := by
  induction l with
  | nil => rfl
  | cons a l ih => simpa using ih

theorem getD_append_length_succ (l : List Nat) (x e : Nat) (post : List Nat) :
    (l ++ x :: e :: post).getD (l.length + 1) 0 = e := by
  induction l with
  | nil => rfl
  | cons a l ih => simpa using ih

theorem Slice_small (next : Nat → Nat) (less : Nat → Nat → Bool) (x : List Nat)
    (hx : x.length ≤ 12) : Slice next less x = insertionSortLessFunc less x 0 x.length := by
  unfold Slice pdqsortLoop
  simp [hx]

/-- Where the inner loop of the insertion sort puts the element `e` that follows the
already sorted run `pre`. -/
theorem insertionInner_spec (less : Nat → Nat → Bool) (e : Nat) (post : List Nat) :
    ∀ pre : List Nat, ∃ l r, pre = l ++ r ∧
      insertionInner less 0 pre.length (pre ++ e :: post) = l ++ e :: r ++ post ∧
      (∀ x ∈ r, less e x = true) ∧ (∀ y, l.getLast? = some y → less e y = false) := by
  intro pre
  induction pre using List.reverseRecOn generalizing post with
  | nil =>
    refine ⟨[], [], rfl, ?_, by simp, by simp⟩
    simp [insertionInner]
  | append_singleton pre x ih =>
    by_cases hlt : less e x = true
    · rcases ih (x :: post) with ⟨l, r, hpre, hins, hr, hl⟩
      refine ⟨l, r ++ [x], by rw [hpre]; simp, ?_, ?_, hl⟩
      · have hlen : (pre ++ [x]).length = pre.length + 1 := by simp
        rw [hlen]
        unfold insertionInner
        have hLess : Less less (pre ++ [x] ++ e :: post) (pre.length + 1) pre.length = true := by
          unfold Less
          have h1 : (pre ++ [x] ++ e :: post).getD (pre.length + 1) 0 = e := by
            have := getD_append_length_succ pre x e post
            simpa using this
          have h2 : (pre ++ [x] ++ e :: post).getD pre.length 0 = x := by
            have := getD_append_length pre x (e :: post)
            simpa using this
          rw [h1, h2]
          exact hlt
        rw [if_pos ⟨Nat.succ_pos _, hLess⟩]
        have hsw : Swap (pre ++ [x] ++ e :: post) (pre.length + 1) pre.length =
            pre ++ e :: x :: post := by
          have := Swap_adjacent pre x e post
          simpa using this
        rw [hsw, hins]
        simp
      · intro y hy
        rcases List.mem_append.mp hy with hy | hy
        · exact hr y hy
        · simp at hy
          rw [hy]
          exact hlt
    · refine ⟨pre ++ [x], [], by simp, ?_, by simp, ?_⟩
      · have hlen : (pre ++ [x]).length = pre.length + 1 := by simp
        rw [hlen]
        unfold insertionInner
        have hLess : ¬ (0 < pre.length + 1 ∧
            Less less (pre ++ [x] ++ e :: post) (pre.length + 1) pre.length = true) := by
          intro h
          apply hlt
          have h1 : (pre ++ [x] ++ e :: post).getD (pre.length + 1) 0 = e := by
            have := getD_append_length_succ pre x e post
            simpa using this
          have h2 : (pre ++ [x] ++ e :: post).getD pre.length 0 = x := by
            have := getD_append_length pre x (e :: post)
            simpa using this
          have := h.2
          unfold Less at this
          rw [h1, h2] at this
          exact this
        rw [if_neg hLess]
        simp
      · intro y hy
        simp at hy
        rw [← hy]
        simpa using hlt

theorem insertionOuter_spec (key : Nat → Int) :
    ∀ (rest pre : List Nat), pre.Pairwise (StableLt key) →
      (∀ x ∈ pre, ∀ y ∈ rest, x < y) → rest.Pairwise (fun a b => a < b) →
      ((List.range' pre.length rest.length).foldl
          (fun d i => insertionInner (fun a b => decide (key a < key b)) 0 i d)
          (pre ++ rest)).Perm (pre ++ rest) ∧
      ((List.range' pre.length rest.length).foldl
          (fun d i => insertionInner (fun a b => decide (key a < key b)) 0 i d)
          (pre ++ rest)).Pairwise (StableLt key) := by
  intro rest
  induction rest with
  | nil =>
    intro pre hpre _ _
    simp only [List.length_nil, List.range'_zero, List.foldl_nil, List.append_nil]
    exact ⟨List.Perm.refl _, hpre⟩
  | cons e rest ih =>
    intro pre hpre hlt hrest
    rcases insertionInner_spec (fun a b => decide (key a < key b)) e rest pre with
      ⟨l, r, hsplit, hins, hr, hl⟩
    simp only [List.length_cons, List.range'_succ, List.foldl_cons]
    rw [hins]
    have hpre2 : (l ++ e :: r).Pairwise (StableLt key) := by
      rw [hsplit, List.pairwise_append] at hpre
      rcases hpre with ⟨hlp, hrp, hlr⟩
      have hle : ∀ a ∈ l, StableLt key a e := by
        intro a ha
        have hae : a < e := hlt a (by rw [hsplit]; simp [ha]) e (List.mem_cons_self _ _)
        rcases List.eq_nil_or_concat l with hnil | ⟨L, y, hLy⟩
        · rw [hnil] at ha; simp at ha
        · rw [List.concat_eq_append] at hLy
          have hy : key y ≤ key e := by
            have := hl y (by rw [hLy]; simp)
            simpa using this
          have hay : key a ≤ key y := by
            rw [hLy] at ha hlp
            rcases List.mem_append.mp ha with ha | ha
            · have := (List.pairwise_append.mp hlp).2.2 a ha y (by simp)
              rcases this with h | ⟨h, _⟩
              · exact le_of_lt h
              · exact le_of_eq h
            · simp at ha
              rw [ha]
          rcases lt_or_eq_of_le (le_trans hay hy) with h | h
          · exact Or.inl h
          · exact Or.inr ⟨h, hae⟩
      rw [List.pairwise_append]
      refine ⟨hlp, ?_, ?_⟩
      · rw [List.pairwise_cons]
        refine ⟨?_, hrp⟩
        intro b hb
        have := hr b hb
        exact Or.inl (by simpa using this)
      · intro a ha b hb
        rcases List.mem_cons.mp hb with hb | hb
        · rw [hb]; exact hle a ha
        · exact hlr a ha b hb
    have hlt2 : ∀ x ∈ l ++ e :: r, ∀ y ∈ rest, x < y := by
      intro x hx y hy
      have hx' : x ∈ pre ∨ x = e := by
        rw [hsplit]
        simp only [List.mem_append, List.mem_cons] at hx ⊢
        tauto
      rcases hx' with hx' | hx'
      · exact hlt x hx' y (List.mem_cons_of_mem _ hy)
      · rw [hx']
        exact (List.pairwise_cons.mp hrest).1 y hy
    have hlen : pre.length + 1 = (l ++ e :: r).length := by
      rw [hsplit]; simp; omega
    have := ih (l ++ e :: r) hpre2 hlt2 (List.pairwise_cons.mp hrest).2
    rw [← hlen] at this
    have hre : l ++ e :: r ++ rest = (l ++ e :: r) ++ rest := by simp
    rw [hre]
    refine ⟨this.1.trans ?_, this.2⟩
    rw [hsplit]
    simp only [List.append_assoc, List.cons_append]
    exact List.Perm.append_left l (List.perm_middle.symm)

/-- Go's insertion sort on a list whose elements come in increasing order returns
them rearranged by key, elements of equal key in their original order. -/
theorem insertionSort_stable (key : Nat → Int) (x : List Nat)
    (hx : x.Pairwise (fun a b => a < b)) :
    (insertionSortLessFunc (fun a b => decide (key a < key b)) x 0 x.length).Perm x ∧
    (insertionSortLessFunc (fun a b => decide (key a < key b)) x 0 x.length).Pairwise
      (StableLt key) := by
  unfold insertionSortLessFunc
  cases x with
  | nil => simp
  | cons a rest =>
    have := insertionOuter_spec key rest [a] (by simp)
      (fun z hz y hy => by
        simp at hz
        rw [hz]
        exact (List.pairwise_cons.mp hx).1 y hy)
      (List.pairwise_cons.mp hx).2
    simpa using this

end sort

namespace tree

open client

/-! ### Finite trees in the store and the walk of `FlattenVisible` -/

/-- Induction over a shape together with its lists of subtrees. -/
theorem Shape.induct (P : Shape → Prop) (Q : List Shape → Prop)
    (hnode : ∀ p cs, Q cs → P (Shape.node p cs)) (hnil : Q [])
    (hcons : ∀ t ts, P t → Q ts → Q (t :: ts)) : ∀ t, P t :=
  fun t => @Shape.rec P Q hnode hnil hcons t

theorem Shape.induct_list (P : Shape → Prop) (Q : List Shape → Prop)
    (hnode : ∀ p cs, Q cs → P (Shape.node p cs)) (hnil : Q [])
    (hcons : ∀ t ts, P t → Q ts → Q (t :: ts)) : ∀ ts, Q ts := by
  intro ts
  induction ts with
  | nil => exact hnil
  | cons t ts ih => exact hcons t ts (Shape.induct P Q hnode hnil hcons t) ih

theorem Holds.unfold {h : Heap} {p : Nat} {cs : List Shape} (hh : Holds h (Shape.node p cs)) :
    ∃ n, h[p]? = some n ∧ n.Children = cs.map Shape.ptr ∧ ∀ c ∈ cs, Holds h c := by
  cases hh with
  | node _ n _ hn hc hall => exact ⟨n, hn, hc, hall⟩

theorem Holds.of_check (h : Heap) : ∀ t : Shape, t.check h = true → Holds h t := by
  refine Shape.induct (fun t => t.check h = true → Holds h t)
    (fun cs => Shape.checkList h cs = true → ∀ c ∈ cs, Holds h c) ?_ ?_ ?_
  · intro p cs ih hc
    simp only [Shape.check, Bool.and_eq_true] at hc
    cases hn : h[p]? with
    | none => rw [hn] at hc; simp at hc
    | some n =>
      rw [hn] at hc
      exact Holds.node p n cs hn (by simpa using hc.1) (ih hc.2)
  · intro _ c hc
    simp at hc
  · intro t ts iht ihts hc c hmem
    simp only [Shape.checkList, Bool.and_eq_true] at hc
    rcases List.mem_cons.mp hmem with e | hmem
    · rw [e]; exact iht hc.1
    · exact ihts hc.2 c hmem

theorem walk_visible (h : Heap) :
    ∀ t : Shape, Holds h t → ∀ fuel, t.height ≤ fuel → ∀ acc,
      walk h fuel t.ptr acc = some (acc ++ t.visible h) := by
  refine Shape.induct
    (fun t => Holds h t → ∀ fuel, t.height ≤ fuel → ∀ acc,
      walk h fuel t.ptr acc = some (acc ++ t.visible h))
    (fun cs => (∀ c ∈ cs, Holds h c) → ∀ fuel, Shape.heightList cs ≤ fuel → ∀ acc,
      (cs.map Shape.ptr).foldlM (fun acc child => walk h fuel child acc) acc =
        some (acc ++ Shape.visibleList h cs)) ?_ ?_ ?_
  · intro p cs ih hh fuel hfuel acc
    rcases hh.unfold with ⟨n, hn, hch, hall⟩
    rw [Shape.height] at hfuel
    obtain ⟨f, rfl⟩ : ∃ f, fuel = f + 1 := ⟨fuel - 1, by omega⟩
    have hexp : expandedAt h p = n.Expanded := by
      unfold expandedAt; rw [hn]
    simp only [Shape.ptr, Shape.visible, walk, hn, hexp]
    by_cases he : n.Expanded = true
    · simp only [he, if_true]
      rw [hch, ih hall f (by omega) (acc ++ [p])]
      simp
    · simp only [he, if_false]
      simp
  · intro _ fuel _ acc
    simp [Shape.visibleList]
  · intro t ts iht ihts hall fuel hfuel acc
    rw [Shape.heightList] at hfuel
    simp only [List.map_cons, List.foldlM_cons, Shape.visibleList]
    rw [iht (hall t (List.mem_cons_self _ _)) fuel (le_trans (le_max_left _ _) hfuel) acc]
    simp only [Option.some_bind, Option.bind_eq_bind]
    rw [ihts (fun c hc => hall c (List.mem_cons_of_mem _ hc)) fuel
      (le_trans (le_max_right _ _) hfuel)]
    simp

theorem FlattenVisible_eq_visible {h : Heap} {t : Shape} (hh : Holds h t) {fuel : Nat}
    (hfuel : t.height ≤ fuel) : FlattenVisible h fuel (some t.ptr) = some (t.visible h) := by
  unfold FlattenVisible
  simp only []
  rw [walk_visible h t hh fuel hfuel []]
  simp

theorem preorderFlagged_visible (h : Heap) :
    ∀ (t : Shape) (anc : Bool),
      ((t.preorderFlagged h anc).filter (fun x => x.2)).map (fun x => x.1) =
        if anc then t.visible h else [] := by
  intro t
  refine Shape.induct
    (fun t => ∀ anc : Bool,
      ((t.preorderFlagged h anc).filter (fun x => x.2)).map (fun x => x.1) =
        if anc then t.visible h else [])
    (fun cs => ∀ anc : Bool,
      ((Shape.preorderFlaggedList h anc cs).filter (fun x => x.2)).map (fun x => x.1) =
        if anc then Shape.visibleList h cs else []) ?_ ?_ ?_ t
  · intro p cs ih anc
    simp only [Shape.preorderFlagged, Shape.visible]
    cases anc with
    | false =>
      have := ih false
      simp only [Bool.false_and] at this ⊢
      simp [List.filter_cons, this]
    | true =>
      have := ih (expandedAt h p)
      simp only [Bool.true_and]
      simp [List.filter_cons, this]
  · intro anc
    cases anc <;> simp [Shape.preorderFlaggedList, Shape.visibleList]
  · intro t ts iht ihts anc
    simp only [Shape.preorderFlaggedList, Shape.visibleList, List.filter_append,
      List.map_append, iht anc, ihts anc]
    cases anc <;> simp

theorem specVisible_eq_visible (h : Heap) (t : Shape) : t.specVisible h = t.visible h := by
  unfold Shape.specVisible
  rw [preorderFlagged_visible h t true]
  simp

/-! ### Collapsing and expanding one node of a finite tree -/

theorem Holds.congr {h g : Heap}
    (hch : ∀ q : Nat, (g[q]?).map (fun n => n.Children) = (h[q]?).map (fun n => n.Children)) :
    ∀ t : Shape, Holds h t → Holds g t := by
  refine Shape.induct (fun t => Holds h t → Holds g t)
    (fun cs => (∀ c ∈ cs, Holds h c) → ∀ c ∈ cs, Holds g c) ?_ ?_ ?_
  · intro p cs ih hh
    rcases hh.unfold with ⟨n, hn, hc, hall⟩
    have := hch p
    rw [hn] at this
    cases hg : g[p]? with
    | none => rw [hg] at this; simp at this
    | some m =>
      rw [hg] at this
      simp at this
      exact Holds.node p m cs hg (this.trans hc) (ih hall)
  · intro _ c hc
    simp at hc
  · intro t ts iht ihts hall c hc
    rcases List.mem_cons.mp hc with e | hc
    · rw [e]; exact iht (hall t (List.mem_cons_self _ _))
    · exact ihts (fun d hd => hall d (List.mem_cons_of_mem _ hd)) c hc

theorem setExpanded_children (h : Heap) (n : Nat) (b : Bool) (q : Nat) :
    ((setExpanded h n b)[q]?).map (fun m => m.Children) =
      (h[q]?).map (fun m => m.Children) := by
  unfold setExpanded
  cases hn : h[n]? with
  | none => rfl
  | some c =>
    simp only []
    by_cases hq : q = n
    · subst hq
      rw [getElem?_set_same hn, hn]
      rfl
    · rw [getElem?_set_other hq]

theorem expandedAt_setExpanded_same {h : Heap} {n : Nat} {c : TreeNode} (hn : h[n]? = some c)
    (b : Bool) : expandedAt (setExpanded h n b) n = b := by
  unfold expandedAt setExpanded
  rw [hn]
  simp only []
  rw [getElem?_set_same hn]

theorem expandedAt_setExpanded_other (h : Heap) {n q : Nat} (hq : q ≠ n) (b : Bool) :
    expandedAt (setExpanded h n b) q = expandedAt h q := by
  unfold expandedAt setExpanded
  cases hn : h[n]? with
  | none => rfl
  | some c =>
    simp only []
    rw [getElem?_set_other hq]

theorem visible_subset_nodes (h : Heap) :
    ∀ t : Shape, ∀ x ∈ t.visible h, x ∈ t.nodes := by
  refine Shape.induct (fun t => ∀ x ∈ t.visible h, x ∈ t.nodes)
    (fun cs => ∀ x ∈ Shape.visibleList h cs, x ∈ Shape.nodesList cs) ?_ ?_ ?_
  · intro p cs ih x hx
    simp only [Shape.visible, Shape.nodes, List.mem_cons] at hx ⊢
    rcases hx with hx | hx
    · exact Or.inl hx
    · right
      split at hx
      · exact ih x hx
      · simp at hx
  · intro x hx
    simp [Shape.visibleList] at hx
  · intro t ts iht ihts x hx
    simp only [Shape.visibleList, Shape.nodesList, List.mem_append] at hx ⊢
    rcases hx with hx | hx
    · exact Or.inl (iht x hx)
    · exact Or.inr (ihts x hx)

theorem visibleList_subset_nodesList (h : Heap) :
    ∀ ts : List Shape, ∀ x ∈ Shape.visibleList h ts, x ∈ Shape.nodesList ts := by
  intro ts
  induction ts with
  | nil => intro x hx; simp [Shape.visibleList] at hx
  | cons t ts ih =>
    intro x hx
    simp only [Shape.visibleList, Shape.nodesList, List.mem_append] at hx ⊢
    rcases hx with hx | hx
    · exact Or.inl (visible_subset_nodes h t x hx)
    · exact Or.inr (ih x hx)

theorem visible_sublist_nodes (h : Heap) :
    ∀ t : Shape, (t.visible h).Sublist t.nodes := by
  refine Shape.induct (fun t => (t.visible h).Sublist t.nodes)
    (fun cs => (Shape.visibleList h cs).Sublist (Shape.nodesList cs)) ?_ ?_ ?_
  · intro p cs ih
    simp only [Shape.visible, Shape.nodes]
    split
    · exact ih.cons₂ p
    · exact (List.nil_sublist _).cons₂ p
  · simp [Shape.visibleList, Shape.nodesList]
  · intro t ts iht ihts
    simp only [Shape.visibleList, Shape.nodesList]
    exact iht.append ihts

theorem visible_congr {h g : Heap} :
    ∀ t : Shape, (∀ q ∈ t.nodes, expandedAt g q = expandedAt h q) →
      t.visible g = t.visible h := by
  refine Shape.induct
    (fun t => (∀ q ∈ t.nodes, expandedAt g q = expandedAt h q) → t.visible g = t.visible h)
    (fun cs => (∀ q ∈ Shape.nodesList cs, expandedAt g q = expandedAt h q) →
      Shape.visibleList g cs = Shape.visibleList h cs) ?_ ?_ ?_
  · intro p cs ih hag
    simp only [Shape.nodes, List.mem_cons] at hag
    simp only [Shape.visible]
    rw [hag p (Or.inl rfl), ih (fun q hq => hag q (Or.inr hq))]
  · intro _
    simp [Shape.visibleList]
  · intro t ts iht ihts hag
    simp only [Shape.nodesList, List.mem_append] at hag
    simp only [Shape.visibleList]
    rw [iht (fun q hq => hag q (Or.inl hq)), ihts (fun q hq => hag q (Or.inr hq))]

theorem visibleList_congr {h g : Heap} :
    ∀ ts : List Shape, (∀ q ∈ Shape.nodesList ts, expandedAt g q = expandedAt h q) →
      Shape.visibleList g ts = Shape.visibleList h ts := by
  intro ts
  induction ts with
  | nil => intro _; simp [Shape.visibleList]
  | cons t ts ih =>
    intro hag
    simp only [Shape.nodesList, List.mem_append] at hag
    simp only [Shape.visibleList]
    rw [visible_congr t (fun q hq => hag q (Or.inl hq)), ih (fun q hq => hag q (Or.inr hq))]

/-- Two stores that differ only in the flag of `n`, expanded in `he` and collapsed in
`hc`: the walk of the collapsed store is the walk of the expanded one without the
entries of the subtree below `n`, which follow `n` directly. -/
theorem visible_split {he hc : Heap} {n : Nat} (hE : expandedAt he n = true)
    (hC : expandedAt hc n = false) (hag : ∀ q, q ≠ n → expandedAt hc q = expandedAt he q) :
    ∀ t : Shape, Holds he t → t.nodes.Nodup → (n ∈ t.visible he ∨ n ∈ t.visible hc) →
      ∃ pre desc post, t.visible he = pre ++ n :: desc ++ post ∧
        t.visible hc = pre ++ n :: post ∧
        ∀ fuel, t.height ≤ fuel → walk he fuel n [] = some (n :: desc) := by
  refine Shape.induct
    (fun t => Holds he t → t.nodes.Nodup → (n ∈ t.visible he ∨ n ∈ t.visible hc) →
      ∃ pre desc post, t.visible he = pre ++ n :: desc ++ post ∧
        t.visible hc = pre ++ n :: post ∧
        ∀ fuel, t.height ≤ fuel → walk he fuel n [] = some (n :: desc))
    (fun cs => (∀ c ∈ cs, Holds he c) → (Shape.nodesList cs).Nodup →
      (n ∈ Shape.visibleList he cs ∨ n ∈ Shape.visibleList hc cs) →
      ∃ pre desc post, Shape.visibleList he cs = pre ++ n :: desc ++ post ∧
        Shape.visibleList hc cs = pre ++ n :: post ∧
        ∀ fuel, Shape.heightList cs ≤ fuel → walk he fuel n [] = some (n :: desc)) ?_ ?_ ?_
  · intro p cs ih hh hnd hmem
    by_cases hp : p = n
    · subst hp
      refine ⟨[], Shape.visibleList he cs, [], ?_, ?_, ?_⟩
      · simp [Shape.visible, hE]
      · simp [Shape.visible, hC]
      · intro fuel hfuel
        have := walk_visible he _ hh fuel hfuel []
        simpa [Shape.visible, Shape.ptr, hE] using this
    · have hpe : expandedAt hc p = expandedAt he p := hag p hp
      have hmem' : expandedAt he p = true ∧
          (n ∈ Shape.visibleList he cs ∨ n ∈ Shape.visibleList hc cs) := by
        simp only [Shape.visible, List.mem_cons, hpe] at hmem
        by_cases hx : expandedAt he p = true
        · simp only [hx, if_true] at hmem
          refine ⟨hx, ?_⟩
          rcases hmem with (h1 | h1) | (h1 | h1)
          · exact absurd h1.symm hp
          · exact Or.inl h1
          · exact absurd h1.symm hp
          · exact Or.inr h1
        · simp only [hx] at hmem
          simp at hmem
          exact absurd hmem.symm hp
      rcases hh.unfold with ⟨_, _, _, hall⟩
      simp only [Shape.nodes, List.nodup_cons] at hnd
      rcases ih hall hnd.2 hmem'.2 with ⟨pre, desc, post, h1, h2, h3⟩
      refine ⟨p :: pre, desc, post, ?_, ?_, ?_⟩
      · simp [Shape.visible, hmem'.1, h1]
      · simp [Shape.visible, hpe, hmem'.1, h2]
      · intro fuel hfuel
        rw [Shape.height] at hfuel
        exact h3 fuel (by omega)
  · intro _ _ hmem
    simp [Shape.visibleList] at hmem
  · intro t ts iht ihts hall hnd hmem
    simp only [Shape.nodesList] at hnd
    rw [List.nodup_append] at hnd
    rcases hnd with ⟨hnd1, hnd2, hdisj⟩
    have hcase : (n ∈ t.visible he ∨ n ∈ t.visible hc) ∨
        (n ∈ Shape.visibleList he ts ∨ n ∈ Shape.visibleList hc ts) := by
      simp only [Shape.visibleList, List.mem_append] at hmem
      tauto
    rcases hcase with hin | hin
    · have hnt : n ∈ t.nodes := by
        rcases hin with h1 | h1
        · exact visible_subset_nodes he t n h1
        · exact visible_subset_nodes hc t n h1
      rcases iht (hall t (List.mem_cons_self _ _)) hnd1 hin with ⟨pre, desc, post, h1, h2, h3⟩
      have hts : Shape.visibleList hc ts = Shape.visibleList he ts := by
        apply visibleList_congr
        intro q hq
        apply hag
        intro e
        rw [e] at hq
        exact hdisj hnt hq
      refine ⟨pre, desc, post ++ Shape.visibleList he ts, ?_, ?_, ?_⟩
      · simp [Shape.visibleList, h1]
      · simp [Shape.visibleList, h2, hts]
      · intro fuel hfuel
        rw [Shape.heightList] at hfuel
        exact h3 fuel (le_trans (le_max_left _ _) hfuel)
    · have hnts : n ∈ Shape.nodesList ts := by
        rcases hin with h1 | h1
        · exact visibleList_subset_nodesList he ts n h1
        · exact visibleList_subset_nodesList hc ts n h1
      rcases ihts (fun c hc => hall c (List.mem_cons_of_mem _ hc)) hnd2 hin with
        ⟨pre, desc, post, h1, h2, h3⟩
      have ht : t.visible hc = t.visible he := by
        apply visible_congr
        intro q hq
        apply hag
        intro e
        rw [e] at hq
        exact hdisj hq hnts
      refine ⟨t.visible he ++ pre, desc, post, ?_, ?_, ?_⟩
      · simp [Shape.visibleList, h1]
      · simp [Shape.visibleList, h2, ht]
      · intro fuel hfuel
        rw [Shape.heightList] at hfuel
        exact h3 fuel (le_trans (le_max_right _ _) hfuel)

/-! ### Claims about `BuildTree` -/

/-- C1 (counterexample): on the acyclic collection `sharedIdRecords`, in which two
records share the id `x`, `BuildTree` returns a tree whose node 0 (depth 1) has the
child 3 at depth 3, not 2. -/
theorem BuildTree_depth_fails_on_shared_id :
    Acyclic sharedIdRecords ∧
    ∃ h root, BuildTree (sort.Slice sort.xorshiftNext) 5 "r" sharedIdRecords = some (h, root) ∧
      ∃ p c np nc, InTree h root p ∧ h[p]? = some np ∧ c ∈ np.Children ∧ h[c]? = some nc ∧
        nc.Depth ≠ np.Depth + 1 := by
  refine ⟨acyclic_of_rankGrows sharedIdRank _ (by decide), ?_⟩
  refine ⟨[cell (record "x" (some "r") none) [3] 1, cell (record "a" (some "r") none) [2] 1,
      cell (record "x" (some "a") none) [3] 2, cell (record "c" (some "x") none) [] 3,
      cell (record "r" none none) [0, 1] 0], 4, by decide, ?_⟩
  refine ⟨0, 3, cell (record "x" (some "r") none) [3] 1, cell (record "c" (some "x") none) [] 3,
    ?_, by decide, by decide, by decide, by decide⟩
  exact Relation.ReflTransGen.single ⟨cell (record "r" none none) [0, 1] 0, by decide, by decide⟩

/-- C1 (amended): for every root id and every acyclic record collection with pairwise
distinct ids, `BuildTree` returns, the root of the returned tree has depth 0, and every
child of a node of the tree has the depth of that node plus 1. -/
theorem BuildTree_depth (sortSlice : (Nat → Nat → Bool) → List Nat → List Nat)
    (hs : SortSliceSpec sortSlice) (rootID : String) (promises : List Promise)
    (hac : Acyclic promises) (hid : (promises.map (fun p => p.ID)).Nodup) :
    (∃ fuel res, BuildTree sortSlice fuel rootID promises = some res) ∧
    ∀ fuel h root, BuildTree sortSlice fuel rootID promises = some (h, root) →
      (∃ r, h[root]? = some r ∧ r.Depth = 0) ∧
      ∀ p np c, InTree h root p → h[p]? = some np → c ∈ np.Children →
        ∃ nc, h[c]? = some nc ∧ nc.Depth = np.Depth + 1 := by
  refine ⟨BuildTree_returns rootID promises (sortsIndex_of_spec hs _) hac, ?_⟩
  intro fuel h root hb
  rcases BuildTree_eq_some hb with ⟨hroot, hassign⟩
  have st := resolveRoot_start promises rootID
  rw [← hroot] at st
  have F := start_forestLike (sortsIndex_of_spec hs _) st hac hid
  have post := assign_spec F fuel root _ h rfl hassign
  have hP := assign_promisesOf _ fuel root _ h hassign
  constructor
  · have hlt : root < (resolveRoot (buildIndex promises) rootID).1.length := by
      have := st.root_lt
      simpa [promisesOf] using this
    have h0 := List.getElem?_eq_getElem hlt
    have hd := post.depth
    rw [h0, st.cell_eq_newNode h0] at hd
    cases hr : h[root]? with
    | none => rw [hr] at hd; simp at hd
    | some r =>
      rw [hr] at hd
      simp [newNode] at hd
      exact ⟨r, rfl, hd⟩
  · intro p np c hp hnp hc
    have hreach := inTree_edge hP post.assigned hp
    rcases post.assigned p hreach with ⟨n, hn, _, hdep⟩
    rw [hnp] at hn
    have := Option.some.inj hn
    subst this
    exact hdep c hc

/-- Witness for `BuildTree_depth`: the chain `r`, `r.1`, `r.1.1` with sibling `r.2`. -/
theorem BuildTree_depth_witness :
    (∃ fuel res, BuildTree referenceSort fuel "r" chainRecords = some res) ∧
    ∀ fuel h root, BuildTree referenceSort fuel "r" chainRecords = some (h, root) →
      (∃ r, h[root]? = some r ∧ r.Depth = 0) ∧
      ∀ p np c, InTree h root p → h[p]? = some np → c ∈ np.Children →
        ∃ nc, h[c]? = some nc ∧ nc.Depth = np.Depth + 1 :=
  BuildTree_depth referenceSort referenceSort_spec "r" chainRecords
    (acyclic_of_rankGrows String.length chainRecords (by decide)) (by decide)

theorem createdOnOf_eq (h : Heap) (a : Nat) :
    createdOnOf h a = ((promisesOf h)[a]?).bind (fun p => p.CreatedOn) := by
  unfold createdOnOf
  rw [promisesOf_getElem?]
  cases h[a]? <;> rfl

theorem heapStep_back {cm : String → List Nat} {h0 h : Heap} (hstep : HeapStep cm h0 h)
    (hP : promisesOf h = promisesOf h0) {q : Nat} {n : TreeNode} (hn : h[q]? = some n) :
    ∃ n0, h0[q]? = some n0 ∧ CellStep cm q n0 n := by
  have hlen : h.length = h0.length := by
    have := congrArg List.length hP
    simpa [promisesOf] using this
  have hq : q < h0.length := by rw [← hlen]; exact getElem?_lt hn
  rcases hstep q _ (List.getElem?_eq_getElem hq) with ⟨m, hm, hcell⟩
  rw [hn] at hm
  have := Option.some.inj hm
  subst this
  exact ⟨_, List.getElem?_eq_getElem hq, hcell⟩

theorem sortChildren_lt {sortSlice : (Nat → Nat → Bool) → List Nat → List Nat}
    (ps : List Promise) (hs : SortsIndex sortSlice ps) {k : String} {c : Nat}
    (hc : c ∈ sortChildren sortSlice (buildIndex ps) k) :
    ∃ p, ps[c]? = some p ∧ p.Tags.lookup "resonate:parent" = some k ∧ k ≠ p.ID :=
  ((buildIndex_inv ps).mem_children k c).mp
    ((hs k).mem_iff.mp hc)

/-- C2: for every root id and every acyclic record collection, `BuildTree` returns and
in the returned store the children list of every node (so of every node of the returned
tree) is non-decreasing in `createdOn`, a missing `createdOn` counting as 0.  The
library call `sort.Slice` is assumed to meet its contract `SortSliceSpec`. -/
theorem BuildTree_children_sorted (sortSlice : (Nat → Nat → Bool) → List Nat → List Nat)
    (hs : SortSliceSpec sortSlice) (rootID : String) (promises : List Promise)
    (hac : Acyclic promises) :
    (∃ fuel res, BuildTree sortSlice fuel rootID promises = some res) ∧
    ∀ fuel h root, BuildTree sortSlice fuel rootID promises = some (h, root) →
      ∀ (q : Nat) (n : TreeNode), h[q]? = some n →
        n.Children.Pairwise
          (fun a b => safeInt64 (createdOnOf h a) ≤ safeInt64 (createdOnOf h b)) := by
  refine ⟨BuildTree_returns rootID promises (sortsIndex_of_spec hs _) hac, ?_⟩
  intro fuel h root hb q n hn
  rcases BuildTree_eq_some hb with ⟨hroot, hassign⟩
  have st := resolveRoot_start promises rootID
  have hP := assign_promisesOf _ fuel root _ h hassign
  have hstep := assign_heapStep _ fuel root _ h hassign
  rcases heapStep_back hstep hP hn with ⟨n0, hn0, _, _, hch, _⟩
  rcases hch with hch | hch
  · rw [hch, st.cell_eq_newNode hn0]
    simp [newNode]
  · rw [hch]
    refine (sortChildren_sorted hs (buildIndex promises) n0.Promise.ID).imp_of_mem ?_
    intro a b ha hb hab
    have key : ∀ c, c ∈ sortChildren sortSlice (buildIndex promises) n0.Promise.ID →
        createdOnOf h c = createdOnOf (buildIndex promises).nodes c := by
      intro c hc
      rcases sortChildren_lt promises (sortsIndex_of_spec hs _) hc with ⟨p, hp, _⟩
      rw [createdOnOf_eq, createdOnOf_eq, hP, st.pre c p hp, (buildIndex_inv promises).nodes,
        promisesOf_map_newNode, hp]
    rw [key a ha, key b hb]
    exact hab

/-- Witness for `BuildTree_children_sorted`. -/
theorem BuildTree_children_sorted_witness :
    (∃ fuel res, BuildTree referenceSort fuel "r" chainRecords = some res) ∧
    ∀ fuel h root, BuildTree referenceSort fuel "r" chainRecords = some (h, root) →
      ∀ (q : Nat) (n : TreeNode), h[q]? = some n →
        n.Children.Pairwise
          (fun a b => safeInt64 (createdOnOf h a) ≤ safeInt64 (createdOnOf h b)) :=
  BuildTree_children_sorted referenceSort referenceSort_spec "r" chainRecords
    (acyclic_of_rankGrows String.length chainRecords (by decide))

set_option maxRecDepth 1000000 in
/-- C3 (counterexample): with thirteen children, Go's `sort.Slice` puts the child of
record 7 before the child of record 3 although both have `createdOn = 1` and record 3
comes first in the input. -/
theorem BuildTree_children_unstable :
    ∃ h root n, BuildTree (sort.Slice sort.xorshiftNext) 2 "r" thirteenChildren
        = some (h, root) ∧
      h[root]? = some n ∧
      n.Children = [13, 7, 3, 4, 5, 6, 1, 8, 9, 10, 11, 12, 2] ∧
      (∀ c ∈ n.Children, (h[c]?).map (fun m => m.Promise) = thirteenChildren[c]?) ∧
      safeInt64 (createdOnOf h 7) = safeInt64 (createdOnOf h 3) ∧
      ¬ n.Children.Pairwise
          (fun a b => safeInt64 (createdOnOf h a) = safeInt64 (createdOnOf h b) → a < b) := by
  refine ⟨thirteenChildrenHeap, 0,
    cell (record "r" none none) [13, 7, 3, 4, 5, 6, 1, 8, 9, 10, 11, 12, 2] 0,
    by decide, by decide, by decide, by decide, by decide, by decide⟩

theorem sortsIndex_Slice_small (next : Nat → Nat) (promises : List Promise)
    (hsmall : ∀ k, promises.countP
      (fun p => decide (p.Tags.lookup "resonate:parent" = some k)) ≤ 12) (k : String) :
    (sortChildren (sort.Slice next) (buildIndex promises) k).Perm
        ((buildIndex promises).childrenMap k) ∧
      (sortChildren (sort.Slice next) (buildIndex promises) k).Pairwise
        (sort.StableLt (fun a => safeInt64 (createdOnOf (buildIndex promises).nodes a))) := by
  have hlen : ((buildIndex promises).childrenMap k).length ≤ 12 :=
    le_trans ((buildIndex_inv promises).len_children k) (hsmall k)
  have hst := sort.insertionSort_stable
    (fun a => safeInt64 (createdOnOf (buildIndex promises).nodes a))
    ((buildIndex promises).childrenMap k) ((buildIndex_inv promises).sorted_children k)
  have heq : sortChildren (sort.Slice next) (buildIndex promises) k =
      sort.insertionSortLessFunc
        (fun a b => decide (safeInt64 (createdOnOf (buildIndex promises).nodes a) <
          safeInt64 (createdOnOf (buildIndex promises).nodes b)))
        ((buildIndex promises).childrenMap k) 0 ((buildIndex promises).childrenMap k).length := by
    unfold sortChildren
    rw [sort.Slice_small next _ _ hlen]
    rfl
  rw [heq]
  exact hst

/-- C3 (amended): when no id is the parent tag of more than 12 records, every child
pointer of the returned store is the input position of its record, and in every
children list two children with equal `createdOn` (missing = 0) stand in the order of
their records in the input; `BuildTree` returns on such a collection when it is
acyclic.  `next` is the generator step of `sort.Slice`, which plays no part here. -/
theorem BuildTree_children_stable (next : Nat → Nat) (rootID : String)
    (promises : List Promise)
    (hsmall : ∀ k, promises.countP
      (fun p => decide (p.Tags.lookup "resonate:parent" = some k)) ≤ 12) :
    (Acyclic promises →
      ∃ fuel res, BuildTree (sort.Slice next) fuel rootID promises = some res) ∧
    ∀ fuel h root, BuildTree (sort.Slice next) fuel rootID promises = some (h, root) →
      ∀ (q : Nat) (n : TreeNode), h[q]? = some n →
        (∀ c ∈ n.Children, ∃ m, h[c]? = some m ∧ promises[c]? = some m.Promise) ∧
        n.Children.Pairwise
          (fun a b => safeInt64 (createdOnOf h a) = safeInt64 (createdOnOf h b) → a < b) := by
  have hsort : SortsIndex (sort.Slice next) promises :=
    fun k => (sortsIndex_Slice_small next promises hsmall k).1
  refine ⟨fun hac => BuildTree_returns rootID promises hsort hac, ?_⟩
  intro fuel h root hb q n hn
  rcases BuildTree_eq_some hb with ⟨hroot, hassign⟩
  have st := resolveRoot_start promises rootID
  have hP := assign_promisesOf _ fuel root _ h hassign
  have hstep := assign_heapStep _ fuel root _ h hassign
  rcases heapStep_back hstep hP hn with ⟨n0, hn0, _, _, hch, _⟩
  rcases hch with hch | hch
  · rw [hch, st.cell_eq_newNode hn0]
    simp [newNode]
  · rw [hch]
    have hrec : ∀ c, c ∈ sortChildren (sort.Slice next) (buildIndex promises) n0.Promise.ID →
        ∃ p, promises[c]? = some p ∧ (promisesOf h)[c]? = some p := by
      intro c hc
      rcases sortChildren_lt promises hsort hc with ⟨p, hp, _⟩
      exact ⟨p, hp, by rw [hP]; exact st.pre c p hp⟩
    have key : ∀ c, c ∈ sortChildren (sort.Slice next) (buildIndex promises) n0.Promise.ID →
        createdOnOf h c = createdOnOf (buildIndex promises).nodes c := by
      intro c hc
      rcases hrec c hc with ⟨p, hp, hp'⟩
      rw [createdOnOf_eq, createdOnOf_eq, hp', (buildIndex_inv promises).nodes,
        promisesOf_map_newNode, hp]
    constructor
    · intro c hc
      rcases hrec c hc with ⟨p, hp, hp'⟩
      rw [promisesOf_getElem?] at hp'
      cases hm : h[c]? with
      | none => rw [hm] at hp'; simp at hp'
      | some m =>
        rw [hm] at hp'
        simp at hp'
        exact ⟨m, rfl, by rw [hp']; exact hp⟩
    · refine (sortsIndex_Slice_small next promises hsmall n0.Promise.ID).2.imp_of_mem ?_
      intro a b ha hb hab heq
      rw [key a ha, key b hb] at heq
      rcases hab with hlt | ⟨_, hlt⟩
      · exact absurd heq (ne_of_lt hlt)
      · exact hlt

/-- Witness for `BuildTree_children_stable`. -/
theorem BuildTree_children_stable_witness :
    (Acyclic chainRecords →
      ∃ fuel res, BuildTree (sort.Slice sort.xorshiftNext) fuel "r" chainRecords = some res) ∧
    ∀ fuel h root,
      BuildTree (sort.Slice sort.xorshiftNext) fuel "r" chainRecords = some (h, root) →
      ∀ (q : Nat) (n : TreeNode), h[q]? = some n →
        (∀ c ∈ n.Children, ∃ m, h[c]? = some m ∧ chainRecords[c]? = some m.Promise) ∧
        n.Children.Pairwise
          (fun a b => safeInt64 (createdOnOf h a) = safeInt64 (createdOnOf h b) → a < b) :=
  BuildTree_children_stable sort.xorshiftNext "r" chainRecords
    (fun _ => le_trans (List.countP_le_length _) (by decide : chainRecords.length ≤ 12))

/-! ### Claims about `FlattenVisible` -/

/-- C4: for every finite tree held by the store, `FlattenVisible(root)` returns the
pre-order listing (a node before its children, children in list order) of exactly the
nodes all of whose proper ancestors are expanded; the root is its first element whatever
its own flag, and `FlattenVisible(nil)` is the empty sequence. -/
theorem FlattenVisible_spec (h : Heap) (t : Shape) (hh : Holds h t) (fuel : Nat)
    (hfuel : t.height ≤ fuel) :
    FlattenVisible h fuel (some t.ptr) = some (t.specVisible h) ∧
    (∃ rest, t.specVisible h = t.ptr :: rest) ∧
    FlattenVisible h fuel none = some [] := by
  refine ⟨?_, ?_, rfl⟩
  · rw [specVisible_eq_visible]
    exact FlattenVisible_eq_visible hh hfuel
  · rw [specVisible_eq_visible]
    cases t with
    | node p cs =>
      simp only [Shape.visible, Shape.ptr]
      exact ⟨_, rfl⟩

/-- Witness for `FlattenVisible_spec`: the tree `0 -> [1 -> [3, 4], 2]`. -/
theorem FlattenVisible_spec_witness :
    FlattenVisible exampleHeap 3 (some exampleShape.ptr) = some (exampleShape.specVisible exampleHeap) ∧
    (∃ rest, exampleShape.specVisible exampleHeap = exampleShape.ptr :: rest) ∧
    FlattenVisible exampleHeap 3 none = some [] :=
  FlattenVisible_spec exampleHeap exampleShape (Holds.of_check _ _ (by decide)) 3 (by decide)

theorem expandedAt_some {h : Heap} {n : Nat} (he : expandedAt h n = true) :
    ∃ c, h[n]? = some c ∧ c.Expanded = true := by
  unfold expandedAt at he
  cases hn : h[n]? with
  | none => rw [hn] at he; simp at he
  | some c => rw [hn] at he; exact ⟨c, rfl, he⟩

theorem Holds.setExpanded {h : Heap} {t : Shape} (hh : Holds h t) (n : Nat) (b : Bool) :
    Holds (setExpanded h n b) t :=
  Holds.congr (setExpanded_children h n b) t hh

/-- C5: in a finite tree without shared nodes, collapsing an expanded node `n` that
occurs in `FlattenVisible(root)` removes from the sequence exactly the visible
descendants of `n`, which follow `n` directly: the sequence gets shorter by the length
of `FlattenVisible(n)` minus 1 and is otherwise unchanged. -/
theorem FlattenVisible_collapse (h : Heap) (t : Shape) (hh : Holds h t)
    (hnd : t.nodes.Nodup) (fuel : Nat) (hfuel : t.height ≤ fuel) (vis : List Nat)
    (hvis : FlattenVisible h fuel (some t.ptr) = some vis) (n : Nat) (hn : n ∈ vis)
    (hexp : expandedAt h n = true) :
    ∃ pre desc post, vis = pre ++ n :: desc ++ post ∧
      FlattenVisible h fuel (some n) = some (n :: desc) ∧
      FlattenVisible (setExpanded h n false) fuel (some t.ptr) = some (pre ++ n :: post) ∧
      (pre ++ n :: post).length = vis.length - ((n :: desc).length - 1) := by
  rw [FlattenVisible_eq_visible hh hfuel] at hvis
  have hvis' : t.visible h = vis := Option.some.inj hvis
  rcases expandedAt_some hexp with ⟨c, hc, _⟩
  rcases visible_split hexp (expandedAt_setExpanded_same hc false)
      (fun q hq => expandedAt_setExpanded_other h hq false) t hh hnd
      (Or.inl (hvis' ▸ hn)) with ⟨pre, desc, post, h1, h2, h3⟩
  refine ⟨pre, desc, post, by rw [← hvis', h1], h3 fuel hfuel, ?_, ?_⟩
  · have hc' : t.height ≤ fuel := hfuel
    rw [FlattenVisible_eq_visible (hh.setExpanded n false) hc', h2]
  · rw [← hvis', h1]
    simp
    omega

/-- Witness for `FlattenVisible_collapse`: collapsing node 1 of `0 -> [1 -> [3, 4], 2]`. -/
theorem FlattenVisible_collapse_witness :
    ∃ pre desc post, [0, 1, 3, 4, 2] = pre ++ 1 :: desc ++ post ∧
      FlattenVisible exampleHeap 3 (some 1) = some (1 :: desc) ∧
      FlattenVisible (setExpanded exampleHeap 1 false) 3 (some exampleShape.ptr)
        = some (pre ++ 1 :: post) ∧
      (pre ++ 1 :: post).length = [0, 1, 3, 4, 2].length - ((1 :: desc).length - 1) :=
  FlattenVisible_collapse exampleHeap exampleShape (Holds.of_check _ _ (by decide))
    (by decide) 3 (by decide) [0, 1, 3, 4, 2] (by decide) 1 (by decide) (by decide)

/-! ### Claims about the toggle key of the tree view -/

theorem set_flag_eq_setExpanded {h : Heap} {node : Nat} {n : TreeNode}
    (hn : h[node]? = some n) (b : Bool) :
    h.set node { n with Expanded := b } = setExpanded h node b := by
  unfold setExpanded
  rw [hn]

theorem set_self {h : Heap} {node : Nat} {n : TreeNode} (hn : h[node]? = some n) :
    h.set node n = h := by
  apply List.ext_getElem?
  intro q
  by_cases hq : q = node
  · subst hq
    rw [getElem?_set_same hn, hn]
  · rw [getElem?_set_other hq]

theorem getElem?_append_cons {α : Type} (pre : List α) (x : α) (rest : List α) :
    (pre ++ x :: rest)[pre.length]? = some x := by
  induction pre with
  | nil => simp
  | cons a l ih => simpa using ih

theorem selectedNode_ok {m : Model} {node : Nat} {n : TreeNode}
    (hsel : m.selectedNode = .ok (node, n)) :
    0 ≤ m.selected ∧ m.visible[m.selected.toNat]? = some node ∧ m.heap[node]? = some n := by
  unfold Model.selectedNode at hsel
  split at hsel
  · simp at hsel
  · rename_i hneg
    split at hsel
    · simp at hsel
    · rename_i node' hv
      split at hsel
      · simp at hsel
      · rename_i n' hh
        simp only [Except.ok.injEq, Prod.mk.injEq] at hsel
        rcases hsel with ⟨e1, e2⟩
        subst e1 e2
        exact ⟨by omega, hv, hh⟩

theorem selectedNode_of {m : Model} {node : Nat} {n : TreeNode} (h0 : 0 ≤ m.selected)
    (hv : m.visible[m.selected.toNat]? = some node) (hh : m.heap[node]? = some n) :
    m.selectedNode = .ok (node, n) := by
  unfold Model.selectedNode
  rw [if_neg (by omega)]
  simp only [hv, hh]

/-- Flipping the flag of a visible node keeps that node at its index in the walk. -/
theorem visible_flip_index {h : Heap} {t : Shape} (hh : Holds h t) (hnd : t.nodes.Nodup)
    {node : Nat} {n : TreeNode} (hn : h[node]? = some n) {s : Nat}
    (hs : (t.visible h)[s]? = some node) :
    (t.visible (h.set node { n with Expanded := !n.Expanded }))[s]? = some node := by
  have hvnd : ∀ g : Heap, (t.visible g).Nodup := fun g =>
    List.Nodup.sublist (visible_sublist_nodes g t) hnd
  have hmem : node ∈ t.visible h := mem_of_getElem? hs
  have pos : ∀ (l pre rest : List Nat), l.Nodup → l = pre ++ node :: rest →
      l[s]? = some node → s = pre.length := by
    intro l pre rest hl hsplit hls
    have h1 : l[pre.length]? = some node := by
      rw [hsplit]; exact getElem?_append_cons _ _ _
    exact List.getElem?_inj (getElem?_lt hls) hl (hls.trans h1.symm)
  rw [set_flag_eq_setExpanded hn]
  have hexp : expandedAt h node = n.Expanded := by
    unfold expandedAt; rw [hn]
  cases hb : n.Expanded with
  | true =>
    rcases visible_split (hexp.trans hb) (expandedAt_setExpanded_same hn false)
      (fun q hq => expandedAt_setExpanded_other h hq false) t hh hnd (Or.inl hmem) with
      ⟨pre, desc, post, h1, h2, _⟩
    have := pos _ pre (desc ++ post) (hvnd h) (by rw [h1]; simp) hs
    simp only [Bool.not_true]
    rw [h2, this]
    exact getElem?_append_cons _ _ _
  | false =>
    rcases visible_split (expandedAt_setExpanded_same hn true) (hexp.trans hb)
      (fun q hq => (expandedAt_setExpanded_other h hq true).symm) t (hh.setExpanded node true)
      hnd (Or.inr hmem) with ⟨pre, desc, post, h1, h2, _⟩
    have := pos _ pre post (hvnd h) h2 hs
    simp only [Bool.not_false]
    rw [h1, this, List.append_assoc]
    exact getElem?_append_cons pre node (desc ++ post)

/-- One press of the toggle key on a selected node with children. -/
theorem toggle_step {m : Model} {t : Shape} {fuel : Nat} (hroot : m.root = some t.ptr)
    (hh : Holds m.heap t) (hnd : t.nodes.Nodup) (hfuel : t.height ≤ fuel)
    (hvis : m.visible = t.visible m.heap) {node : Nat} {n : TreeNode}
    (hsel : m.selectedNode = .ok (node, n)) (hkids : n.Children ≠ []) :
    m.toggle fuel = .ok ({ m with
      heap := m.heap.set node { n with Expanded := !n.Expanded }
      visible := t.visible (m.heap.set node { n with Expanded := !n.Expanded }) },
      Cmd.none) := by
  rcases selectedNode_ok hsel with ⟨h0, hv, hn⟩
  have hlt := getElem?_lt hv
  have hidx := visible_flip_index hh hnd hn (hvis ▸ hv)
  have hlt' := getElem?_lt hidx
  have hh' : Holds (m.heap.set node { n with Expanded := !n.Expanded }) t := by
    rw [set_flag_eq_setExpanded hn]
    exact hh.setExpanded node _
  unfold Model.toggle
  rw [if_pos ⟨by omega, by omega⟩, hsel]
  simp only []
  rw [if_pos (List.length_pos.mpr hkids)]
  unfold Model.flatten
  rw [hroot, FlattenVisible_eq_visible hh' hfuel]
  simp only []
  rw [if_neg (by omega)]

/-- C6 (counterexample): the records of `sharedToggleRecords`, in which the id `x`
occurs twice, give a tree in which the node `c` hangs below both nodes `x`.  After the
load, five presses of `j` select the second occurrence of `c`, a node with a child.
The first press of enter collapses `c`, which shortens the visible list in front of the
selection, so that the selection index now holds `y`; the second press collapses `y`.
Both flags end up changed and the visible list has 6 entries where it had 9. -/
theorem toggle_twice_fails_on_shared_node :
    ∃ m m1 m2, Reachable (sort.Slice sort.xorshiftNext) (fun _ => True) m ∧
      (∃ n, m.selectedNode = .ok (3, n) ∧ n.Children = [4]) ∧
      m.updateNavigation 10 "enter" = .ok (m1, Cmd.none) ∧
      m1.updateNavigation 10 "enter" = .ok (m2, Cmd.none) ∧
      m.visible = [0, 1, 3, 4, 2, 3, 4, 5, 6] ∧ m.selected = 5 ∧
      m1.visible = [0, 1, 3, 2, 3, 5, 6] ∧ m2.visible = [0, 1, 3, 2, 3, 5] ∧
      expandedAt m.heap 3 = true ∧ expandedAt m2.heap 3 = false ∧
      expandedAt m.heap 5 = true ∧ expandedAt m2.heap 5 = false := by
  have h0 : Reachable (sort.Slice sort.xorshiftNext) (fun _ => True) (New.Load "r").1 :=
    Reachable.load New "r" Reachable.init
  have h1 := Reachable.update _ _ 10 (Msg.TreeLoadedMsg sharedToggleRecords none) Cmd.none h0
    (fun _ _ => trivial) rfl
  have h2 := Reachable.update _ _ 10 (Msg.KeyMsg "j") Cmd.none h1 (fun _ _ => trivial) rfl
  have h3 := Reachable.update _ _ 10 (Msg.KeyMsg "j") Cmd.none h2 (fun _ _ => trivial) rfl
  have h4 := Reachable.update _ _ 10 (Msg.KeyMsg "j") Cmd.none h3 (fun _ _ => trivial) rfl
  have h5 := Reachable.update _ _ 10 (Msg.KeyMsg "j") Cmd.none h4 (fun _ _ => trivial) rfl
  have h6 := Reachable.update _ _ 10 (Msg.KeyMsg "j") Cmd.none h5 (fun _ _ => trivial) rfl
  exact ⟨_, _, _, h6, ⟨cell (record "c" (some "x") none) [4] 2,
    selectedNode_of (by decide) (by decide) (by decide), rfl⟩, rfl, rfl, by decide, by decide,
    by decide, by decide, by decide, by decide, by decide, by decide⟩

/-- C6 (amended): in a tree view that shows a finite tree without shared nodes, with the
visible list being `FlattenVisible` of the tree, pressing the toggle key (enter or
space) twice on a selected node that has children flips the flag of that node and flips
it back: the second press returns the state before the first, so every `Expanded` flag
is restored and the visible list is, element for element, the one before the first
press. -/
theorem toggle_twice (m : Model) (t : Shape) (key : String) (fuel : Nat)
    (hkey : key = "enter" ∨ key = " ") (hroot : m.root = some t.ptr)
    (hh : Holds m.heap t) (hnd : t.nodes.Nodup) (hfuel : t.height ≤ fuel)
    (hvis : FlattenVisible m.heap fuel m.root = some m.visible)
    (node : Nat) (n : TreeNode) (hsel : m.selectedNode = .ok (node, n))
    (hkids : n.Children ≠ []) :
    ∃ m1 m2 c1 c2, m.updateNavigation fuel key = .ok (m1, c1) ∧
      m1.updateNavigation fuel key = .ok (m2, c2) ∧
      expandedAt m1.heap node = !expandedAt m.heap node ∧
      (∀ p, expandedAt m2.heap p = expandedAt m.heap p) ∧
      m2.visible = m.visible ∧ m2 = m := by
  have hupd : ∀ m' : Model, m'.updateNavigation fuel key = m'.toggle fuel := by
    intro m'
    unfold Model.updateNavigation
    rcases hkey with rfl | rfl
    · rw [if_neg (by decide), if_neg (by decide), if_pos (by decide)]
    · rw [if_neg (by decide), if_neg (by decide), if_pos (by decide)]
  rw [hroot, FlattenVisible_eq_visible hh hfuel] at hvis
  have hvis' : m.visible = t.visible m.heap := (Option.some.inj hvis).symm
  rcases selectedNode_ok hsel with ⟨h0, hv, hn⟩
  have step1 := toggle_step hroot hh hnd hfuel hvis' hsel hkids
  -- the state after the first press
  have hn1 : (m.heap.set node { n with Expanded := !n.Expanded })[node]? =
      some { n with Expanded := !n.Expanded } := getElem?_set_same hn
  have hh1 : Holds (m.heap.set node { n with Expanded := !n.Expanded }) t := by
    rw [set_flag_eq_setExpanded hn]
    exact hh.setExpanded node _
  have hidx := visible_flip_index hh hnd hn (hvis' ▸ hv)
  have step2 := toggle_step
    (m := { m with
      heap := m.heap.set node { n with Expanded := !n.Expanded }
      visible := t.visible (m.heap.set node { n with Expanded := !n.Expanded }) })
    hroot hh1 hnd hfuel rfl (selectedNode_of h0 hidx hn1) hkids
  have hback : (m.heap.set node { n with Expanded := !n.Expanded }).set node
      { ({ n with Expanded := !n.Expanded } : TreeNode) with
        Expanded := !({ n with Expanded := !n.Expanded } : TreeNode).Expanded } = m.heap := by
    rw [List.set_set]
    simp only [Bool.not_not]
    exact set_self hn
  refine ⟨_, m, Cmd.none, Cmd.none, (hupd m).trans step1, ?_, ?_, fun _ => rfl, rfl, rfl⟩
  · rw [hupd, step2]
    simp only [hback, ← hvis']
  · simp only []
    unfold expandedAt
    rw [hn1, hn]

/-- Witness for `toggle_twice`: node 1 of `0 -> [1 -> [3, 4], 2]` selected. -/
theorem toggle_twice_witness :
    ∃ m1 m2 c1 c2, exampleModel.updateNavigation 3 "enter" = .ok (m1, c1) ∧
      m1.updateNavigation 3 "enter" = .ok (m2, c2) ∧
      expandedAt m1.heap 1 = !expandedAt exampleModel.heap 1 ∧
      (∀ p, expandedAt m2.heap p = expandedAt exampleModel.heap p) ∧
      m2.visible = exampleModel.visible ∧ m2 = exampleModel :=
  toggle_twice exampleModel exampleShape "enter" 3 (Or.inl rfl) (by decide)
    (Holds.of_check _ _ (by decide)) (by decide) (by decide) (by decide) 1
    (cell (record "r.1" (some "r") none) [3, 4] 1)
    (selectedNode_of (by decide) (by decide) (by decide)) (by decide)

end tree

namespace forest

open client

/-! ### Claims about `isRootInSet` -/

/-- C7: a record whose parent tag is non-empty and different from its own id is never
classified as a root, whatever the page holds. -/
theorem isRootInSet_false_of_parent_tag (p : Promise) (page : List Promise)
    (hne : tag p.Tags "resonate:parent" ≠ "")
    (hself : tag p.Tags "resonate:parent" ≠ p.ID) : isRootInSet p page = false := by
  unfold isRootInSet
  simp only []
  rw [if_pos ⟨hne, hself⟩]

/-- Witness for `isRootInSet_false_of_parent_tag`: `a.1` with parent tag `a`, on a page
on which no id begins its id. -/
theorem isRootInSet_false_of_parent_tag_witness :
    isRootInSet (tree.record "a.1" (some "a") none) [tree.record "b" none none] = false :=
  isRootInSet_false_of_parent_tag (tree.record "a.1" (some "a") none)
    [tree.record "b" none none] (by decide) (by decide)

theorem hasPrefix_dot_ne (s t : String) (h : strings.HasPrefix s (t ++ ".") = true) :
    t ≠ s := by
  intro e
  unfold strings.HasPrefix at h
  rw [List.isPrefixOf_iff_prefix] at h
  have hlen := h.length_le
  rw [e, String.data_append] at hlen
  simp at hlen

/-- C8 (counterexample): the record `a` with a present but empty parent tag is
classified as a root on the page holding only itself, although it has a parent tag
and that tag is not its own id. -/
theorem isRootInSet_empty_parent_tag :
    isRootInSet emptyParentTag [emptyParentTag] = true ∧
      ¬ SpecRootInSet emptyParentTag [emptyParentTag] := by
  refine ⟨by decide, ?_⟩
  intro h
  rcases h.1 with h1 | h1
  · exact absurd h1 (by decide)
  · exact absurd h1 (by decide)

/-- C8 (amended): `isRootInSet(p, page)` is true if and only if `p` has no parent tag,
or an empty one, or one equal to its own id, and no record `o` of the page has an id
such that the id of `p` begins with the id of `o` followed by a dot.  On the page
`[a, a.1 with parent tag a, a.2 without tags]` the results are true, false, false. -/
theorem isRootInSet_iff (p : Promise) (page : List Promise) :
    (isRootInSet p page = true ↔
      (p.Tags.lookup "resonate:parent" = none ∨ p.Tags.lookup "resonate:parent" = some "" ∨
        p.Tags.lookup "resonate:parent" = some p.ID) ∧
      ∀ o ∈ page, strings.HasPrefix p.ID (o.ID ++ ".") = false) ∧
    examplePage.map (fun q => isRootInSet q examplePage) = [true, false, false] := by
  refine ⟨?_, by decide⟩
  have htag : (tag p.Tags "resonate:parent" ≠ "" ∧ tag p.Tags "resonate:parent" ≠ p.ID) ↔
      ¬ (p.Tags.lookup "resonate:parent" = none ∨ p.Tags.lookup "resonate:parent" = some "" ∨
        p.Tags.lookup "resonate:parent" = some p.ID) := by
    unfold tag
    cases p.Tags.lookup "resonate:parent" with
    | none => simp
    | some v => simp
  have hany : (page.any
      (fun other => decide (other.ID ≠ p.ID) && strings.HasPrefix p.ID (other.ID ++ "."))) = true ↔
      ¬ ∀ o ∈ page, strings.HasPrefix p.ID (o.ID ++ ".") = false := by
    rw [List.any_eq_true]
    constructor
    · rintro ⟨o, ho, hcond⟩ hall
      simp only [Bool.and_eq_true] at hcond
      rw [hall o ho] at hcond
      exact absurd hcond.2 (by simp)
    · intro hnot
      push_neg at hnot
      rcases hnot with ⟨o, ho, hpre⟩
      have hpre' : strings.HasPrefix p.ID (o.ID ++ ".") = true := by
        simpa using hpre
      refine ⟨o, ho, ?_⟩
      simp only [Bool.and_eq_true, decide_eq_true_eq]
      exact ⟨hasPrefix_dot_ne _ _ hpre', hpre'⟩
  unfold isRootInSet
  simp only []
  by_cases h1 : tag p.Tags "resonate:parent" ≠ "" ∧ tag p.Tags "resonate:parent" ≠ p.ID
  · rw [if_pos h1]
    have := htag.mp h1
    constructor
    · intro h; exact absurd h (by simp)
    · intro h; exact absurd h.1 this
  · rw [if_neg h1]
    have h1' := not_not.mp (mt htag.mpr h1)
    by_cases h2 : (page.any
        (fun other => decide (other.ID ≠ p.ID) && strings.HasPrefix p.ID (other.ID ++ "."))) = true
    · rw [if_pos h2]
      constructor
      · intro h; exact absurd h (by simp)
      · intro h; exact absurd h.2 (hany.mp h2)
    · rw [if_neg h2]
      constructor
      · intro _
        exact ⟨h1', not_not.mp (mt hany.mpr h2)⟩
      · intro _; rfl

end forest

namespace tree

open client

/-- The cell at the root pointer after `BuildTree`, relative to the start state. -/
theorem BuildTree_root_cell {sortSlice : (Nat → Nat → Bool) → List Nat → List Nat}
    {ps : List Promise} (hs : SortsIndex sortSlice ps) {fuel : Nat} {rootID : String}
    {h : Heap} {root : Nat} (hb : BuildTree sortSlice fuel rootID ps = some (h, root)) :
    ∃ x n, (promisesOf (resolveRoot (buildIndex ps) rootID).1)[root]? = some x ∧
      x.ID = rootID ∧ h[root]? = some n ∧ n.Promise = x ∧ n.Expanded = true ∧
      n.Children = sortChildren sortSlice (buildIndex ps) rootID ∧
      (ps.length ≤ root → n.Depth = 0) := by
  rcases BuildTree_eq_some hb with ⟨hroot, hassign⟩
  have st := resolveRoot_start ps rootID
  rw [← hroot] at st
  rcases assign_root_children _ fuel root _ h hassign with ⟨n0, m, hn0, hm, e1, e2, e3, e4⟩
  rcases st.root_id with ⟨x, hx, hxid⟩
  have hx0 : n0.Promise = x := by
    rw [promisesOf_getElem?, hn0] at hx
    simpa using hx
  have hnew := st.cell_eq_newNode hn0
  refine ⟨x, m, hx, hxid, hm, e1.trans hx0, ?_, ?_, ?_⟩
  · rw [e2, hnew]; rfl
  · rw [e3, hx0, hxid]
  · intro hge
    have : m.Depth = n0.Depth := by
      apply e4
      intro k hk
      rcases sortChildren_lt ps hs hk with ⟨p, hp, _⟩
      have := getElem?_lt hp
      omega
    rw [this, hnew]; rfl

/-- C9: on an acyclic record collection `BuildTree` returns, and the node it returns
has the requested root id: when a record with that id is supplied it is the node of
that record (the last one with the id), and otherwise it is a placeholder with all
record fields empty, depth 0 and `Expanded = true`. -/
theorem BuildTree_root (sortSlice : (Nat → Nat → Bool) → List Nat → List Nat)
    (hs : SortSliceSpec sortSlice) (rootID : String) (promises : List Promise)
    (hac : Acyclic promises) :
    (∃ fuel res, BuildTree sortSlice fuel rootID promises = some res) ∧
    ∀ fuel h root, BuildTree sortSlice fuel rootID promises = some (h, root) →
      ∃ n, h[root]? = some n ∧ n.Promise.ID = rootID ∧
        ((∃ p ∈ promises, p.ID = rootID) →
          promises[root]? = some n.Promise ∧
          ∀ (j : Nat) (p : Promise), promises[j]? = some p → p.ID = rootID → j ≤ root) ∧
        ((∀ p ∈ promises, p.ID ≠ rootID) →
          n.Promise = zeroPromise rootID ∧ n.Promise.State = "" ∧ n.Depth = 0 ∧
          n.Expanded = true) := by
  refine ⟨BuildTree_returns rootID promises (sortsIndex_of_spec hs _) hac, ?_⟩
  intro fuel h root hb
  rcases BuildTree_root_cell (sortsIndex_of_spec hs _) hb with ⟨x, n, hx, hxid, hn, hnp, hexp, _, hdep⟩
  rcases BuildTree_eq_some hb with ⟨hroot, _⟩
  have st := resolveRoot_start promises rootID
  rw [← hroot] at st
  refine ⟨n, hn, by rw [hnp]; exact hxid, ?_, ?_⟩
  · rintro ⟨p, hp, hpid⟩
    rcases st.ids root x hx with h1 | ⟨_, _, _, hno⟩
    · exact ⟨by rw [hnp]; exact h1, st.last⟩
    · exact absurd hpid (hno p hp)
  · intro hno
    rcases st.ids root x hx with h1 | ⟨hz, hroot', _, _⟩
    · exact absurd hxid (hno x (mem_of_getElem? h1))
    · refine ⟨hnp.trans hz, by rw [hnp, hz]; rfl, hdep (by omega), hexp⟩

/-- Witness for `BuildTree_root`. -/
theorem BuildTree_root_witness :
    (∃ fuel res, BuildTree referenceSort fuel "r" chainRecords = some res) ∧
    ∀ fuel h root, BuildTree referenceSort fuel "r" chainRecords = some (h, root) →
      ∃ n, h[root]? = some n ∧ n.Promise.ID = "r" ∧
        ((∃ p ∈ chainRecords, p.ID = "r") →
          chainRecords[root]? = some n.Promise ∧
          ∀ (j : Nat) (p : Promise), chainRecords[j]? = some p → p.ID = "r" → j ≤ root) ∧
        ((∀ p ∈ chainRecords, p.ID ≠ "r") →
          n.Promise = zeroPromise "r" ∧ n.Promise.State = "" ∧ n.Depth = 0 ∧
          n.Expanded = true) :=
  BuildTree_root referenceSort referenceSort_spec "r" chainRecords
    (acyclic_of_rankGrows String.length chainRecords (by decide))

/-- C10 (counterexample): no record of `orphanRecords` has the id `missing`, yet the
placeholder root returned by `BuildTree` has a child, the node of the record that
names `missing` as its parent. -/
theorem BuildTree_placeholder_has_children :
    (∀ p ∈ orphanRecords, p.ID ≠ "missing") ∧
    ∃ h root n, BuildTree (sort.Slice sort.xorshiftNext) 2 "missing" orphanRecords
        = some (h, root) ∧
      h[root]? = some n ∧ n.Promise = zeroPromise "missing" ∧ n.Children = [0] := by
  refine ⟨by decide, ?_⟩
  exact ⟨[cell (record "a" (some "missing") none) [] 1, cell (zeroPromise "missing") [0] 0], 1,
    cell (zeroPromise "missing") [0] 0, by decide, by decide, by decide, by decide⟩

/-- C10 (amended): when no record has the requested root id, the root returned by
`BuildTree` is the placeholder (all record fields empty) and its children are exactly
the nodes of the records whose parent tag is the root id; so it has no children exactly
when no record names the root id as its parent, and in that case `BuildTree` returns.
In particular `BuildTree("missing-root", [])` is a single node with id `missing-root`
and no children. -/
theorem BuildTree_placeholder (sortSlice : (Nat → Nat → Bool) → List Nat → List Nat)
    (hs : SortSliceSpec sortSlice) (rootID : String) (promises : List Promise)
    (hno : ∀ p ∈ promises, p.ID ≠ rootID) :
    (∀ fuel h root, BuildTree sortSlice fuel rootID promises = some (h, root) →
      ∃ n, h[root]? = some n ∧ n.Promise = zeroPromise rootID ∧ n.Promise.State = "" ∧
        (∀ c, c ∈ n.Children ↔
          ∃ p, promises[c]? = some p ∧ p.Tags.lookup "resonate:parent" = some rootID) ∧
        (n.Children = [] ↔
          ∀ p ∈ promises, p.Tags.lookup "resonate:parent" ≠ some rootID)) ∧
    ((∀ p ∈ promises, p.Tags.lookup "resonate:parent" ≠ some rootID) →
      ∃ h root, BuildTree sortSlice 1 rootID promises = some (h, root)) ∧
    BuildTree sortSlice 1 "missing-root" [] = some ([newNode (zeroPromise "missing-root")], 0) := by
  have hmem : ∀ c, c ∈ sortChildren sortSlice (buildIndex promises) rootID ↔
      ∃ p, promises[c]? = some p ∧ p.Tags.lookup "resonate:parent" = some rootID := by
    intro c
    rw [(sortChildren_perm hs (buildIndex promises) rootID).mem_iff,
      (buildIndex_inv promises).mem_children]
    constructor
    · rintro ⟨p, hp, htag, _⟩
      exact ⟨p, hp, htag⟩
    · rintro ⟨p, hp, htag⟩
      exact ⟨p, hp, htag, fun e => hno p (mem_of_getElem? hp) e.symm⟩
  have hnil : sortChildren sortSlice (buildIndex promises) rootID = [] ↔
      ∀ p ∈ promises, p.Tags.lookup "resonate:parent" ≠ some rootID := by
    rw [List.eq_nil_iff_forall_not_mem]
    constructor
    · intro hall p hp htag
      rcases List.getElem_of_mem hp with ⟨c, hc, hcp⟩
      exact hall c ((hmem c).mpr ⟨p, by rw [List.getElem?_eq_getElem hc, hcp], htag⟩)
    · intro hall c hc
      rcases (hmem c).mp hc with ⟨p, hp, htag⟩
      exact hall p (mem_of_getElem? hp) htag
  have hstart : resolveRoot (buildIndex promises) rootID =
      (promises.map newNode ++ [newNode (zeroPromise rootID)], promises.length) := by
    unfold resolveRoot
    cases hr : (buildIndex promises).nodeMap rootID with
    | some r =>
      rcases (buildIndex_inv promises).nodeMap_some rootID r hr with ⟨p, hp, hpid⟩
      exact absurd hpid (hno p (mem_of_getElem? hp))
    | none =>
      simp only [(buildIndex_inv promises).nodes, List.length_map]
  refine ⟨?_, ?_, ?_⟩
  · intro fuel h root hb
    rcases BuildTree_root_cell (sortsIndex_of_spec hs _) hb with ⟨x, n, hx, hxid, hn, hnp, _, hch, _⟩
    rcases BuildTree_eq_some hb with ⟨hroot, _⟩
    have st := resolveRoot_start promises rootID
    rw [← hroot] at st
    have hz : x = zeroPromise rootID := by
      rcases st.ids root x hx with h1 | ⟨hz, _⟩
      · exact absurd hxid (hno x (mem_of_getElem? h1))
      · exact hz
    refine ⟨n, hn, hnp.trans hz, by rw [hnp, hz]; rfl, ?_, ?_⟩
    · intro c
      rw [hch]
      exact hmem c
    · rw [hch]
      exact hnil
  · intro hall
    have hget : (promises.map newNode ++ [newNode (zeroPromise rootID)])[promises.length]? =
        some (newNode (zeroPromise rootID)) := by
      have := getElem?_snoc_length (promises.map newNode) (newNode (zeroPromise rootID))
      rw [List.length_map] at this
      exact this
    have hz : (newNode (zeroPromise rootID)).Promise.ID = rootID := rfl
    have hassign : assign (sortChildren sortSlice (buildIndex promises)) 1 promises.length
        (promises.map newNode ++ [newNode (zeroPromise rootID)]) =
        some ((promises.map newNode ++ [newNode (zeroPromise rootID)]).set promises.length
          { newNode (zeroPromise rootID) with Children := [] }) := by
      unfold assign
      rw [hget]
      simp only [hz, hnil.mpr hall, List.foldlM_nil]
      rfl
    have hb : BuildTree sortSlice 1 rootID promises =
        some ((promises.map newNode ++ [newNode (zeroPromise rootID)]).set promises.length
          { newNode (zeroPromise rootID) with Children := [] }, promises.length) := by
      unfold BuildTree
      simp only [hstart, hassign, Option.map_some']
    exact ⟨_, _, hb⟩
  · have hperm := (hs (fun a => safeInt64 (createdOnOf [] a)) []).1
    have hsort : sortSlice (lessCreatedOn []) [] = [] := List.Perm.eq_nil hperm
    simp [BuildTree, buildIndex, resolveRoot, assign, sortChildren, hsort, newNode, zeroPromise]

/-- Witness for `BuildTree_placeholder`. -/
theorem BuildTree_placeholder_witness :
    (∀ fuel h root, BuildTree referenceSort fuel "missing" orphanRecords = some (h, root) →
      ∃ n, h[root]? = some n ∧ n.Promise = zeroPromise "missing" ∧ n.Promise.State = "" ∧
        (∀ c, c ∈ n.Children ↔
          ∃ p, orphanRecords[c]? = some p ∧ p.Tags.lookup "resonate:parent" = some "missing") ∧
        (n.Children = [] ↔
          ∀ p ∈ orphanRecords, p.Tags.lookup "resonate:parent" ≠ some "missing")) ∧
    ((∀ p ∈ orphanRecords, p.Tags.lookup "resonate:parent" ≠ some "missing") →
      ∃ h root, BuildTree referenceSort 1 "missing" orphanRecords = some (h, root)) ∧
    BuildTree referenceSort 1 "missing-root" [] = some ([newNode (zeroPromise "missing-root")], 0) :=
  BuildTree_placeholder referenceSort referenceSort_spec "missing" orphanRecords (by decide)

end tree

namespace forest

open client

/-! ### Claims about the forest view -/

theorem oldRootsOf_foldl (roots : List RootItem) :
    ∀ (mp : String → Option RootItem) (k : String),
      (roots.foldl (fun mp root => fun k => if k = root.Promise.ID then some root else mp k)
          mp) k =
        match (roots.reverse.find? (fun root => decide (root.Promise.ID = k))) with
        | some root => some root
        | none => mp k := by
  induction roots with
  | nil => intro mp k; simp
  | cons r rs ih =>
    intro mp k
    rw [List.foldl_cons, ih]
    simp only [List.reverse_cons, List.find?_append]
    cases hf : rs.reverse.find? (fun root => decide (root.Promise.ID = k)) with
    | some x => simp
    | none =>
      simp only [Option.none_or, List.find?_cons, List.find?_nil]
      by_cases hk : k = r.Promise.ID
      · simp [hk]
      · have : ¬ r.Promise.ID = k := fun e => hk e.symm
        simp [hk, this]

theorem oldRootsOf_none {roots : List RootItem} {k : String}
    (h : ∀ old ∈ roots, old.Promise.ID ≠ k) : oldRootsOf roots k = none := by
  unfold oldRootsOf
  rw [oldRootsOf_foldl]
  have : roots.reverse.find? (fun root => decide (root.Promise.ID = k)) = none := by
    rw [List.find?_eq_none]
    intro x hx
    simpa using h x (List.mem_reverse.mp hx)
  rw [this]

theorem oldRootsOf_some {roots : List RootItem} (hnd : (roots.map (fun r => r.Promise.ID)).Nodup)
    {old : RootItem} (hold : old ∈ roots) : oldRootsOf roots old.Promise.ID = some old := by
  unfold oldRootsOf
  rw [oldRootsOf_foldl]
  cases hf : roots.reverse.find? (fun root => decide (root.Promise.ID = old.Promise.ID)) with
  | none =>
    rw [List.find?_eq_none] at hf
    have := hf old (List.mem_reverse.mpr hold)
    simp at this
  | some x =>
    have hx := List.find?_some hf
    have hxmem : x ∈ roots := List.mem_reverse.mp (List.mem_of_find?_eq_some hf)
    simp only [decide_eq_true_eq] at hx
    have : x = old := by
      exact List.inj_on_of_nodup_map hnd hxmem hold hx
    simp [this]

/-- C11: with pairwise distinct ids in the prior root list, handling a successful
`RootsLoadedMsg` leaves one item per page record, in page order, carrying the new
record; an item whose id occurs in the prior list has the `Expanded`, `Tree` and
`Loading` of the prior item with that id, and any other item is collapsed, without tree
and not loading. -/
theorem Update_rootsLoaded_merge (m : Model) (page : List Promise) (cursor : Option String)
    (hnd : (m.roots.map (fun r => r.Promise.ID)).Nodup) :
    ∃ m', m.Update (Msg.RootsLoadedMsg page cursor none) = .ok (m', Cmd.none) ∧
      m'.roots.map (fun r => r.Promise) = page ∧
      ∀ (i : Nat) (item : RootItem), m'.roots[i]? = some item →
        (∀ old ∈ m.roots, old.Promise.ID = item.Promise.ID →
          item.Expanded = old.Expanded ∧ item.Tree = old.Tree ∧ item.Loading = old.Loading) ∧
        ((∀ old ∈ m.roots, old.Promise.ID ≠ item.Promise.ID) →
          item.Expanded = false ∧ item.Tree = none ∧ item.Loading = false) := by
  refine ⟨_, rfl, ?_, ?_⟩
  · simp only [List.map_map]
    have : ((fun r : RootItem => r.Promise) ∘ mergeRoot (oldRootsOf m.roots)) = id := by
      funext p
      simp only [Function.comp, mergeRoot, id]
      cases oldRootsOf m.roots p.ID <;> rfl
    rw [this, List.map_id]
  · intro i item hi
    simp only [List.getElem?_map] at hi
    cases hp : page[i]? with
    | none => rw [hp] at hi; simp at hi
    | some p =>
      rw [hp] at hi
      simp only [Option.map_some', Option.some.injEq] at hi
      have hid : item.Promise = p := by
        rw [← hi]
        unfold mergeRoot
        cases oldRootsOf m.roots p.ID <;> rfl
      constructor
      · intro old hold hsame
        have hs := oldRootsOf_some hnd hold
        rw [hsame, hid] at hs
        rw [← hi]
        simp [mergeRoot, hs]
      · intro hnone
        have hn := oldRootsOf_none hnone
        rw [hid] at hn
        rw [← hi]
        simp [mergeRoot, hn]

/-- Witness for `Update_rootsLoaded_merge`: the item `x`, expanded with a loaded tree,
survives a refresh of a page that still holds `x`. -/
theorem Update_rootsLoaded_merge_witness :
    ∃ m', (exampleForest [expandedRoot]).Update
          (Msg.RootsLoadedMsg [tree.record "y" none none, tree.record "x" none none]
            (some "next") none) = .ok (m', Cmd.none) ∧
      m'.roots.map (fun r => r.Promise) =
        [tree.record "y" none none, tree.record "x" none none] ∧
      ∀ (i : Nat) (item : RootItem), m'.roots[i]? = some item →
        (∀ old ∈ (exampleForest [expandedRoot]).roots,
          old.Promise.ID = item.Promise.ID →
          item.Expanded = old.Expanded ∧ item.Tree = old.Tree ∧ item.Loading = old.Loading) ∧
        ((∀ old ∈ (exampleForest [expandedRoot]).roots,
          old.Promise.ID ≠ item.Promise.ID) →
          item.Expanded = false ∧ item.Tree = none ∧ item.Loading = false) :=
  Update_rootsLoaded_merge _ _ _ (by decide)

end forest

namespace tree

open client

/-- In a store returned by `BuildTree`, a pointer listed in some cell's `Children` is the
cell of a record whose parent tag is that cell's id and differs from the record's own id. -/
theorem BuildTree_child_record {sortSlice : (Nat → Nat → Bool) → List Nat → List Nat}
    {ps : List Promise} (hs : SortsIndex sortSlice ps) {fuel : Nat} {rootID : String}
    {h : Heap} {root : Nat} (hb : BuildTree sortSlice fuel rootID ps = some (h, root))
    {q c : Nat} {n : TreeNode} (hn : h[q]? = some n) (hc : c ∈ n.Children) :
    ∃ p cn, ps[c]? = some p ∧ h[c]? = some cn ∧ cn.Promise = p ∧
      p.Tags.lookup "resonate:parent" = some n.Promise.ID ∧ n.Promise.ID ≠ p.ID := by
  rcases BuildTree_eq_some hb with ⟨hroot, hassign⟩
  have st := resolveRoot_start ps rootID
  have hP := assign_promisesOf _ fuel root _ h hassign
  have hstep := assign_heapStep _ fuel root _ h hassign
  rcases heapStep_back hstep hP hn with ⟨n0, hn0, hprom, _, hch, _⟩
  rcases hch with hch | hch
  · rw [hch, st.cell_eq_newNode hn0] at hc
    simp [newNode] at hc
  · rw [hch] at hc
    rcases sortChildren_lt ps hs hc with ⟨p, hp, htag, hne⟩
    have hpc : (promisesOf h)[c]? = some p := by rw [hP]; exact st.pre c p hp
    rw [promisesOf_getElem?] at hpc
    cases hcn : h[c]? with
    | none => rw [hcn] at hpc; simp at hpc
    | some cn =>
      rw [hcn] at hpc
      simp only [Option.map_some', Option.some.injEq] at hpc
      exact ⟨p, cn, hp, rfl, hpc, by rw [hprom]; exact htag, by rw [hprom]; exact hne⟩

/-- C12: for every root id and every acyclic record collection, `BuildTree` returns and
in the returned store no cell (so no node of the returned tree) lists a child whose id
equals the cell's own id; a record whose parent tag equals its own id is not listed in
any children list.  The library call `sort.Slice` is assumed to meet its contract
`SortSliceSpec`. -/
theorem BuildTree_no_self_child (sortSlice : (Nat → Nat → Bool) → List Nat → List Nat)
    (hs : SortSliceSpec sortSlice) (rootID : String) (promises : List Promise)
    (hac : Acyclic promises) :
    (∃ fuel res, BuildTree sortSlice fuel rootID promises = some res) ∧
    ∀ fuel h root, BuildTree sortSlice fuel rootID promises = some (h, root) →
      (∀ (q : Nat) (n : TreeNode), h[q]? = some n → ∀ c ∈ n.Children,
        ∃ cn, h[c]? = some cn ∧ cn.Promise.ID ≠ n.Promise.ID) ∧
      (∀ (c : Nat) (p : Promise), promises[c]? = some p →
        p.Tags.lookup "resonate:parent" = some p.ID →
        ∀ (q : Nat) (n : TreeNode), h[q]? = some n → c ∉ n.Children) := by
  refine ⟨BuildTree_returns rootID promises (sortsIndex_of_spec hs _) hac, ?_⟩
  intro fuel h root hb
  constructor
  · intro q n hn c hc
    rcases BuildTree_child_record (sortsIndex_of_spec hs _) hb hn hc
      with ⟨p, cn, _, hcn, hcp, _, hne⟩
    exact ⟨cn, hcn, by rw [hcp]; exact fun e => hne e.symm⟩
  · intro c p hp hself q n hn hc
    rcases BuildTree_child_record (sortsIndex_of_spec hs _) hb hn hc
      with ⟨p', cn, hp', _, _, htag, hne⟩
    rw [hp] at hp'
    have e := Option.some.inj hp'
    subst e
    rw [hself] at htag
    exact hne (Option.some.inj htag).symm

/-- Witness for `BuildTree_no_self_child`: `selfParentRecords` holds a record that names
itself as its parent. -/
theorem BuildTree_no_self_child_witness :
    (∃ fuel res, BuildTree referenceSort fuel "r" selfParentRecords = some res) ∧
    ∀ fuel h root, BuildTree referenceSort fuel "r" selfParentRecords = some (h, root) →
      (∀ (q : Nat) (n : TreeNode), h[q]? = some n → ∀ c ∈ n.Children,
        ∃ cn, h[c]? = some cn ∧ cn.Promise.ID ≠ n.Promise.ID) ∧
      (∀ (c : Nat) (p : Promise), selfParentRecords[c]? = some p →
        p.Tags.lookup "resonate:parent" = some p.ID →
        ∀ (q : Nat) (n : TreeNode), h[q]? = some n → c ∉ n.Children) :=
  BuildTree_no_self_child referenceSort referenceSort_spec "r" selfParentRecords
    (acyclic_of_rankGrows String.length selfParentRecords (by decide))

/-- C13: for every root id and every acyclic record collection, `BuildTree` returns and
in the returned tree every child is the node of a record whose parent tag is the id of
its tree parent; so every node of the tree is the root or has a tree parent of that
kind, and the id of every node of the tree is reached from the root id by a chain of
parent tags of the collection.  A record without such a chain is therefore not in the
tree.  The library call `sort.Slice` is assumed to meet its contract `SortSliceSpec`. -/
theorem BuildTree_reachable_only (sortSlice : (Nat → Nat → Bool) → List Nat → List Nat)
    (hs : SortSliceSpec sortSlice) (rootID : String) (promises : List Promise)
    (hac : Acyclic promises) :
    (∃ fuel res, BuildTree sortSlice fuel rootID promises = some res) ∧
    ∀ fuel h root, BuildTree sortSlice fuel rootID promises = some (h, root) →
      (∀ (p c : Nat) (pn : TreeNode), h[p]? = some pn → c ∈ pn.Children →
        ∃ r cn, promises[c]? = some r ∧ h[c]? = some cn ∧ cn.Promise = r ∧
          r.Tags.lookup "resonate:parent" = some pn.Promise.ID) ∧
      (∀ c, InTree h root c → c = root ∨ ∃ p, InTree h root p ∧ ChildOf h p c) ∧
      (∀ (q : Nat) (n : TreeNode), InTree h root q → h[q]? = some n →
        Relation.ReflTransGen (ParentEdge promises) rootID n.Promise.ID) ∧
      (∀ (j : Nat) (r : Promise), promises[j]? = some r →
        ¬ Relation.ReflTransGen (ParentEdge promises) rootID r.ID → ¬ InTree h root j) := by
  refine ⟨BuildTree_returns rootID promises (sortsIndex_of_spec hs _) hac, ?_⟩
  intro fuel h root hb
  have hsI := sortsIndex_of_spec hs promises
  have hchain : ∀ (q : Nat), InTree h root q → ∀ (n : TreeNode), h[q]? = some n →
      Relation.ReflTransGen (ParentEdge promises) rootID n.Promise.ID := by
    intro q hq
    induction hq with
    | refl =>
      intro n hn
      rcases BuildTree_root_cell hsI hb with ⟨x, m, _, hxid, hm, hmx, _⟩
      rw [hn] at hm
      have e := Option.some.inj hm
      subst e
      rw [hmx, hxid]
    | @tail b c _ hc ih =>
      intro n hn
      rcases hc with ⟨bn, hbn, hcb⟩
      rcases BuildTree_child_record hsI hb hbn hcb with ⟨r, cn, hr, hcn, hcr, htag, hne⟩
      rw [hn] at hcn
      have e := Option.some.inj hcn
      subst e
      refine (ih bn hbn).tail ⟨r, mem_of_getElem? hr, hcr.symm ▸ rfl, htag, ?_⟩
      rw [hcr]
      exact hne
  refine ⟨?_, ?_, fun q n hq hn => hchain q hq n hn, ?_⟩
  · intro p c pn hpn hc
    rcases BuildTree_child_record hsI hb hpn hc with ⟨r, cn, hr, hcn, hcr, htag, _⟩
    exact ⟨r, cn, hr, hcn, hcr, htag⟩
  · intro c hc
    rcases Relation.ReflTransGen.cases_tail hc with e | ⟨p, hp, hpc⟩
    · exact Or.inl e
    · exact Or.inr ⟨p, hp, hpc⟩
  · intro j r hr hno hin
    have hlt : j < h.length := by
      rcases BuildTree_eq_some hb with ⟨_, hassign⟩
      have st := resolveRoot_start promises rootID
      have hP := assign_promisesOf _ fuel root _ h hassign
      have h1 := st.pre j r hr
      rw [← hP] at h1
      have := getElem?_lt h1
      simpa [promisesOf] using this
    have hcell : (promisesOf h)[j]? = some r := by
      rcases BuildTree_eq_some hb with ⟨_, hassign⟩
      have st := resolveRoot_start promises rootID
      have hP := assign_promisesOf _ fuel root _ h hassign
      rw [hP]
      exact st.pre j r hr
    rw [promisesOf_getElem?] at hcell
    cases hn : h[j]? with
    | none => rw [hn] at hcell; simp at hcell
    | some n =>
      rw [hn] at hcell
      simp only [Option.map_some', Option.some.injEq] at hcell
      exact hno (hcell ▸ hchain j hin n hn)

/-- Witness for `BuildTree_reachable_only`: in `strayRecords` the record `st` names a
parent outside the tree of `r`. -/
theorem BuildTree_reachable_only_witness :
    (∃ fuel res, BuildTree referenceSort fuel "r" strayRecords = some res) ∧
    ∀ fuel h root, BuildTree referenceSort fuel "r" strayRecords = some (h, root) →
      (∀ (p c : Nat) (pn : TreeNode), h[p]? = some pn → c ∈ pn.Children →
        ∃ r cn, strayRecords[c]? = some r ∧ h[c]? = some cn ∧ cn.Promise = r ∧
          r.Tags.lookup "resonate:parent" = some pn.Promise.ID) ∧
      (∀ c, InTree h root c → c = root ∨ ∃ p, InTree h root p ∧ ChildOf h p c) ∧
      (∀ (q : Nat) (n : TreeNode), InTree h root q → h[q]? = some n →
        Relation.ReflTransGen (ParentEdge strayRecords) "r" n.Promise.ID) ∧
      (∀ (j : Nat) (r : Promise), strayRecords[j]? = some r →
        ¬ Relation.ReflTransGen (ParentEdge strayRecords) "r" r.ID → ¬ InTree h root j) :=
  BuildTree_reachable_only referenceSort referenceSort_spec "r" strayRecords
    (acyclic_of_rankGrows String.length strayRecords (by decide))

/-- On a store holding the two records of `cycleRecords`, with `b` listed under `a`
and `a` under `b`, no amount of fuel lets `assign` return. -/
theorem assign_cycle_none (cm : String → List Nat) (ha : cm "a" = [1]) (hb : cm "b" = [0]) :
    ∀ (fuel ptr : Nat) (h : Heap), promisesOf h = cycleRecords → ptr < 2 →
      assign cm fuel ptr h = none := by
  intro fuel
  induction fuel with
  | zero => intro ptr h _ _; rfl
  | succ fuel ih =>
    intro ptr h hP hptr
    have hchild : ∀ (node child : Nat) (g : Heap), promisesOf g = cycleRecords → child < 2 →
        assignChild (assign cm fuel) node g child = none := by
      intro node child g hg hchild
      unfold assignChild
      split
      · rename_i n c hn hc
        apply ih _ _ _ hchild
        exact (promisesOf_set hc { c with Depth := n.Depth + 1 } rfl).trans hg
      · rfl
    unfold assign
    cases hn : h[ptr]? with
    | none => rfl
    | some n =>
      have hPn : (promisesOf h)[ptr]? = some n.Promise := by
        rw [promisesOf_getElem?, hn]; rfl
      rw [hP] at hPn
      have hset : promisesOf (h.set ptr { n with Children := cm n.Promise.ID }) = cycleRecords := by
        exact (promisesOf_set hn { n with Children := cm n.Promise.ID } rfl).trans hP
      have hcases : ptr = 0 ∨ ptr = 1 := by omega
      rcases hcases with e | e
      · subst e
        have hid : n.Promise.ID = "a" := by
          have e2 : some (record "a" (some "b") none) = some n.Promise := hPn
          rw [← Option.some.inj e2]; rfl
        simp only [hid, ha, List.foldlM_cons, List.foldlM_nil]
        rw [hid, ha] at hset
        rw [hchild 0 1 _ hset (by omega)]
        rfl
      · subst e
        have hid : n.Promise.ID = "b" := by
          have e2 : some (record "b" (some "a") none) = some n.Promise := hPn
          rw [← Option.some.inj e2]; rfl
        simp only [hid, hb, List.foldlM_cons, List.foldlM_nil]
        rw [hid, hb] at hset
        rw [hchild 1 0 _ hset (by omega)]
        rfl

/-- C14 (counterexample): on the cyclic collection in which `a` has parent `b` and `b`
has parent `a`, with root id `a`, `BuildTree` does not return, whatever the number of
nested calls of `assign` it is allowed. -/
theorem BuildTree_diverges_on_cycle :
    ¬ ∃ fuel res, BuildTree (sort.Slice sort.xorshiftNext) fuel "a" cycleRecords = some res := by
  rintro ⟨fuel, res, hres⟩
  unfold BuildTree at hres
  have hnone := assign_cycle_none
    (sortChildren (sort.Slice sort.xorshiftNext) (buildIndex cycleRecords))
    (by decide) (by decide) fuel (resolveRoot (buildIndex cycleRecords) "a").2
    (resolveRoot (buildIndex cycleRecords) "a").1 (by decide) (by decide)
  simp only [hnone, Option.map_none'] at hres
  exact Option.noConfusion hres

/-- C14 (amended): for every root id and every record collection whose parent tags form
no cycle, `BuildTree` terminates: from some depth of nested `assign` calls on, every
larger allowance returns a tree.  A record that names itself as its parent is skipped
and is no cycle.  The library call `sort.Slice` is assumed to meet its contract
`SortSliceSpec`. -/
theorem BuildTree_terminates (sortSlice : (Nat → Nat → Bool) → List Nat → List Nat)
    (hs : SortSliceSpec sortSlice) (rootID : String) (promises : List Promise)
    (hac : Acyclic promises) :
    ∃ f, ∀ fuel, f ≤ fuel → ∃ res, BuildTree sortSlice fuel rootID promises = some res := by
  have st := resolveRoot_start promises rootID
  have hsI := sortsIndex_of_spec hs promises
  rcases assign_terminates (start_valid hsI st) (start_acyclic hsI st hac) _ st.root_lt
    with ⟨f, hf⟩
  refine ⟨f, fun fuel hfuel => ?_⟩
  rcases hf fuel hfuel _ rfl with ⟨h', hh'⟩
  refine ⟨(h', (resolveRoot (buildIndex promises) rootID).2), ?_⟩
  unfold BuildTree
  simp only [hh', Option.map_some']

/-- Witness for `BuildTree_terminates`: `selfParentRecords` holds a record naming itself
as its parent and is acyclic. -/
theorem BuildTree_terminates_witness :
    ∃ f, ∀ fuel, f ≤ fuel →
      ∃ res, BuildTree referenceSort fuel "r" selfParentRecords = some res :=
  BuildTree_terminates referenceSort referenceSort_spec "r" selfParentRecords
    (acyclic_of_rankGrows String.length selfParentRecords (by decide))

end tree

namespace forest

open client

/-- C15 (counterexample): the record `emptyTimeoutTag` carries a timeout tag, whose value
is empty, and the scope `global`; `promiseRole` returns `rpc` for it, where the rule
"sleep when a timeout tag is present" gives `sleep`. -/
theorem promiseRole_empty_timeout_tag :
    emptyTimeoutTag.Tags.lookup "resonate:timeout" = some "" ∧
    promiseRole emptyTimeoutTag = "rpc" ∧ SpecRole emptyTimeoutTag = "sleep" := by
  decide

/-- C15 (amended): `promiseRole` returns `sleep` exactly when the record carries a
timeout tag with a non-empty value, whatever its scope tag; otherwise `rpc` exactly when
the scope tag is `global`, `run` exactly when it is `local`, and `root` in every other
case. -/
theorem promiseRole_spec (p : Promise) :
    (promiseRole p = "sleep" ↔ ∃ v, p.Tags.lookup "resonate:timeout" = some v ∧ v ≠ "") ∧
    (promiseRole p = "rpc" ↔
      (¬ ∃ v, p.Tags.lookup "resonate:timeout" = some v ∧ v ≠ "") ∧
        p.Tags.lookup "resonate:scope" = some "global") ∧
    (promiseRole p = "run" ↔
      (¬ ∃ v, p.Tags.lookup "resonate:timeout" = some v ∧ v ≠ "") ∧
        p.Tags.lookup "resonate:scope" = some "local") ∧
    (promiseRole p = "root" ↔
      (¬ ∃ v, p.Tags.lookup "resonate:timeout" = some v ∧ v ≠ "") ∧
        p.Tags.lookup "resonate:scope" ≠ some "global" ∧
        p.Tags.lookup "resonate:scope" ≠ some "local") := by
  have e1 : ("rpc" : String) ≠ "sleep" := by decide
  have e2 : ("run" : String) ≠ "sleep" := by decide
  have e3 : ("root" : String) ≠ "sleep" := by decide
  have e4 : ("sleep" : String) ≠ "rpc" := by decide
  have e5 : ("run" : String) ≠ "rpc" := by decide
  have e6 : ("root" : String) ≠ "rpc" := by decide
  have e7 : ("sleep" : String) ≠ "run" := by decide
  have e8 : ("rpc" : String) ≠ "run" := by decide
  have e9 : ("root" : String) ≠ "run" := by decide
  have e10 : ("sleep" : String) ≠ "root" := by decide
  have e11 : ("rpc" : String) ≠ "root" := by decide
  have e12 : ("run" : String) ≠ "root" := by decide
  have e13 : ("" : String) ≠ "global" := by decide
  have e14 : ("" : String) ≠ "local" := by decide
  have e15 : ("global" : String) ≠ "local" := by decide
  have e16 : ("local" : String) ≠ "global" := by decide
  unfold promiseRole tag
  cases p.Tags.lookup "resonate:timeout" with
  | none =>
    cases p.Tags.lookup "resonate:scope" with
    | none => simp [e1, e2, e3, e4, e5, e6, e7, e8, e9, e10, e11, e12, e13, e14]
    | some s =>
      by_cases h2 : s = "global"
      · simp [h2, e1, e2, e3, e4, e5, e6, e7, e8, e9, e10, e11, e12, e13, e14, e15, e16]
      · by_cases h3 : s = "local"
        · simp [h3, e1, e2, e3, e4, e5, e6, e7, e8, e9, e10, e11, e12, e13, e14, e15, e16]
        · simp [h2, h3, e1, e2, e3, e4, e5, e6, e7, e8, e9, e10, e11, e12, e13, e14, e15, e16]
  | some v =>
    by_cases h1 : v = ""
    · cases p.Tags.lookup "resonate:scope" with
      | none => simp [h1, e1, e2, e3, e4, e5, e6, e7, e8, e9, e10, e11, e12, e13, e14]
      | some s =>
        by_cases h2 : s = "global"
        · simp [h1, h2, e1, e2, e3, e4, e5, e6, e7, e8, e9, e10, e11, e12, e13, e14, e15, e16]
        · by_cases h3 : s = "local"
          · simp [h1, h3, e1, e2, e3, e4, e5, e6, e7, e8, e9, e10, e11, e12, e13, e14, e15, e16]
          · simp [h1, h2, h3, e1, e2, e3, e4, e5, e6, e7, e8, e9, e10, e11, e12, e13, e14, e15, e16]
    · simp [h1, e1, e2, e3, e4, e5, e6, e7, e8, e9, e10, e11, e12, e13, e14, e15, e16]

end forest

namespace forest

open client

/-- C16: when the query succeeds, the closure of `fetchRootsCmd` hands the forest a
`RootsLoadedMsg` with the page's cursor whose records are, with a role filter `t`
active, exactly the page's records of role `t` in page order, and with no role filter
exactly the page's records for which `isRootInSet` holds against that page, in page
order.  The role of a record is fixed by its timeout and scope tags alone, so the
selection under a role filter does not depend on parent tags or ids. -/
theorem fetchRootsCmd_filter (search : SearchParams → Except String SearchResult) (m : Model)
    (result : SearchResult) (hok : search m.fetchRootsParams = .ok result) :
    ∃ page, m.fetchRootsCmd search = Msg.RootsLoadedMsg page result.Cursor none ∧
      (m.typeFilter ≠ "" →
        page = result.Promises.filter (fun p => decide (promiseRole p = m.typeFilter))) ∧
      (m.typeFilter = "" →
        page = result.Promises.filter (fun p => isRootInSet p result.Promises)) ∧
      (∀ p q : Promise, tag p.Tags "resonate:timeout" = tag q.Tags "resonate:timeout" →
        tag p.Tags "resonate:scope" = tag q.Tags "resonate:scope" →
        promiseRole p = promiseRole q) := by
  refine ⟨filterRoots m.typeFilter result.Promises, ?_, ?_, ?_, ?_⟩
  · unfold Model.fetchRootsCmd
    rw [hok]
  · intro ht
    unfold filterRoots
    simp only [ht, if_false]
  · intro ht
    unfold filterRoots
    simp only [ht, if_true]
  · intro p q h1 h2
    unfold promiseRole
    rw [h1, h2]

/-- Witness for `fetchRootsCmd_filter`: the role filter `rpc` on a query that
answers with `rolePage`. -/
theorem fetchRootsCmd_filter_witness :
    ∃ page, rpcFilterForest.fetchRootsCmd (fun _ => .ok { Promises := rolePage, Cursor := none })
        = Msg.RootsLoadedMsg page none none ∧
      (rpcFilterForest.typeFilter ≠ "" →
        page = rolePage.filter (fun p => decide (promiseRole p = rpcFilterForest.typeFilter))) ∧
      (rpcFilterForest.typeFilter = "" →
        page = rolePage.filter (fun p => isRootInSet p rolePage)) ∧
      (∀ p q : Promise, tag p.Tags "resonate:timeout" = tag q.Tags "resonate:timeout" →
        tag p.Tags "resonate:scope" = tag q.Tags "resonate:scope" →
        promiseRole p = promiseRole q) :=
  fetchRootsCmd_filter (fun _ => .ok { Promises := rolePage, Cursor := none }) rpcFilterForest
    { Promises := rolePage, Cursor := none } rfl

end forest

namespace forest

open client

/-- The key `s` moves to the next sort mode and starts over from page 1. -/
theorem updateNavigation_s (m : Model) :
    m.updateNavigation "s" =
      .ok (({ m with sortMode := (m.sortMode + 1).tmod 4 } : Model).reload) := by
  unfold Model.updateNavigation
  simp [theme.Key]

/-- C17: the query parameters of the forest carry the sort directive -1 in the
created-descending mode and 1 in the created-ascending mode, and none in the two
resolved modes; from each of the four modes the key `s` leads to the next one, each
press issuing a fetch with the new mode, and four presses lead back to the mode the
forest started in. -/
theorem sortMode_directive_and_cycle (m : Model)
    (hmode : m.sortMode ∈ [SortCreatedDesc, SortCreatedAsc, SortResolvedDesc, SortResolvedAsc]) :
    (m.fetchRootsParams.SortID =
      if m.sortMode = SortCreatedDesc then some (-1)
      else if m.sortMode = SortCreatedAsc then some 1
      else none) ∧
    (({ m with sortMode := SortCreatedDesc } : Model).fetchRootsParams.SortID = some (-1)) ∧
    (({ m with sortMode := SortCreatedAsc } : Model).fetchRootsParams.SortID = some 1) ∧
    (({ m with sortMode := SortResolvedDesc } : Model).fetchRootsParams.SortID = none) ∧
    (({ m with sortMode := SortResolvedAsc } : Model).fetchRootsParams.SortID = none) ∧
    ∃ m1 m2 m3 m4,
      m.updateNavigation "s" = .ok (m1, Cmd.batch [Cmd.tick, Cmd.fetchRoots m1]) ∧
      m1.updateNavigation "s" = .ok (m2, Cmd.batch [Cmd.tick, Cmd.fetchRoots m2]) ∧
      m2.updateNavigation "s" = .ok (m3, Cmd.batch [Cmd.tick, Cmd.fetchRoots m3]) ∧
      m3.updateNavigation "s" = .ok (m4, Cmd.batch [Cmd.tick, Cmd.fetchRoots m4]) ∧
      m4.sortMode = m.sortMode ∧
      [m.sortMode, m1.sortMode, m2.sortMode, m3.sortMode].Perm
        [SortCreatedDesc, SortCreatedAsc, SortResolvedDesc, SortResolvedAsc] ∧
      (m.sortMode = SortCreatedDesc → m1.sortMode = SortCreatedAsc) ∧
      (m.sortMode = SortCreatedAsc → m1.sortMode = SortResolvedDesc) ∧
      (m.sortMode = SortResolvedDesc → m1.sortMode = SortResolvedAsc) ∧
      (m.sortMode = SortResolvedAsc → m1.sortMode = SortCreatedDesc) := by
  refine ⟨rfl, rfl, rfl, rfl, rfl, _, _, _, _, updateNavigation_s _, updateNavigation_s _,
    updateNavigation_s _, updateNavigation_s _, ?_⟩
  simp only [Model.reload, SortCreatedDesc, SortCreatedAsc, SortResolvedDesc, SortResolvedAsc,
    List.mem_cons, List.mem_singleton, List.not_mem_nil, or_false] at hmode ⊢
  rcases hmode with h | h | h | h <;> rw [h] <;> refine ⟨by decide, by decide, ?_⟩ <;> decide

/-- Witness for `sortMode_directive_and_cycle`: the forest in its initial,
created-descending mode. -/
theorem sortMode_directive_and_cycle_witness :
    ((exampleForest []).fetchRootsParams.SortID =
      if (exampleForest []).sortMode = SortCreatedDesc then some (-1)
      else if (exampleForest []).sortMode = SortCreatedAsc then some 1
      else none) ∧
    (({ exampleForest [] with sortMode := SortCreatedDesc } : Model).fetchRootsParams.SortID
      = some (-1)) ∧
    (({ exampleForest [] with sortMode := SortCreatedAsc } : Model).fetchRootsParams.SortID
      = some 1) ∧
    (({ exampleForest [] with sortMode := SortResolvedDesc } : Model).fetchRootsParams.SortID
      = none) ∧
    (({ exampleForest [] with sortMode := SortResolvedAsc } : Model).fetchRootsParams.SortID
      = none) ∧
    ∃ m1 m2 m3 m4,
      (exampleForest []).updateNavigation "s"
        = .ok (m1, Cmd.batch [Cmd.tick, Cmd.fetchRoots m1]) ∧
      m1.updateNavigation "s" = .ok (m2, Cmd.batch [Cmd.tick, Cmd.fetchRoots m2]) ∧
      m2.updateNavigation "s" = .ok (m3, Cmd.batch [Cmd.tick, Cmd.fetchRoots m3]) ∧
      m3.updateNavigation "s" = .ok (m4, Cmd.batch [Cmd.tick, Cmd.fetchRoots m4]) ∧
      m4.sortMode = (exampleForest []).sortMode ∧
      [(exampleForest []).sortMode, m1.sortMode, m2.sortMode, m3.sortMode].Perm
        [SortCreatedDesc, SortCreatedAsc, SortResolvedDesc, SortResolvedAsc] ∧
      ((exampleForest []).sortMode = SortCreatedDesc → m1.sortMode = SortCreatedAsc) ∧
      ((exampleForest []).sortMode = SortCreatedAsc → m1.sortMode = SortResolvedDesc) ∧
      ((exampleForest []).sortMode = SortResolvedDesc → m1.sortMode = SortResolvedAsc) ∧
      ((exampleForest []).sortMode = SortResolvedAsc → m1.sortMode = SortCreatedDesc) :=
  sortMode_directive_and_cycle (exampleForest []) (by decide)

end forest

namespace forest

open client

theorem adjustScroll_prevCursors (m : Model) : m.adjustScroll.prevCursors = m.prevCursors := by
  unfold Model.adjustScroll
  simp only []
  split_ifs <;> rfl

/-- No key puts anything but the empty placeholder on the back-stack. -/
theorem updateNavigation_markers (m : Model) (key : String) (m' : Model) (c : Cmd)
    (hinv : ∀ x ∈ m.prevCursors, x = "") (h : m.updateNavigation key = .ok (m', c)) :
    ∀ x ∈ m'.prevCursors, x = "" := by
  have hdrop : ∀ x ∈ m.prevCursors.dropLast, x = "" :=
    fun x hx => hinv x (List.dropLast_subset _ hx)
  have hpush : ∀ x ∈ m.prevCursors ++ [currentCursorPlaceholder m.roots], x = "" := by
    intro x hx
    rcases List.mem_append.mp hx with hx | hx
    · exact hinv x hx
    · simpa [currentCursorPlaceholder] using hx
  have hnil : ∀ x ∈ ([] : List String), x = "" := fun x hx => by cases hx
  unfold Model.updateNavigation at h
  by_cases k1 : theme.Key key ["j", "down"] = true
  · rw [if_pos k1] at h
    split at h <;> cases h
    · rw [adjustScroll_prevCursors]; exact hinv
    · exact hinv
  rw [if_neg k1] at h
  by_cases k2 : theme.Key key ["k", "up"] = true
  · rw [if_pos k2] at h
    split at h <;> cases h
    · rw [adjustScroll_prevCursors]; exact hinv
    · exact hinv
  rw [if_neg k2] at h
  by_cases k3 : theme.Key key ["enter", " "] = true
  · rw [if_pos k3] at h
    repeat' split at h
    all_goals cases h
    all_goals exact hinv
  rw [if_neg k3] at h
  by_cases k4 : theme.Key key ["i"] = true
  · rw [if_pos k4] at h
    repeat' split at h
    all_goals cases h
    all_goals exact hinv
  rw [if_neg k4] at h
  by_cases k5 : theme.Key key ["a"] = true
  · rw [if_pos k5] at h
    cases h
    exact hinv
  rw [if_neg k5] at h
  by_cases k6 : theme.Key key ["c"] = true
  · rw [if_pos k6] at h
    cases h
    exact hinv
  rw [if_neg k6] at h
  by_cases k7 : theme.Key key ["s"] = true
  · rw [if_pos k7] at h
    cases h
    exact hnil
  rw [if_neg k7] at h
  by_cases k8 : theme.Key key ["1"] = true
  · rw [if_pos k8] at h
    cases h
    exact hnil
  rw [if_neg k8] at h
  by_cases k9 : theme.Key key ["2"] = true
  · rw [if_pos k9] at h
    cases h
    exact hnil
  rw [if_neg k9] at h
  by_cases k10 : theme.Key key ["3"] = true
  · rw [if_pos k10] at h
    cases h
    exact hnil
  rw [if_neg k10] at h
  by_cases k11 : theme.Key key ["4"] = true
  · rw [if_pos k11] at h
    cases h
    exact hnil
  rw [if_neg k11] at h
  by_cases k12 : theme.Key key ["5"] = true
  · rw [if_pos k12] at h
    cases h
    exact hnil
  rw [if_neg k12] at h
  by_cases k13 : theme.Key key ["n"] = true
  · rw [if_pos k13] at h
    split at h <;> cases h
    · exact hpush
    · exact hinv
  rw [if_neg k13] at h
  by_cases k14 : theme.Key key ["p"] = true
  · rw [if_pos k14] at h
    split at h <;> cases h
    · exact hdrop
    · exact hinv
  rw [if_neg k14] at h
  by_cases k15 : theme.Key key ["r"] = true
  · rw [if_pos k15] at h
    cases h
    exact hnil
  rw [if_neg k15] at h
  cases h
  exact hinv

/-- C18: in a forest whose back-stack holds only empty placeholders (as every reachable
one does: the stack of `New` is empty and every message keeps the property), the key `n` with a
continuation cursor pushes exactly one marker, the empty placeholder, keeps the cursor
and issues a fetch, and without a cursor changes nothing; the key `p` with a non-empty
back-stack pops exactly one marker, sets the cursor to none and issues a fetch whose
query carries no cursor, the request for page 1. -/
theorem paging_markers (m : Model) (hinv : ∀ x ∈ m.prevCursors, x = "") :
    (∀ cur, m.cursor = some cur →
      ∃ m', m.updateNavigation "n" = .ok (m', Cmd.batch [Cmd.tick, Cmd.fetchRoots m']) ∧
        m'.prevCursors = m.prevCursors ++ [""] ∧ m'.cursor = some cur) ∧
    (m.cursor = none → m.updateNavigation "n" = .ok (m, Cmd.none)) ∧
    (m.prevCursors ≠ [] →
      ∃ m', m.updateNavigation "p" = .ok (m', Cmd.batch [Cmd.tick, Cmd.fetchRoots m']) ∧
        m'.prevCursors = m.prevCursors.dropLast ∧
        m'.prevCursors.length + 1 = m.prevCursors.length ∧
        m'.cursor = none ∧ m'.fetchRootsParams.Cursor = "") ∧
    (m.prevCursors = [] → m.updateNavigation "p" = .ok (m, Cmd.none)) ∧
    (∀ msg m' c, m.Update msg = .ok (m', c) → ∀ x ∈ m'.prevCursors, x = "") ∧
    New.prevCursors = [] := by
  refine ⟨?_, ?_, ?_, ?_, ?_, rfl⟩
  · intro cur hcur
    refine ⟨{ m with prevCursors := m.prevCursors ++ [""], roots := [], selected := 0,
                     loading := true }, ?_, rfl, hcur⟩
    unfold Model.updateNavigation
    simp [theme.Key, hcur, currentCursorPlaceholder]
  · intro hcur
    unfold Model.updateNavigation
    simp [theme.Key, hcur]
  · intro hne
    have hlast : m.prevCursors.getLast? = some "" := by
      rw [List.getLast?_eq_getLast _ hne]
      rw [hinv _ (List.getLast_mem hne)]
    refine ⟨{ m with prevCursors := m.prevCursors.dropLast, cursor := none, roots := [],
                     selected := 0, loading := true }, ?_, rfl, ?_, rfl, rfl⟩
    · unfold Model.updateNavigation
      simp [theme.Key, hlast]
    · simp only [List.length_dropLast]
      have := List.length_pos.mpr hne
      omega
  · intro hnil
    unfold Model.updateNavigation
    simp [theme.Key, hnil]
  · intro msg m' c h
    cases msg with
    | RootsLoadedMsg promises cursor err =>
      unfold Model.Update at h
      cases err <;> (simp only [] at h; cases h; exact hinv)
    | TreeLoadedForRootMsg rootID t err =>
      unfold Model.Update at h
      simp only [] at h
      split_ifs at h
      · cases err <;> (simp only [] at h; cases h; exact hinv)
      · cases h; exact hinv
    | TickMsg => unfold Model.Update at h; cases h; exact hinv
    | WindowSizeMsg w hgt => unfold Model.Update at h; cases h; exact hinv
    | KeyMsg key => exact updateNavigation_markers m key m' c hinv h

/-- Witness for `paging_markers`: a forest on a later page, with a continuation cursor
and one marker on the back-stack. -/
theorem paging_markers_witness :
    (∀ cur, laterPage.cursor = some cur →
      ∃ m', laterPage.updateNavigation "n" = .ok (m', Cmd.batch [Cmd.tick, Cmd.fetchRoots m']) ∧
        m'.prevCursors = laterPage.prevCursors ++ [""] ∧ m'.cursor = some cur) ∧
    (laterPage.cursor = none → laterPage.updateNavigation "n" = .ok (laterPage, Cmd.none)) ∧
    (laterPage.prevCursors ≠ [] →
      ∃ m', laterPage.updateNavigation "p" = .ok (m', Cmd.batch [Cmd.tick, Cmd.fetchRoots m']) ∧
        m'.prevCursors = laterPage.prevCursors.dropLast ∧
        m'.prevCursors.length + 1 = laterPage.prevCursors.length ∧
        m'.cursor = none ∧ m'.fetchRootsParams.Cursor = "") ∧
    (laterPage.prevCursors = [] → laterPage.updateNavigation "p" = .ok (laterPage, Cmd.none)) ∧
    (∀ msg m' c, laterPage.Update msg = .ok (m', c) → ∀ x ∈ m'.prevCursors, x = "") ∧
    New.prevCursors = [] :=
  paging_markers laterPage (by decide)

end forest

namespace tree

open client

theorem wrapInt_of_range {x : Int} (h1 : -9223372036854775808 ≤ x)
    (h2 : x < 9223372036854775808) : golang.wrapInt x = x := by
  unfold golang.wrapInt
  omega

/-- C19 (counterexample): with the least window height of Go's `int`, `height - 6` wraps
around to a view height of 2^63 - 6; the selection 10 lies inside the window that
starts at the offset 6, yet `offset + viewHeight` wraps around below the selection and
`adjustScroll` moves the offset to a negative value.  With 24 lines and an offset close
to the greatest `int` the same sum wraps, and the offset moves although the selection
was inside the window. -/
theorem adjustScroll_wraps :
    (0 ≤ leastHeightModel.selected ∧ 0 ≤ leastHeightModel.offset ∧
      leastHeightModel.viewHeight = 9223372036854775802 ∧
      leastHeightModel.offset ≤ leastHeightModel.selected ∧
      leastHeightModel.selected < leastHeightModel.offset + leastHeightModel.viewHeight ∧
      leastHeightModel.adjustScroll.offset = -9223372036854775791) ∧
    (0 ≤ farScrolledModel.selected ∧ 0 ≤ farScrolledModel.offset ∧
      farScrolledModel.viewHeight = 18 ∧
      farScrolledModel.offset ≤ farScrolledModel.selected ∧
      farScrolledModel.selected < farScrolledModel.offset + farScrolledModel.viewHeight ∧
      farScrolledModel.adjustScroll.offset = 9223372036854775785 ∧
      farScrolledModel.adjustScroll.offset ≠ farScrolledModel.offset) := by
  decide

/-- C19 (amended): for every selection index and scroll offset that are not negative and
every window height such that neither `height - 6` nor `offset + viewHeight` leaves the
range of Go's `int`, `viewHeight` is at least 5 and after `adjustScroll` the selection
lies inside the window, `offset' <= selected < offset' + viewHeight`.  Nothing but the
offset changes; the offset is unchanged when the selection was inside the window
already, becomes `selected` when the selection was above it and
`selected - viewHeight + 1` when it was below, and no offset that shows the selection
is nearer to the old one. -/
theorem adjustScroll_spec (m : Model) (hsel : 0 ≤ m.selected)
    (hselmax : m.selected < 9223372036854775808) (hoff : 0 ≤ m.offset)
    (hheight : -9223372036854775808 + 6 ≤ m.height) (hheightmax : m.height < 9223372036854775808)
    (hsum : m.offset + m.viewHeight < 9223372036854775808) :
    5 ≤ m.viewHeight ∧
    m.adjustScroll.viewHeight = m.viewHeight ∧
    { m.adjustScroll with offset := m.offset } = m ∧
    m.adjustScroll.offset ≤ m.selected ∧
    m.selected < m.adjustScroll.offset + m.viewHeight ∧
    0 ≤ m.adjustScroll.offset ∧
    (m.offset ≤ m.selected → m.selected < m.offset + m.viewHeight →
      m.adjustScroll.offset = m.offset) ∧
    (m.selected < m.offset → m.adjustScroll.offset = m.selected) ∧
    (m.offset + m.viewHeight ≤ m.selected →
      m.adjustScroll.offset = m.selected - m.viewHeight + 1) ∧
    (∀ o : Int, o ≤ m.selected → m.selected < o + m.viewHeight →
      |m.adjustScroll.offset - m.offset| ≤ |o - m.offset|) := by
  have hvhdef : m.viewHeight = if m.height - 6 < 5 then 5 else m.height - 6 := by
    unfold Model.viewHeight
    simp only []
    rw [wrapInt_of_range (by omega) (by omega)]
  have hvh : 5 ≤ m.viewHeight := by
    rw [hvhdef]
    split_ifs <;> omega
  have hvhmax : m.viewHeight < 9223372036854775808 := by
    rw [hvhdef]
    split_ifs <;> omega
  have hrest : m.adjustScroll.viewHeight = m.viewHeight ∧
      { m.adjustScroll with offset := m.offset } = m ∧
      m.adjustScroll.offset =
        if m.selected < m.offset then m.selected
        else if m.selected ≥ m.offset + m.viewHeight then m.selected - m.viewHeight + 1
        else m.offset := by
    unfold Model.adjustScroll
    simp only []
    by_cases h1 : m.selected < m.offset
    · have h2 : ¬ m.selected ≥ golang.wrapInt (m.selected + m.viewHeight) := by
        rw [wrapInt_of_range (by omega) (by omega)]
        omega
      simp only [h1, if_true, h2, if_false]
      exact ⟨rfl, trivial, trivial⟩
    · have e1 : golang.wrapInt (m.offset + m.viewHeight) = m.offset + m.viewHeight :=
        wrapInt_of_range (by omega) (by omega)
      have e2 : golang.wrapInt (golang.wrapInt (m.selected - m.viewHeight) + 1)
          = m.selected - m.viewHeight + 1 := by
        rw [wrapInt_of_range (x := m.selected - m.viewHeight) (by omega) (by omega)]
        exact wrapInt_of_range (by omega) (by omega)
      by_cases h3 : m.selected ≥ m.offset + m.viewHeight
      · simp only [h1, if_false, e1, e2, h3, if_true]
        exact ⟨rfl, trivial, trivial⟩
      · simp only [h1, if_false, e1, h3]
        exact ⟨trivial, trivial, trivial⟩
  rcases hrest with ⟨e1, e2, e3⟩
  refine ⟨hvh, e1, e2, ?_, ?_, ?_, ?_, ?_, ?_, ?_⟩
  · rw [e3]; split_ifs <;> omega
  · rw [e3]; split_ifs <;> omega
  · rw [e3]; split_ifs <;> omega
  · intro h1 h2; rw [e3, if_neg (by omega), if_neg (by omega)]
  · intro h1; rw [e3, if_pos h1]
  · intro h1; rw [e3, if_neg (by omega), if_pos (by omega)]
  · intro o ho1 ho2
    have a1 := le_abs_self (o - m.offset)
    have a2 := neg_abs_le (o - m.offset)
    rw [abs_le, e3]
    split_ifs <;> constructor <;> omega

/-- Witness for `adjustScroll_spec`: a selection below the window. -/
theorem adjustScroll_spec_witness :
    5 ≤ scrolledModel.viewHeight ∧
    scrolledModel.adjustScroll.viewHeight = scrolledModel.viewHeight ∧
    { scrolledModel.adjustScroll with offset := scrolledModel.offset } = scrolledModel ∧
    scrolledModel.adjustScroll.offset ≤ scrolledModel.selected ∧
    scrolledModel.selected < scrolledModel.adjustScroll.offset + scrolledModel.viewHeight ∧
    0 ≤ scrolledModel.adjustScroll.offset ∧
    (scrolledModel.offset ≤ scrolledModel.selected →
      scrolledModel.selected < scrolledModel.offset + scrolledModel.viewHeight →
      scrolledModel.adjustScroll.offset = scrolledModel.offset) ∧
    (scrolledModel.selected < scrolledModel.offset →
      scrolledModel.adjustScroll.offset = scrolledModel.selected) ∧
    (scrolledModel.offset + scrolledModel.viewHeight ≤ scrolledModel.selected →
      scrolledModel.adjustScroll.offset
        = scrolledModel.selected - scrolledModel.viewHeight + 1) ∧
    (∀ o : Int, o ≤ scrolledModel.selected → scrolledModel.selected < o + scrolledModel.viewHeight →
      |scrolledModel.adjustScroll.offset - scrolledModel.offset| ≤ |o - scrolledModel.offset|) :=
  adjustScroll_spec scrolledModel (by decide) (by decide) (by decide) (by decide) (by decide)
    (by decide)

/-- C20: in every state of the tree view whose selected visible node has no children,
the toggle key (`enter` or space) returns the state as it was, so every node's
`Expanded` flag, the visible list, the selection index and the scroll offset are
unchanged, together with the request to open the detail view that carries the
selected node's record. -/
theorem updateNavigation_toggle_leaf (fuel : Nat) (m : Model) (key : String) (node : Nat)
    (n : TreeNode) (hsel : m.selectedNode = .ok (node, n)) (hleaf : n.Children = [])
    (hkey : key = "enter" ∨ key = " ") :
    m.updateNavigation fuel key = .ok (m, Cmd.openDetail n.Promise) := by
  rcases selectedNode_ok hsel with ⟨h0, hv, _⟩
  have hlt := getElem?_lt hv
  have hrange : m.visible.length > 0 ∧ m.selected < (m.visible.length : Int) := by
    constructor <;> omega
  have htoggle : m.toggle fuel = .ok (m, Cmd.openDetail n.Promise) := by
    unfold Model.toggle
    rw [if_pos hrange, hsel]
    simp only [hleaf, List.length_nil, gt_iff_lt, lt_self_iff_false, if_false]
  unfold Model.updateNavigation
  rcases hkey with e | e <;> subst e <;>
    rw [if_neg (by decide), if_neg (by decide), if_pos (by decide)] <;> exact htoggle

/-- Witness for `updateNavigation_toggle_leaf`: `enter` on the leaf `r.1.1`. -/
theorem updateNavigation_toggle_leaf_witness :
    leafSelected.updateNavigation 5 "enter"
      = .ok (leafSelected, Cmd.openDetail (record "r.1.1" (some "r.1") none)) :=
  updateNavigation_toggle_leaf 5 leafSelected "enter" 3
    (cell (record "r.1.1" (some "r.1") none) [] 2)
    (selectedNode_of (by decide) (by decide) (by decide)) rfl (Or.inl rfl)

/-! ### The tree `BuildTree` returns, as a finite shape -/

/-- Below a node all of whose descendants have received their children, the store holds
a finite tree without repeated pointers whose nodes are exactly those descendants. -/
theorem exists_shape {cm : String → List Nat} {h : Heap} (F : ForestLike cm (promisesOf h)) :
    ∀ p, (∀ q, Relation.ReflTransGen (Edge cm (promisesOf h)) p q → Assigned cm h q) →
      ∃ t : Shape, t.ptr = p ∧ Holds h t ∧ t.nodes.Nodup ∧
        ∀ q, q ∈ t.nodes ↔ Relation.ReflTransGen (Edge cm (promisesOf h)) p q := by
  have wf : WellFounded (fun c p => Edge cm (promisesOf h) p c) := by
    apply wellFounded_of_acyclic _ (List.range (promisesOf h).length)
    · intro a b hab
      exact List.mem_range.mpr (F.valid b a hab)
    · intro a ha
      exact F.acyclic a (Relation.transGen_swap.mp ha)
  intro p
  induction p using wf.induction with
  | _ p ih =>
    intro hall
    rcases hall p Relation.ReflTransGen.refl with ⟨n, hn, hch, _⟩
    have hkids : ∀ l : List Nat, (∀ c ∈ l, c ∈ n.Children) → l.Nodup →
        ∃ ts : List Shape, ts.map Shape.ptr = l ∧ (∀ t ∈ ts, Holds h t) ∧
          (Shape.nodesList ts).Nodup ∧
          ∀ q, q ∈ Shape.nodesList ts ↔
            ∃ c ∈ l, Relation.ReflTransGen (Edge cm (promisesOf h)) c q := by
      intro l
      induction l with
      | nil =>
        intro _ _
        exact ⟨[], rfl, fun t ht => (by cases ht), by simp [Shape.nodesList],
          fun q => ⟨fun hq => (by simp [Shape.nodesList] at hq),
            fun ⟨c, hc, _⟩ => (by cases hc)⟩⟩
      | cons c l ihl =>
        intro hsub hnd
        have hc : c ∈ n.Children := hsub c (List.mem_cons_self _ _)
        have hpc : Edge cm (promisesOf h) p c := edge_of_mem hn (hch ▸ hc)
        rcases ih c hpc (fun q hq => hall q (Relation.ReflTransGen.head hpc hq))
          with ⟨tc, htc, hhc, hndc, hmemc⟩
        rcases ihl (fun d hd => hsub d (List.mem_cons_of_mem _ hd)) (List.nodup_cons.mp hnd).2
          with ⟨ts, hts, hhs, hnds, hmems⟩
        refine ⟨tc :: ts, by simp [htc, hts], ?_, ?_, ?_⟩
        · intro t ht
          rcases List.mem_cons.mp ht with ht | ht
          · rw [ht]; exact hhc
          · exact hhs t ht
        · show (tc.nodes ++ Shape.nodesList ts).Nodup
          rw [List.nodup_append]
          refine ⟨hndc, hnds, ?_⟩
          intro q hq1 hq2
          rcases (hmems q).mp hq2 with ⟨d, hd, hdq⟩
          have hne : c ≠ d := fun e => (List.nodup_cons.mp hnd).1 (e ▸ hd)
          have hpd : Edge cm (promisesOf h) p d :=
            edge_of_mem hn (hch ▸ hsub d (List.mem_cons_of_mem _ hd))
          exact F.siblings_disjoint hpc hpd hne ((hmemc q).mp hq1) hdq
        · intro q
          show q ∈ tc.nodes ++ Shape.nodesList ts ↔ _
          rw [List.mem_append, hmemc, hmems]
          constructor
          · rintro (hq | ⟨d, hd, hq⟩)
            · exact ⟨c, List.mem_cons_self _ _, hq⟩
            · exact ⟨d, List.mem_cons_of_mem _ hd, hq⟩
          · rintro ⟨d, hd, hq⟩
            rcases List.mem_cons.mp hd with hd | hd
            · left; rw [← hd]; exact hq
            · exact Or.inr ⟨d, hd, hq⟩
    rcases hkids n.Children (fun c hc => hc) (hch ▸ F.nodup n.Promise.ID)
      with ⟨ts, hts, hhs, hnds, hmems⟩
    refine ⟨Shape.node p ts, rfl, Holds.node p n ts hn hts.symm hhs, ?_, ?_⟩
    · show (p :: Shape.nodesList ts).Nodup
      rw [List.nodup_cons]
      refine ⟨?_, hnds⟩
      intro hp
      rcases (hmems p).mp hp with ⟨c, hc, hcp⟩
      exact F.not_reach_parent (edge_of_mem hn (hch ▸ hc)) hcp
    · intro q
      show q ∈ p :: Shape.nodesList ts ↔ _
      rw [List.mem_cons, hmems]
      constructor
      · rintro (hq | ⟨c, hc, hq⟩)
        · rw [hq]
        · exact Relation.ReflTransGen.head (edge_of_mem hn (hch ▸ hc)) hq
      · intro hq
        rcases Relation.ReflTransGen.cases_head hq with e | ⟨c, hpc, hcq⟩
        · exact Or.inl e.symm
        · exact Or.inr ⟨c, by rw [hch]; exact mem_of_edge hn hpc, hcq⟩

/-- With every node expanded, the visible walk of a shape lists all its nodes. -/
theorem visible_all_expanded (h : Heap) :
    ∀ t : Shape, (∀ q ∈ t.nodes, expandedAt h q = true) → t.visible h = t.nodes := by
  refine Shape.induct
    (fun t => (∀ q ∈ t.nodes, expandedAt h q = true) → t.visible h = t.nodes)
    (fun cs => (∀ q ∈ Shape.nodesList cs, expandedAt h q = true) →
      Shape.visibleList h cs = Shape.nodesList cs) ?_ ?_ ?_
  · intro p cs ih hall
    have hp : expandedAt h p = true := hall p (by simp [Shape.nodes])
    simp only [Shape.visible, Shape.nodes, hp, if_true]
    rw [ih (fun q hq => hall q (by simp [Shape.nodes, hq]))]
  · intro _
    rfl
  · intro t ts iht ihts hall
    simp only [Shape.visibleList, Shape.nodesList]
    rw [iht (fun q hq => hall q (by simp [Shape.nodesList, hq])),
      ihts (fun q hq => hall q (by simp [Shape.nodesList, hq]))]

/-- Records with pairwise distinct ids: equal ids sit at equal indices. -/
theorem index_of_id {ps : List Promise} (hid : (ps.map (fun p => p.ID)).Nodup) {i j : Nat}
    {a b : Promise} (ha : ps[i]? = some a) (hb : ps[j]? = some b) (hab : a.ID = b.ID) :
    i = j := by
  have hi : i < (ps.map (fun p => p.ID)).length := by simpa using getElem?_lt ha
  have hj : j < (ps.map (fun p => p.ID)).length := by simpa using getElem?_lt hb
  have h1 : (ps.map (fun p => p.ID))[i] = a.ID := by
    simp [(List.getElem?_eq_some_iff.mp ha).2]
  have h2 : (ps.map (fun p => p.ID))[j] = b.ID := by
    simp [(List.getElem?_eq_some_iff.mp hb).2]
  exact (hid.getElem_inj_iff).mp (by rw [h1, h2, hab])

/-- The tree returned by `BuildTree` for acyclic records with distinct ids is a finite
tree without shared nodes, all of them expanded, whose nodes are the pointers reached
from the root through the children index. -/
theorem BuildTree_shape {sortSlice : (Nat → Nat → Bool) → List Nat → List Nat}
    (hs : SortSliceSpec sortSlice) {rootID : String} {promises : List Promise}
    (hac : Acyclic promises) (hid : (promises.map (fun p => p.ID)).Nodup) {fuel : Nat}
    {h : Heap} {root : Nat} (hb : BuildTree sortSlice fuel rootID promises = some (h, root)) :
    ∃ t : Shape, t.ptr = root ∧ Holds h t ∧ t.nodes.Nodup ∧
      (∀ q, q ∈ t.nodes ↔ Relation.ReflTransGen
        (Edge (sortChildren sortSlice (buildIndex promises)) (promisesOf h)) root q) ∧
      (∀ q, q ∈ t.nodes ↔ InTree h root q) ∧
      t.visible h = t.nodes := by
  rcases BuildTree_eq_some hb with ⟨hroot, hassign⟩
  have st := resolveRoot_start promises rootID
  rw [← hroot] at st
  have F := start_forestLike (sortsIndex_of_spec hs _) st hac hid
  have post := assign_spec F fuel root _ h rfl hassign
  have hP := assign_promisesOf _ fuel root _ h hassign
  rw [← hP] at F post
  rcases exists_shape F root post.assigned with ⟨t, hptr, hh, hnd, hmem⟩
  have hexp : ∀ q ∈ t.nodes, expandedAt h q = true := by
    intro q hq
    rcases post.assigned q ((hmem q).mp hq) with ⟨n, hn, _⟩
    have hstep := assign_heapStep _ fuel root _ h hassign
    rcases heapStep_back hstep hP hn with ⟨n0, hn0, _, he, _⟩
    have hne : n.Expanded = true := by
      rw [he, st.cell_eq_newNode hn0]
      rfl
    unfold expandedAt
    rw [hn]
    exact hne
  refine ⟨t, hptr, hh, hnd, hmem, ?_, visible_all_expanded h t hexp⟩
  intro q
  rw [hmem]
  constructor
  · intro hq
    induction hq with
    | refl => exact Relation.ReflTransGen.refl
    | @tail b c hb' hbc ih =>
      rcases post.assigned b hb' with ⟨n, hn, hch, _⟩
      exact ih.tail ⟨n, hn, by rw [hch]; exact mem_of_edge hn hbc⟩
  · intro hq
    exact inTree_edge rfl post.assigned hq

end tree

namespace forest

open client

theorem attachTree_cons (k : String) (t : Option (tree.Heap × Nat)) (err : Option String)
    (r : RootItem) (rs : List RootItem) :
    attachTree k t err (r :: rs) =
      if r.Promise.ID = k then
        (match err with
          | some _ => { r with Loading := false }
          | none => { r with Loading := false, Tree := t }) :: rs
      else r :: attachTree k t err rs := rfl

theorem any_attachTree (rootID : String) (t : Option (tree.Heap × Nat)) (err : Option String)
    (roots : List RootItem) (k : String) :
    (attachTree rootID t err roots).any (fun root => decide (root.Promise.ID = k))
      = roots.any (fun root => decide (root.Promise.ID = k)) := by
  induction roots with
  | nil => rfl
  | cons r rs ih =>
    rw [attachTree_cons]
    split_ifs
    · cases err <;> rfl
    · rw [List.any_cons, List.any_cons, ih]

theorem attachTree_comm {x y : String} (hxy : x ≠ y) (tx ty : Option (tree.Heap × Nat))
    (ex ey : Option String) (roots : List RootItem) :
    attachTree y ty ey (attachTree x tx ex roots)
      = attachTree x tx ex (attachTree y ty ey roots) := by
  induction roots with
  | nil => rfl
  | cons r rs ih =>
    by_cases h1 : r.Promise.ID = x
    · have h2 : ¬ r.Promise.ID = y := fun e => hxy (h1.symm.trans e)
      rw [attachTree_cons x, if_pos h1, attachTree_cons y _ _ r, if_neg h2, attachTree_cons x,
        if_pos h1]
      cases ex <;> (rw [attachTree_cons y, if_neg h2])
    · rw [attachTree_cons x, if_neg h1]
      by_cases h2 : r.Promise.ID = y
      · rw [attachTree_cons y, if_pos h2, attachTree_cons y _ _ r, if_pos h2]
        cases ey <;> (rw [attachTree_cons x, if_neg h1])
      · rw [attachTree_cons y, if_neg h2, attachTree_cons y _ _ r, if_neg h2, attachTree_cons x,
          if_neg h1, ih]

/-- C22: for two distinct root ids `x` and `y`, handling the tree-loaded completion of
`x` that carries a fetched subtree and the completion of `y` (a subtree or an error)
gives the same forest state in either order: the same root list, item by item with the
same tree, loading and expanded values, and the same last error. -/
theorem treeLoaded_commute (m : Model) (x y : String) (tx ty : Option (tree.Heap × Nat))
    (ey : Option String) (hxy : x ≠ y)
    (hx : m.roots.any (fun root => decide (root.Promise.ID = x)) = true)
    (hy : m.roots.any (fun root => decide (root.Promise.ID = y)) = true) :
    ∃ m1 m2 mf,
      m.Update (Msg.TreeLoadedForRootMsg x tx none) = .ok (m1, Cmd.none) ∧
      m1.Update (Msg.TreeLoadedForRootMsg y ty ey) = .ok (mf, Cmd.none) ∧
      m.Update (Msg.TreeLoadedForRootMsg y ty ey) = .ok (m2, Cmd.none) ∧
      m2.Update (Msg.TreeLoadedForRootMsg x tx none) = .ok (mf, Cmd.none) ∧
      mf.roots = attachTree y ty ey (attachTree x tx none m.roots) ∧
      mf.err = (match ey with
        | some e => some e
        | none => m.err) := by
  have hy1 : (attachTree x tx none m.roots).any (fun root => decide (root.Promise.ID = y))
      = true := by rw [any_attachTree]; exact hy
  have hx1 : (attachTree y ty ey m.roots).any (fun root => decide (root.Promise.ID = x))
      = true := by rw [any_attachTree]; exact hx
  have hc := attachTree_comm hxy tx ty none ey m.roots
  cases ey with
  | none =>
    refine ⟨{ m with roots := attachTree x tx none m.roots },
      { m with roots := attachTree y ty none m.roots },
      { m with roots := attachTree y ty none (attachTree x tx none m.roots) }, ?_, ?_, ?_, ?_,
      rfl, rfl⟩
    · simp only [Model.Update, hx, if_true]
    · simp only [Model.Update, hy1, if_true]
    · simp only [Model.Update, hy, if_true]
    · simp only [Model.Update, hx1, if_true, hc]
  | some e =>
    refine ⟨{ m with roots := attachTree x tx none m.roots },
      { m with roots := attachTree y ty (some e) m.roots, err := some e },
      { m with roots := attachTree y ty (some e) (attachTree x tx none m.roots), err := some e },
      ?_, ?_, ?_, ?_, rfl, rfl⟩
    · simp only [Model.Update, hx, if_true]
    · simp only [Model.Update, hy1, if_true]
    · simp only [Model.Update, hy, if_true]
    · simp only [Model.Update, hx1, if_true, hc]

/-- Witness for `treeLoaded_commute`: the tree of `x` arrives and the fetch for `y`
fails. -/
theorem treeLoaded_commute_witness :
    ∃ m1 m2 mf,
      twoLoading.Update (Msg.TreeLoadedForRootMsg "x" (some (tree.exampleHeap, 0)) none)
        = .ok (m1, Cmd.none) ∧
      m1.Update (Msg.TreeLoadedForRootMsg "y" none (some "timeout")) = .ok (mf, Cmd.none) ∧
      twoLoading.Update (Msg.TreeLoadedForRootMsg "y" none (some "timeout"))
        = .ok (m2, Cmd.none) ∧
      m2.Update (Msg.TreeLoadedForRootMsg "x" (some (tree.exampleHeap, 0)) none)
        = .ok (mf, Cmd.none) ∧
      mf.roots = attachTree "y" none (some "timeout")
        (attachTree "x" (some (tree.exampleHeap, 0)) none twoLoading.roots) ∧
      mf.err = (match (some "timeout" : Option String) with
        | some e => some e
        | none => twoLoading.err) :=
  treeLoaded_commute twoLoading "x" "y" (some (tree.exampleHeap, 0)) none (some "timeout")
    (by decide) (by decide) (by decide)

end forest

namespace tree

open client

/-! ### The loop of `fetchWithRootTag` -/

theorem foldl_scanRecord (origin : String) (page : List Promise) :
    ∀ (all : List Promise) (queue : List searchItem),
      page.foldl (scanRecord origin) (all, queue)
        = (all ++ page, queue ++ newOrigins origin page) := by
  induction page with
  | nil => intro all queue; simp [newOrigins]
  | cons p page ih =>
    intro all queue
    rw [List.foldl_cons]
    by_cases hp : tag p.Tags "resonate:scope" = "global" ∧ p.ID ≠ origin
    · have h1 : scanRecord origin (all, queue) p
          = (all ++ [p], queue ++ [{ id := "*", origin := p.ID, cursor := "" }]) := by
        unfold scanRecord
        simp only []
        rw [if_pos hp]
      rw [h1, ih]
      simp [newOrigins, List.filter_cons, hp]
    · have h1 : scanRecord origin (all, queue) p = (all ++ [p], queue) := by
        unfold scanRecord
        simp only []
        rw [if_neg hp]
      rw [h1, ih]
      simp [newOrigins, List.filter_cons, hp]

/-- A successful iteration, written out. -/
theorem fetchStep_ok (search : Searcher) (s : FetchState) (item : searchItem)
    (rest : List searchItem) (result : SearchResult) (hq : s.queue = item :: rest)
    (hok : search (s.log.map Prod.fst) (rootTagParams item) = .ok result) :
    fetchStep search s =
      { allPromises := s.allPromises ++ result.Promises,
        queue := rest ++ newOrigins item.origin result.Promises ++
          (match result.Cursor with
            | some cursor => [{ id := item.id, origin := item.origin, cursor := cursor }]
            | none => []),
        log := s.log ++ [(rootTagParams item, .ok result)],
        returned := false } := by
  unfold fetchStep
  rw [hq]
  simp only [hok, foldl_scanRecord]
  cases result.Cursor <;> simp

/-- A failing iteration, written out. -/
theorem fetchStep_error (search : Searcher) (s : FetchState) (item : searchItem)
    (rest : List searchItem) (err : String) (hq : s.queue = item :: rest)
    (herr : search (s.log.map Prod.fst) (rootTagParams item) = .error err) :
    fetchStep search s =
      { s with queue := rest, log := s.log ++ [(rootTagParams item, .error err)],
               returned := true } := by
  unfold fetchStep
  rw [hq]
  simp only [herr]

theorem fetchLoop_of_returned (search : Searcher) (fuel : Nat) (s : FetchState)
    (hr : s.returned = true) : fetchLoop search fuel s = s := by
  cases fuel with
  | zero => rfl
  | succ fuel => rw [fetchLoop, if_pos hr]

theorem fetchLoop_succ (search : Searcher) (fuel : Nat) (s : FetchState)
    (hr : s.returned = false) :
    fetchLoop search (fuel + 1) s = fetchLoop search fuel (fetchStep search s) := by
  rw [fetchLoop, if_neg (by rw [hr]; decide)]

/-- A property of the start that every iteration keeps holds of the state reached. -/
theorem fetchLoop_invariant (search : Searcher) (I : FetchState → Prop)
    (hstep : ∀ s, I s → s.returned = false → I (fetchStep search s)) :
    ∀ (fuel : Nat) (s : FetchState), I s → I (fetchLoop search fuel s) := by
  intro fuel
  induction fuel with
  | zero => intro s hs; exact hs
  | succ fuel ih =>
    intro s hs
    cases hr : s.returned with
    | true => rw [fetchLoop_of_returned search _ s hr]; exact hs
    | false => rw [fetchLoop_succ search fuel s hr]; exact ih _ (hstep s hs hr)

/-- Once the function has returned, more iterations change nothing. -/
theorem fetchLoop_add (search : Searcher) :
    ∀ (fuel k : Nat) (s : FetchState), (fetchLoop search fuel s).returned = true →
      fetchLoop search (fuel + k) s = fetchLoop search fuel s := by
  intro fuel
  induction fuel with
  | zero =>
    intro k s hr
    rw [Nat.zero_add]
    exact fetchLoop_of_returned search k s hr
  | succ fuel ih =>
    intro k s hr
    cases hs : s.returned with
    | true => rw [fetchLoop_of_returned search _ s hs, fetchLoop_of_returned search _ s hs]
    | false =>
      rw [fetchLoop_succ search fuel s hs] at hr ⊢
      rw [show fuel + 1 + k = (fuel + k) + 1 by omega, fetchLoop_succ search _ s hs]
      exact ih k _ hr

/-- The queue is served first in, first out: from a state with the queue `q ++ extra`,
the next queries are those for the items of `q`, in order, up to a failure. -/
theorem fetchLoop_fifo (search : Searcher) :
    ∀ (q extra : List searchItem) (s : FetchState), s.queue = q ++ extra →
      s.returned = false →
      ∃ k, k ≤ q.length ∧
        (fetchLoop search q.length s).log.map Prod.fst
          = s.log.map Prod.fst ++ (q.take k).map rootTagParams ∧
        (k < q.length → (fetchLoop search q.length s).returned = true) := by
  intro q
  induction q with
  | nil =>
    intro extra s _ _
    exact ⟨0, le_refl _, by simp [fetchLoop], fun h => absurd h (by simp)⟩
  | cons item q ih =>
    intro extra s hq hr
    rw [List.length_cons, fetchLoop_succ search _ s hr]
    have hq' : s.queue = item :: (q ++ extra) := hq
    cases hres : search (s.log.map Prod.fst) (rootTagParams item) with
    | error err =>
      rw [fetchStep_error search s item _ err hq' hres, fetchLoop_of_returned search _ _ rfl]
      exact ⟨1, by omega, by simp, fun _ => rfl⟩
    | ok result =>
      rw [fetchStep_ok search s item _ result hq' hres]
      rcases ih (extra ++ newOrigins item.origin result.Promises ++
          (match result.Cursor with
            | some cursor => [{ id := item.id, origin := item.origin, cursor := cursor }]
            | none => []))
        { allPromises := s.allPromises ++ result.Promises,
          queue := q ++ extra ++ newOrigins item.origin result.Promises ++
            (match result.Cursor with
              | some cursor => [{ id := item.id, origin := item.origin, cursor := cursor }]
              | none => []),
          log := s.log ++ [(rootTagParams item, .ok result)],
          returned := false } (by simp [List.append_assoc]) rfl with ⟨k, hk, hlog, hret⟩
      refine ⟨k + 1, by omega, ?_, fun h => hret (by omega)⟩
      rw [hlog]
      simp [List.append_assoc]

/-- C23 (counterexample): the first page of the origin `r` reports the new origin `a` and
carries a continuation cursor; `fetchWithRootTag` then queries the origin `a` before it
queries the second page of `r`. -/
theorem fetchWithRootTag_interleaves :
    (fetchWithRootTag pagedSearch 5 "r").returned = true ∧
    (fetchWithRootTag pagedSearch 5 "r").log.map
        (fun e => (tag e.1.Tags "resonate:root", e.1.Cursor))
      = [("r", ""), ("a", ""), ("r", "c1")] := by
  decide

/-- C23 (amended): when a query for an origin returns a continuation cursor, the query
for the next page of that origin is put at the very back of the queue, behind the
queries that were waiting and behind those for the origins newly reported on the page;
the queue is served first in, first out, so the next page is queried after all of
them, and right away only when nothing else is waiting. -/
theorem fetchStep_continuation_last (search : Searcher) (s : FetchState) (item : searchItem)
    (rest : List searchItem) (result : SearchResult) (cursor : String)
    (hq : s.queue = item :: rest) (hr : s.returned = false)
    (hok : search (s.log.map Prod.fst) (rootTagParams item) = .ok result)
    (hcur : result.Cursor = some cursor) :
    (fetchStep search s).queue =
      rest ++ newOrigins item.origin result.Promises ++
        [{ id := item.id, origin := item.origin, cursor := cursor }] ∧
    (fetchStep search s).returned = false ∧
    (∃ k, k ≤ (fetchStep search s).queue.length ∧
      (fetchLoop search ((fetchStep search s).queue.length + 1) s).log.map Prod.fst
        = s.log.map Prod.fst ++ [rootTagParams item] ++
          ((fetchStep search s).queue.take k).map rootTagParams ∧
      (k < (fetchStep search s).queue.length →
        (fetchLoop search ((fetchStep search s).queue.length + 1) s).returned = true)) ∧
    (rest = [] → newOrigins item.origin result.Promises = [] →
      (fetchStep search s).queue = [{ id := item.id, origin := item.origin, cursor := cursor }])
    := by
  have hstep := fetchStep_ok search s item rest result hq hok
  rw [hcur] at hstep
  have hqueue : (fetchStep search s).queue =
      rest ++ newOrigins item.origin result.Promises ++
        [{ id := item.id, origin := item.origin, cursor := cursor }] := by rw [hstep]
  have hret : (fetchStep search s).returned = false := by rw [hstep]
  have hlog : (fetchStep search s).log = s.log ++ [(rootTagParams item, .ok result)] := by
    rw [hstep]
  refine ⟨hqueue, hret, ?_, ?_⟩
  · rcases fetchLoop_fifo search (fetchStep search s).queue [] (fetchStep search s)
      (by simp) hret with ⟨k, hk, hl, hx⟩
    refine ⟨k, hk, ?_, ?_⟩
    · rw [fetchLoop_succ search _ s hr, hl, hlog]
      simp
    · intro hlt
      rw [fetchLoop_succ search _ s hr]
      exact hx hlt
  · intro h1 h2
    rw [hqueue, h1, h2]
    rfl

/-- Witness for `fetchStep_continuation_last`: the first query of `pagedSearch`. -/
theorem fetchStep_continuation_last_witness :
    (fetchStep pagedSearch (fetchStart "r")).queue =
      [] ++ newOrigins "r" [globalRecord "a"] ++ [{ id := "*", origin := "r", cursor := "c1" }] ∧
    (fetchStep pagedSearch (fetchStart "r")).returned = false ∧
    (∃ k, k ≤ (fetchStep pagedSearch (fetchStart "r")).queue.length ∧
      (fetchLoop pagedSearch ((fetchStep pagedSearch (fetchStart "r")).queue.length + 1)
          (fetchStart "r")).log.map Prod.fst
        = (fetchStart "r").log.map Prod.fst ++
          [rootTagParams { id := "*", origin := "r", cursor := "" }] ++
          ((fetchStep pagedSearch (fetchStart "r")).queue.take k).map rootTagParams ∧
      (k < (fetchStep pagedSearch (fetchStart "r")).queue.length →
        (fetchLoop pagedSearch ((fetchStep pagedSearch (fetchStart "r")).queue.length + 1)
          (fetchStart "r")).returned = true)) ∧
    (([] : List searchItem) = [] → newOrigins "r" [globalRecord "a"] = [] →
      (fetchStep pagedSearch (fetchStart "r")).queue
        = [{ id := "*", origin := "r", cursor := "c1" }]) :=
  fetchStep_continuation_last pagedSearch (fetchStart "r")
    { id := "*", origin := "r", cursor := "" } [] { Promises := [globalRecord "a"], Cursor := some "c1" }
    "c1" rfl rfl rfl rfl

/-- The log only grows while the loop runs. -/
theorem fetchLoop_log (search : Searcher) :
    ∀ (fuel : Nat) (s : FetchState), ∃ ext, (fetchLoop search fuel s).log = s.log ++ ext := by
  intro fuel
  induction fuel with
  | zero => intro s; exact ⟨[], by simp [fetchLoop]⟩
  | succ fuel ih =>
    intro s
    cases hr : s.returned with
    | true => exact ⟨[], by rw [fetchLoop_of_returned search _ s hr]; simp⟩
    | false =>
      rw [fetchLoop_succ search fuel s hr]
      rcases ih (fetchStep search s) with ⟨ext, hext⟩
      have hstep : ∃ e1, (fetchStep search s).log = s.log ++ e1 := by
        cases hq : s.queue with
        | nil =>
          refine ⟨[], ?_⟩
          unfold fetchStep
          rw [hq]
          simp
        | cons item rest =>
          cases hres : search (s.log.map Prod.fst) (rootTagParams item) with
          | error err =>
            rw [fetchStep_error search s item rest err hq hres]
            exact ⟨_, rfl⟩
          | ok result =>
            rw [fetchStep_ok search s item rest result hq hres]
            exact ⟨_, rfl⟩
      rcases hstep with ⟨e1, he1⟩
      exact ⟨e1 ++ ext, by rw [hext, he1, List.append_assoc]⟩

/-- C24: the first query of `fetchWithRootTag` has the wildcard id pattern, the legacy
root tag equal to the requested root id and no cursor.  After a successful query for
the origin of `item`, the queue holds a new item (wildcard pattern, no cursor) for
exactly the returned records of global scope whose id differs from that origin, one
per such record and in page order, put behind the items that were waiting; a returned
record of global scope whose id is that origin adds nothing. -/
theorem fetchWithRootTag_enqueue (search : Searcher) (rootID : String) :
    (∀ fuel, (fetchWithRootTag search (fuel + 1) rootID).log.head? =
      some ({ ID := "*", State := "", Tags := [("resonate:root", rootID)], Limit := 100,
              Cursor := "", SortID := none },
        search [] { ID := "*", State := "", Tags := [("resonate:root", rootID)], Limit := 100,
                    Cursor := "", SortID := none })) ∧
    (∀ (s : FetchState) (item : searchItem) (rest : List searchItem) (result : SearchResult),
      s.queue = item :: rest →
      search (s.log.map Prod.fst) (rootTagParams item) = .ok result →
      (∃ cont, (fetchStep search s).queue
          = rest ++ newOrigins item.origin result.Promises ++ cont ∧
        ∀ c ∈ cont, c.origin = item.origin) ∧
      (∀ it, it ∈ newOrigins item.origin result.Promises ↔
        ∃ p ∈ result.Promises, tag p.Tags "resonate:scope" = "global" ∧ p.ID ≠ item.origin ∧
          it = { id := "*", origin := p.ID, cursor := "" }) ∧
      (newOrigins item.origin result.Promises).length =
        result.Promises.countP (fun p =>
          decide (tag p.Tags "resonate:scope" = "global" ∧ p.ID ≠ item.origin))) ∧
    (∀ (origin : String) (p : Promise), p.ID = origin → newOrigins origin [p] = []) := by
  refine ⟨?_, ?_, ?_⟩
  · intro fuel
    unfold fetchWithRootTag
    rw [fetchLoop_succ search fuel _ rfl]
    rcases fetchLoop_log search fuel (fetchStep search (fetchStart rootID)) with ⟨ext, hext⟩
    rw [hext]
    have hq : (fetchStart rootID).queue = { id := "*", origin := rootID, cursor := "" } :: [] :=
      rfl
    cases hres : search (List.map Prod.fst (fetchStart rootID).log)
        (rootTagParams { id := "*", origin := rootID, cursor := "" }) with
    | error err =>
      rw [fetchStep_error search (fetchStart rootID) _ [] err hq hres]
      simp only [List.head?_append, List.head?_cons]
      rw [← hres]
      rfl
    | ok result =>
      rw [fetchStep_ok search (fetchStart rootID) _ [] result hq hres]
      simp only [List.head?_append, List.head?_cons]
      rw [← hres]
      rfl
  · intro s item rest result hq hok
    refine ⟨?_, ?_, ?_⟩
    · rw [fetchStep_ok search s item rest result hq hok]
      refine ⟨_, rfl, ?_⟩
      intro c hc
      cases hcur : result.Cursor with
      | none => rw [hcur] at hc; cases hc
      | some cursor =>
        rw [hcur] at hc
        simp only [List.mem_singleton] at hc
        rw [hc]
    · intro it
      unfold newOrigins
      simp only [List.mem_map, List.mem_filter, decide_eq_true_eq]
      constructor
      · rintro ⟨p, ⟨hp, h1, h2⟩, rfl⟩
        exact ⟨p, hp, h1, h2, rfl⟩
      · rintro ⟨p, hp, h1, h2, rfl⟩
        exact ⟨p, ⟨hp, h1, h2⟩, rfl⟩
    · unfold newOrigins
      rw [List.length_map, List.countP_eq_length_filter]
  · intro origin p hp
    unfold newOrigins
    simp [List.filter_cons, hp]

theorem recordsOf_snoc (log : List (SearchParams × Except String SearchResult))
    (e : SearchParams × Except String SearchResult) :
    recordsOf (log ++ [e]) = recordsOf log ++
      (match e.2 with
        | .ok result => result.Promises
        | .error _ => []) := by
  unfold recordsOf
  simp [List.flatMap_append]

theorem FetchInv.snoc {search : Searcher} {s : FetchState} (hs : FetchInv search s)
    (hr : s.returned = false) (params : SearchParams) (t : FetchState)
    (hlog : t.log = s.log ++ [(params, search (s.log.map Prod.fst) params)])
    (hall : t.allPromises = s.allPromises ++
      (match search (s.log.map Prod.fst) params with
        | .ok result => result.Promises
        | .error _ => []))
    (hret : ∀ err, search (s.log.map Prod.fst) params = .error err → t.returned = true) :
    FetchInv search t := by
  have hnoerr : ∀ (i : Nat) (e : SearchParams × Except String SearchResult) (err : String),
      s.log[i]? = some e → e.2 ≠ .error err := by
    intro i e err he herr
    have := (hs.failure i e err he herr).2
    rw [hr] at this
    exact Bool.noConfusion this
  constructor
  · rw [hlog, recordsOf_snoc, ← hs.records, hall]
  · intro i e he
    rw [hlog] at he ⊢
    rcases getElem?_snoc_some he with h1 | ⟨h1, h2⟩
    · have hlt := getElem?_lt h1
      rw [List.take_append_of_le_length (by omega)]
      exact hs.answers i e h1
    · rw [h1, h2, List.take_left']
      rfl
  · intro i e err he herr
    rw [hlog] at he ⊢
    rcases getElem?_snoc_some he with h1 | ⟨h1, h2⟩
    · exact absurd herr (hnoerr i e err h1)
    · rw [h2] at herr
      exact ⟨by rw [h1]; simp, hret err herr⟩

theorem FetchInv.after_step {search : Searcher} {s : FetchState} (hs : FetchInv search s)
    (hr : s.returned = false) : FetchInv search (fetchStep search s) := by
  cases hq : s.queue with
  | nil =>
    have e : fetchStep search s = { s with returned := true } := by
      unfold fetchStep
      rw [hq]
    rw [e]
    exact ⟨hs.records, hs.answers, fun i e err he herr =>
      ⟨(hs.failure i e err he herr).1, rfl⟩⟩
  | cons item rest =>
    cases hres : search (s.log.map Prod.fst) (rootTagParams item) with
    | error err =>
      rw [fetchStep_error search s item rest err hq hres]
      exact hs.snoc hr (rootTagParams item) _ (by rw [hres]) (by rw [hres]; simp)
        (fun _ _ => rfl)
    | ok result =>
      rw [fetchStep_ok search s item rest result hq hres]
      exact hs.snoc hr (rootTagParams item) _ (by rw [hres]) (by rw [hres])
        (fun err herr => by rw [hres] at herr; exact Except.noConfusion herr)

/-- C25: for every query collaborator and however long the loop has run, the records
accumulated by `fetchWithRootTag` are the records of its successful queries, query after
query and in returned order within each page, and every logged answer is the
collaborator's; a failed query is the last query made, and the function has returned
right after it with the records accumulated before.  Once it has returned, running
longer changes nothing. -/
theorem fetchWithRootTag_records (search : Searcher) (fuel : Nat) (rootID : String) :
    (fetchWithRootTag search fuel rootID).allPromises
        = recordsOf (fetchWithRootTag search fuel rootID).log ∧
    (∀ (i : Nat) (e : SearchParams × Except String SearchResult),
      (fetchWithRootTag search fuel rootID).log[i]? = some e →
      e.2 = search (((fetchWithRootTag search fuel rootID).log.take i).map Prod.fst) e.1) ∧
    (∀ (i : Nat) (e : SearchParams × Except String SearchResult) (err : String),
      (fetchWithRootTag search fuel rootID).log[i]? = some e → e.2 = .error err →
      i + 1 = (fetchWithRootTag search fuel rootID).log.length ∧
      (fetchWithRootTag search fuel rootID).returned = true ∧
      (fetchWithRootTag search fuel rootID).allPromises
        = recordsOf ((fetchWithRootTag search fuel rootID).log.take i)) ∧
    ((fetchWithRootTag search fuel rootID).returned = true →
      ∀ k, fetchWithRootTag search (fuel + k) rootID = fetchWithRootTag search fuel rootID) := by
  have hinv : FetchInv search (fetchWithRootTag search fuel rootID) := by
    unfold fetchWithRootTag
    apply fetchLoop_invariant search (FetchInv search) (fun s hs hr => hs.after_step hr)
    exact ⟨rfl, fun i e he => by simp [fetchStart] at he,
      fun i e err he => by simp [fetchStart] at he⟩
  refine ⟨hinv.records, hinv.answers, ?_, ?_⟩
  · intro i e err he herr
    rcases hinv.failure i e err he herr with ⟨h1, h2⟩
    refine ⟨h1, h2, ?_⟩
    rw [hinv.records]
    have hsplit : (fetchWithRootTag search fuel rootID).log
        = (fetchWithRootTag search fuel rootID).log.take i ++ [e] := by
      have hlt := getElem?_lt he
      have hdrop : (fetchWithRootTag search fuel rootID).log.drop i = [e] := by
        rw [List.drop_eq_getElem_cons hlt, List.drop_of_length_le (by omega)]
        rw [(List.getElem?_eq_some_iff.mp he).2]
      conv_lhs => rw [← List.take_append_drop i (fetchWithRootTag search fuel rootID).log]
      rw [hdrop]
    conv_lhs => rw [hsplit]
    rw [recordsOf_snoc, herr]
    simp
  · intro hr k
    unfold fetchWithRootTag at hr ⊢
    exact fetchLoop_add search fuel k _ hr

/-- An instance of `fetchWithRootTag_records`: the second query of `failsSecond` fails,
and the record of the first page is what is returned. -/
theorem fetchWithRootTag_records_witness :
    (fetchWithRootTag failsSecond 5 "r").returned = true ∧
    (fetchWithRootTag failsSecond 5 "r").log.length = 2 ∧
    (fetchWithRootTag failsSecond 5 "r").allPromises = [globalRecord "x"] ∧
    (fetchWithRootTag failsSecond 5 "r").allPromises
      = recordsOf (fetchWithRootTag failsSecond 5 "r").log :=
  ⟨by decide, by decide, by decide, (fetchWithRootTag_records failsSecond 5 "r").1⟩

theorem QuerySize.append {f : SearchParams → Except String SearchResult} :
    ∀ (l1 l2 : List searchItem) (n m : Nat), QuerySize f l1 n → QuerySize f l2 m →
      QuerySize f (l1 ++ l2) (n + m) := by
  intro l1
  induction l1 with
  | nil =>
    intro l2 n m h1 h2
    cases h1
    simpa using h2
  | cons a l1 ih =>
    intro l2 n m h1 h2
    cases h1 with
    | cons _ _ k j hk hj =>
      have := QuerySize.cons a (l1 ++ l2) k (j + m) hk (ih l2 j m hj h2)
      rw [show k + j + 1 + m = k + (j + m) + 1 by omega]
      exact this

theorem QuerySize.of_forall {f : SearchParams → Except String SearchResult} :
    ∀ l : List searchItem, (∀ b ∈ l, ∃ n, QuerySize f [b] n) → ∃ m, QuerySize f l m := by
  intro l
  induction l with
  | nil => intro _; exact ⟨0, QuerySize.nil⟩
  | cons b l ih =>
    intro h
    rcases h b (List.mem_cons_self _ _) with ⟨n, hn⟩
    rcases ih (fun c hc => h c (List.mem_cons_of_mem _ hc)) with ⟨m, hm⟩
    exact ⟨n + m, QuerySize.append [b] l n m hn hm⟩

theorem QuerySize.of_acc {f : SearchParams → Except String SearchResult} {item : searchItem}
    (hacc : Acc (fun b a => b ∈ nextItems f a) item) : ∃ n, QuerySize f [item] n := by
  induction hacc with
  | intro a _ ih =>
    rcases QuerySize.of_forall (nextItems f a) ih with ⟨n, hn⟩
    exact ⟨n + 0 + 1, QuerySize.cons a [] n 0 hn QuerySize.nil⟩

/-- A queue that takes `n` queries to empty is emptied within `n + 1` iterations. -/
theorem fetchLoop_returns (f : SearchParams → Except String SearchResult) :
    ∀ (n : Nat) (s : FetchState), QuerySize f s.queue n → s.returned = false →
      (fetchLoop (fun _ => f) (n + 1) s).returned = true := by
  intro n
  induction n with
  | zero =>
    intro s hs hr
    rw [fetchLoop_succ _ _ s hr]
    generalize hq : s.queue = q at hs
    generalize hz : (0 : Nat) = z at hs
    cases hs with
    | nil =>
      have : fetchStep (fun _ => f) s = { s with returned := true } := by
        unfold fetchStep
        rw [hq]
      rw [this]
      rfl
    | cons _ _ k j _ _ => omega
  | succ n ih =>
    intro s hs hr
    rw [fetchLoop_succ _ _ s hr]
    generalize hq : s.queue = q at hs
    generalize hz : n + 1 = z at hs
    cases hs with
    | nil => omega
    | cons item rest k j hk hj =>
      cases hres : f (rootTagParams item) with
      | error err =>
        rw [fetchStep_error (fun _ => f) s item rest err hq hres,
          fetchLoop_of_returned _ _ _ rfl]
      | ok result =>
        rw [fetchStep_ok (fun _ => f) s item rest result hq hres,
          show k + j + 1 = n + 1 by omega]
        apply ih
        · have hnext : nextItems f item = newOrigins item.origin result.Promises ++
              (match result.Cursor with
                | some cursor => [{ id := item.id, origin := item.origin, cursor := cursor }]
                | none => []) := by
            unfold nextItems
            rw [hres]
          rw [hnext] at hk
          have := QuerySize.append rest _ j k hj hk
          rw [show n = j + k by omega]
          simpa [List.append_assoc] using this
        · rfl

theorem reportedOrigins_snoc (log : List (SearchParams × Except String SearchResult))
    (e : SearchParams × Except String SearchResult) :
    reportedOrigins (log ++ [e]) = reportedOrigins log ++
      (match e.2 with
        | .ok result =>
          (newOrigins (tag e.1.Tags "resonate:root") result.Promises).map (fun it => it.origin)
        | .error _ => []) := by
  unfold reportedOrigins
  simp [List.flatMap_append]

theorem OriginInv.after_fetchStep {search : Searcher} {rootID : String} {s : FetchState}
    (hs : OriginInv rootID s) : OriginInv rootID (fetchStep search s) := by
  have htag : ∀ item : searchItem, tag (rootTagParams item).Tags "resonate:root" = item.origin := by
    intro item
    simp [rootTagParams, tag, List.lookup]
  cases hq : s.queue with
  | nil =>
    have e : fetchStep search s = { s with returned := true } := by
      unfold fetchStep
      rw [hq]
    rw [e]
    exact ⟨hs.queue, hs.log⟩
  | cons item rest =>
    have hitem := hs.queue item (by rw [hq]; exact List.mem_cons_self _ _)
    have hrest : ∀ it ∈ rest, it.origin = rootID ∨ it.origin ∈ reportedOrigins s.log :=
      fun it hit => hs.queue it (by rw [hq]; exact List.mem_cons_of_mem _ hit)
    have hmono : ∀ (o : String) (e : SearchParams × Except String SearchResult),
        (o = rootID ∨ o ∈ reportedOrigins s.log) →
        (o = rootID ∨ o ∈ reportedOrigins (s.log ++ [e])) := by
      intro o e h
      rcases h with h | h
      · exact Or.inl h
      · right
        rw [reportedOrigins_snoc]
        exact List.mem_append_left _ h
    have hlog : ∀ (e : SearchParams × Except String SearchResult),
        e.1 = rootTagParams item →
        ∀ o ∈ queriedOrigins (s.log ++ [e]), o = rootID ∨ o ∈ reportedOrigins (s.log ++ [e]) := by
      intro e he o ho
      unfold queriedOrigins at ho
      rw [List.map_append, List.mem_append] at ho
      rcases ho with ho | ho
      · exact hmono o e (hs.log o ho)
      · simp only [List.map_cons, List.map_nil, List.mem_singleton] at ho
        rw [ho, he, htag]
        exact hmono _ e hitem
    cases hres : search (s.log.map Prod.fst) (rootTagParams item) with
    | error err =>
      rw [fetchStep_error search s item rest err hq hres]
      exact ⟨fun it hit => hmono _ _ (hrest it hit), hlog _ rfl⟩
    | ok result =>
      rw [fetchStep_ok search s item rest result hq hres]
      refine ⟨?_, hlog _ rfl⟩
      intro it hit
      have hit' : it ∈ rest ++ newOrigins item.origin result.Promises ++
          (match result.Cursor with
            | some cursor => [{ id := item.id, origin := item.origin, cursor := cursor }]
            | none => []) := hit
      rw [List.mem_append, List.mem_append] at hit'
      rcases hit' with (h | h) | h
      · exact hmono _ _ (hrest it h)
      · right
        rw [reportedOrigins_snoc]
        apply List.mem_append_right
        show it.origin ∈ (newOrigins (tag (rootTagParams item).Tags "resonate:root")
          result.Promises).map (fun it => it.origin)
        rw [htag]
        exact List.mem_map_of_mem _ h
      · have : it.origin = item.origin := by
          cases hcur : result.Cursor with
          | none => rw [hcur] at h; cases h
          | some cursor =>
            rw [hcur] at h
            simp only [List.mem_singleton] at h
            rw [h]
        rw [this]
        exact hmono _ _ hitem

/-- C26 (counterexample): `pingPong` answers every query with one page and reports no
record id but `a` and `r`, yet `fetchWithRootTag` for the root `r` has not returned
after any number of iterations: the origins `r` and `a` keep reporting each other. -/
theorem fetchWithRootTag_runs_on :
    (∀ earlier params, ∃ result, pingPong earlier params = .ok result ∧ result.Cursor = none ∧
      ∀ p ∈ result.Promises, p.ID = "a" ∨ p.ID = "r") ∧
    ∀ fuel, (fetchWithRootTag pingPong fuel "r").returned = false := by
  constructor
  · intro earlier params
    unfold pingPong
    split_ifs
    · exact ⟨_, rfl, rfl, by decide⟩
    · exact ⟨_, rfl, rfl, by decide⟩
    · exact ⟨_, rfl, rfl, by decide⟩
  · intro fuel
    have key := fetchLoop_invariant pingPong
      (fun s => s.returned = false ∧
        (s.queue = [{ id := "*", origin := "r", cursor := "" }] ∨
          s.queue = [{ id := "*", origin := "a", cursor := "" }]))
      (by
        rintro s ⟨_, hq | hq⟩ _
        · rw [fetchStep_ok pingPong s _ [] { Promises := [globalRecord "a"], Cursor := none } hq
            rfl]
          exact ⟨rfl, Or.inr (by show [] ++ newOrigins "r" [globalRecord "a"] ++ [] = _; decide)⟩
        · rw [fetchStep_ok pingPong s _ [] { Promises := [globalRecord "r"], Cursor := none } hq
            rfl]
          exact ⟨rfl, Or.inl (by show [] ++ newOrigins "a" [globalRecord "r"] ++ [] = _; decide)⟩)
      fuel (fetchStart "r") ⟨rfl, Or.inl rfl⟩
    exact key.1

/-- C26 (amended): for a query collaborator whose answers do not depend on earlier
queries and under which no endless chain of queries starts at the first one (each
query of a chain being for a continuation page or a newly reported origin of the query
before), `fetchWithRootTag` returns.  For every collaborator and however long the loop
has run, every origin it has queried is the requested root or an origin reported
before, so the number of distinct origins queried is at most the number of distinct
origins reported plus one. -/
theorem fetchWithRootTag_terminates (f : SearchParams → Except String SearchResult)
    (rootID : String)
    (hacc : Acc (fun b a => b ∈ nextItems f a) { id := "*", origin := rootID, cursor := "" }) :
    (∃ fuel, (fetchWithRootTag (fun _ => f) fuel rootID).returned = true) ∧
    ∀ (search : Searcher) (fuel : Nat),
      (∀ o ∈ queriedOrigins (fetchWithRootTag search fuel rootID).log,
        o = rootID ∨ o ∈ reportedOrigins (fetchWithRootTag search fuel rootID).log) ∧
      (queriedOrigins (fetchWithRootTag search fuel rootID).log).dedup.length ≤
        (reportedOrigins (fetchWithRootTag search fuel rootID).log).dedup.length + 1 := by
  constructor
  · rcases QuerySize.of_acc hacc with ⟨n, hn⟩
    exact ⟨n + 1, fetchLoop_returns f n (fetchStart rootID) hn rfl⟩
  · intro search fuel
    have hinv : OriginInv rootID (fetchWithRootTag search fuel rootID) := by
      unfold fetchWithRootTag
      apply fetchLoop_invariant search (OriginInv rootID) (fun s hs _ => hs.after_fetchStep)
      constructor
      · intro it hit
        simp only [fetchStart, List.mem_singleton] at hit
        left
        rw [hit]
      · intro o ho
        simp [fetchStart, queriedOrigins] at ho
    refine ⟨hinv.log, ?_⟩
    have hsub : (queriedOrigins (fetchWithRootTag search fuel rootID).log).dedup ⊆
        rootID :: (reportedOrigins (fetchWithRootTag search fuel rootID).log).dedup := by
      intro o ho
      rcases hinv.log o (List.mem_dedup.mp ho) with h | h
      · rw [h]; exact List.mem_cons_self _ _
      · exact List.mem_cons_of_mem _ (List.mem_dedup.mpr h)
    have := (List.subperm_of_subset (List.nodup_dedup _) hsub).length_le
    simpa using this

/-- Witness for `fetchWithRootTag_terminates`: under `pagedAnswers` the first query
leads to the query for the origin `a` and the one for the second page, and these lead
to nothing. -/
theorem fetchWithRootTag_terminates_witness :
    (∃ fuel, (fetchWithRootTag (fun _ => pagedAnswers) fuel "r").returned = true) ∧
    ∀ (search : Searcher) (fuel : Nat),
      (∀ o ∈ queriedOrigins (fetchWithRootTag search fuel "r").log,
        o = "r" ∨ o ∈ reportedOrigins (fetchWithRootTag search fuel "r").log) ∧
      (queriedOrigins (fetchWithRootTag search fuel "r").log).dedup.length ≤
        (reportedOrigins (fetchWithRootTag search fuel "r").log).dedup.length + 1 :=
  fetchWithRootTag_terminates pagedAnswers "r"
    (Acc.intro _ (fun b hb => by
      have hb' : b = { id := "*", origin := "a", cursor := "" } ∨
          b = { id := "*", origin := "r", cursor := "c1" } := by
        have : nextItems pagedAnswers { id := "*", origin := "r", cursor := "" } =
            [{ id := "*", origin := "a", cursor := "" },
              { id := "*", origin := "r", cursor := "c1" }] := by decide
        rw [this] at hb
        simpa using hb
      rcases hb' with rfl | rfl
      · exact Acc.intro _ (fun c hc => by
          have : nextItems pagedAnswers { id := "*", origin := "a", cursor := "" } = [] := by
            decide
          rw [this] at hc
          cases hc)
      · exact Acc.intro _ (fun c hc => by
          have : nextItems pagedAnswers { id := "*", origin := "r", cursor := "c1" } = [] := by
            decide
          rw [this] at hc
          cases hc)))

/-! ### What the keys of the tree view do -/

theorem adjustScroll_frame (m : Model) :
    m.adjustScroll.heap = m.heap ∧ m.adjustScroll.root = m.root ∧
    m.adjustScroll.visible = m.visible ∧ m.adjustScroll.selected = m.selected := by
  unfold Model.adjustScroll
  simp only []
  split_ifs <;> exact ⟨rfl, rfl, rfl, rfl⟩

theorem findByID_lt (heap : Heap) (parentID : String) :
    ∀ (l : List Nat) (k i : Nat), findByID heap parentID l k = some i →
      k ≤ i ∧ i < k + l.length := by
  intro l
  induction l with
  | nil => intro k i h; simp [findByID] at h
  | cons a l ih =>
    intro k i h
    rw [findByID] at h
    have hrec : findByID heap parentID l (k + 1) = some i → k ≤ i ∧ i < k + (a :: l).length := by
      intro h'
      have := ih (k + 1) i h'
      simp only [List.length_cons]
      omega
    split at h
    · split_ifs at h
      · have : k = i := Option.some.inj h
        simp only [List.length_cons]
        omega
      · exact hrec h
    · exact hrec h

theorem flatten_ok {fuel : Nat} {heap : Heap} {root : Option Nat} {visible : List Nat}
    (h : Model.flatten fuel heap root = .ok visible) :
    FlattenVisible heap fuel root = some visible := by
  unfold Model.flatten at h
  split at h
  · rename_i v hv
    rw [hv, ← Except.ok.inj h]
  · exact Except.noConfusion h

theorem KeyEffect.same (fuel : Nat) (m : Model) : KeyEffect fuel m m :=
  ⟨rfl, Or.inl ⟨rfl, rfl, Or.inl rfl⟩⟩

theorem toggle_effect {fuel : Nat} {m m' : Model} {c : Cmd}
    (h : m.toggle fuel = .ok (m', c)) : KeyEffect fuel m m' := by
  unfold Model.toggle at h
  split at h
  · cases hsel : m.selectedNode with
    | error e => rw [hsel] at h; exact Except.noConfusion h
    | ok r =>
      obtain ⟨node, n⟩ := r
      rw [hsel] at h
      simp only [] at h
      split at h
      · rename_i hk
        cases hf : Model.flatten fuel (m.heap.set node { n with Expanded := !n.Expanded })
            m.root with
        | error e => rw [hf] at h; exact Except.noConfusion h
        | ok visible =>
          rw [hf] at h
          simp only [Except.ok.injEq, Prod.mk.injEq] at h
          obtain ⟨rfl, _⟩ := h
          refine ⟨rfl, Or.inr ⟨node, n, hsel, List.length_pos.mp hk, rfl, flatten_ok hf, ?_⟩⟩
          show (if m.selected ≥ (visible.length : Int) then (visible.length : Int) - 1
            else m.selected) = m.selected ∨ _
          split_ifs with hc
          · exact Or.inr ⟨hc, rfl⟩
          · exact Or.inl rfl
      · cases h
        exact KeyEffect.same fuel m
  · cases h
    exact KeyEffect.same fuel m

theorem expand_effect {fuel : Nat} {m m' : Model} {c : Cmd}
    (h : m.expand fuel = .ok (m', c)) : KeyEffect fuel m m' := by
  unfold Model.expand at h
  split at h
  · cases hsel : m.selectedNode with
    | error e => rw [hsel] at h; exact Except.noConfusion h
    | ok r =>
      obtain ⟨node, n⟩ := r
      rw [hsel] at h
      simp only [] at h
      split at h
      · rename_i hk
        have hset : m.heap.set node { n with Expanded := true }
            = m.heap.set node { n with Expanded := !n.Expanded } := by
          rw [hk.2]
          rfl
        rw [hset] at h
        cases hf : Model.flatten fuel (m.heap.set node { n with Expanded := !n.Expanded })
            m.root with
        | error e => rw [hf] at h; exact Except.noConfusion h
        | ok visible =>
          rw [hf] at h
          simp only [Except.ok.injEq, Prod.mk.injEq] at h
          obtain ⟨rfl, _⟩ := h
          exact ⟨rfl, Or.inr ⟨node, n, hsel, List.length_pos.mp hk.1, rfl, flatten_ok hf,
            Or.inl rfl⟩⟩
      · cases h
        exact KeyEffect.same fuel m
  · cases h
    exact KeyEffect.same fuel m

theorem collapse_effect {fuel : Nat} {m m' : Model} {c : Cmd}
    (h : m.collapse fuel = .ok (m', c)) : KeyEffect fuel m m' := by
  unfold Model.collapse at h
  split at h
  · cases hsel : m.selectedNode with
    | error e => rw [hsel] at h; exact Except.noConfusion h
    | ok r =>
      obtain ⟨node, n⟩ := r
      rw [hsel] at h
      simp only [] at h
      split at h
      · rename_i hk
        have hset : m.heap.set node { n with Expanded := false }
            = m.heap.set node { n with Expanded := !n.Expanded } := by
          rw [hk.1]
          rfl
        rw [hset] at h
        cases hf : Model.flatten fuel (m.heap.set node { n with Expanded := !n.Expanded })
            m.root with
        | error e => rw [hf] at h; exact Except.noConfusion h
        | ok visible =>
          rw [hf] at h
          simp only [Except.ok.injEq, Prod.mk.injEq] at h
          obtain ⟨rfl, _⟩ := h
          exact ⟨rfl, Or.inr ⟨node, n, hsel, List.length_pos.mp hk.2, rfl, flatten_ok hf,
            Or.inl rfl⟩⟩
      · split at h
        · cases hfind : findByID m.heap (tag n.Promise.Tags "resonate:parent") m.visible 0 with
          | none =>
            rw [hfind] at h
            cases h
            exact KeyEffect.same fuel m
          | some i =>
            rw [hfind] at h
            simp only [Except.ok.injEq, Prod.mk.injEq] at h
            obtain ⟨rfl, _⟩ := h
            have hi := findByID_lt m.heap _ m.visible 0 i hfind
            rcases adjustScroll_frame ({ m with selected := (i : Int) } : Model)
              with ⟨e1, e2, e3, e4⟩
            exact ⟨e2, Or.inl ⟨e1, e3, Or.inr (Or.inr (Or.inr ⟨i, by omega, e4⟩))⟩⟩
        · cases h
          exact KeyEffect.same fuel m
  · cases h
    exact KeyEffect.same fuel m

theorem inspect_effect {fuel : Nat} {m m' : Model} {c : Cmd}
    (h : m.inspect = .ok (m', c)) : KeyEffect fuel m m' := by
  unfold Model.inspect at h
  split at h
  · cases hsel : m.selectedNode with
    | error e => rw [hsel] at h; exact Except.noConfusion h
    | ok r =>
      rw [hsel] at h
      cases h
      exact KeyEffect.same fuel m
  · cases h
    exact KeyEffect.same fuel m

theorem updateNavigation_effect {fuel : Nat} {m m' : Model} {key : String} {c : Cmd}
    (h : m.updateNavigation fuel key = .ok (m', c)) : KeyEffect fuel m m' := by
  unfold Model.updateNavigation at h
  by_cases k1 : theme.Key key ["j", "down"] = true
  · rw [if_pos k1] at h
    split at h
    · rename_i hlt
      simp only [Except.ok.injEq, Prod.mk.injEq] at h
      obtain ⟨rfl, _⟩ := h
      rcases adjustScroll_frame ({ m with selected := m.selected + 1 } : Model)
        with ⟨e1, e2, e3, e4⟩
      exact ⟨e2, Or.inl ⟨e1, e3, Or.inr (Or.inl ⟨e4, hlt⟩)⟩⟩
    · cases h
      exact KeyEffect.same fuel m
  rw [if_neg k1] at h
  by_cases k2 : theme.Key key ["k", "up"] = true
  · rw [if_pos k2] at h
    split at h
    · rename_i hlt
      simp only [Except.ok.injEq, Prod.mk.injEq] at h
      obtain ⟨rfl, _⟩ := h
      rcases adjustScroll_frame ({ m with selected := m.selected - 1 } : Model)
        with ⟨e1, e2, e3, e4⟩
      exact ⟨e2, Or.inl ⟨e1, e3, Or.inr (Or.inr (Or.inl ⟨e4, hlt⟩))⟩⟩
    · cases h
      exact KeyEffect.same fuel m
  rw [if_neg k2] at h
  by_cases k3 : theme.Key key ["enter", " "] = true
  · rw [if_pos k3] at h
    exact toggle_effect h
  rw [if_neg k3] at h
  by_cases k4 : theme.Key key ["l", "right"] = true
  · rw [if_pos k4] at h
    exact expand_effect h
  rw [if_neg k4] at h
  by_cases k5 : theme.Key key ["h", "left"] = true
  · rw [if_pos k5] at h
    exact collapse_effect h
  rw [if_neg k5] at h
  by_cases k6 : theme.Key key ["i"] = true
  · rw [if_pos k6] at h
    exact inspect_effect h
  rw [if_neg k6] at h
  by_cases k7 : theme.Key key ["r"] = true
  · rw [if_pos k7] at h
    cases h
    exact ⟨rfl, Or.inl ⟨rfl, rfl, Or.inl rfl⟩⟩
  rw [if_neg k7] at h
  cases h
  exact KeyEffect.same fuel m

/-! ### The walk of `FlattenVisible` does not depend on the fuel -/

theorem foldlM_option_mono {α β : Type} (g g' : β → α → Option β)
    (hg : ∀ b a r, g b a = some r → g' b a = some r) :
    ∀ (l : List α) (b r : β), l.foldlM g b = some r → l.foldlM g' b = some r := by
  intro l
  induction l with
  | nil => intro b r h; simpa using h
  | cons a l ih =>
    intro b r h
    rw [List.foldlM_cons] at h ⊢
    cases hb : g b a with
    | none => rw [hb] at h; simp at h
    | some b1 =>
      rw [hb] at h
      rw [hg b a b1 hb]
      exact ih b1 r h

theorem walk_succ (h : Heap) :
    ∀ (fuel node : Nat) (acc r : List Nat), walk h fuel node acc = some r →
      walk h (fuel + 1) node acc = some r := by
  intro fuel
  induction fuel with
  | zero => intro node acc r hw; simp [walk] at hw
  | succ fuel ih =>
    intro node acc r hw
    rw [walk] at hw ⊢
    cases hn : h[node]? with
    | none => rw [hn] at hw; simp at hw
    | some n =>
      rw [hn] at hw
      simp only [] at hw ⊢
      by_cases he : n.Expanded = true
      · rw [if_pos he] at hw ⊢
        exact foldlM_option_mono _ _ (fun b a r hr => ih a b r hr) _ _ _ hw
      · rw [if_neg he] at hw ⊢
        exact hw

theorem walk_le (h : Heap) {fuel fuel' : Nat} (hle : fuel ≤ fuel') {node : Nat}
    {acc r : List Nat} (hw : walk h fuel node acc = some r) :
    walk h fuel' node acc = some r := by
  induction hle with
  | refl => exact hw
  | step _ ih => exact walk_succ h _ _ _ _ ih

theorem FlattenVisible_le (h : Heap) {fuel fuel' : Nat} (hle : fuel ≤ fuel') {root : Option Nat}
    {r : List Nat} (hw : FlattenVisible h fuel root = some r) :
    FlattenVisible h fuel' root = some r := by
  unfold FlattenVisible at hw ⊢
  cases root with
  | none => exact hw
  | some q => exact walk_le h hle hw

/-- Two runs of `FlattenVisible` that return, return the same list. -/
theorem FlattenVisible_det (h : Heap) {f1 f2 : Nat} {root : Option Nat} {r1 r2 : List Nat}
    (h1 : FlattenVisible h f1 root = some r1) (h2 : FlattenVisible h f2 root = some r2) :
    r1 = r2 := by
  have a := FlattenVisible_le h (Nat.le_max_left f1 f2) h1
  have b := FlattenVisible_le h (Nat.le_max_right f1 f2) h2
  rw [a] at b
  exact Option.some.inj b

/-- The walk appends the node it starts at and then only pointers of the store. -/
theorem walk_valid (h : Heap) :
    ∀ (fuel node : Nat) (acc r : List Nat), walk h fuel node acc = some r →
      ∃ ext, r = acc ++ node :: ext ∧ ∀ p ∈ node :: ext, ∃ n, h[p]? = some n := by
  intro fuel
  induction fuel with
  | zero => intro node acc r hw; simp [walk] at hw
  | succ fuel ih =>
    intro node acc r hw
    rw [walk] at hw
    cases hn : h[node]? with
    | none => rw [hn] at hw; simp at hw
    | some n =>
      rw [hn] at hw
      simp only [] at hw
      have hfold : ∀ (l : List Nat) (b r : List Nat),
          l.foldlM (fun acc child => walk h fuel child acc) b = some r →
          ∃ ext, r = b ++ ext ∧ ∀ p ∈ ext, ∃ n, h[p]? = some n := by
        intro l
        induction l with
        | nil =>
          intro b r hr
          simp only [List.foldlM_nil] at hr
          exact ⟨[], by rw [← Option.some.inj hr]; simp, fun p hp => by cases hp⟩
        | cons a l ihl =>
          intro b r hr
          rw [List.foldlM_cons] at hr
          cases hb : walk h fuel a b with
          | none => rw [hb] at hr; simp at hr
          | some b1 =>
            rw [hb] at hr
            rcases ih a b b1 hb with ⟨e1, he1, hv1⟩
            rcases ihl b1 r hr with ⟨e2, he2, hv2⟩
            refine ⟨a :: e1 ++ e2, by rw [he2, he1]; simp, ?_⟩
            intro p hp
            rcases List.mem_append.mp hp with hp | hp
            · exact hv1 p hp
            · exact hv2 p hp
      by_cases he : n.Expanded = true
      · rw [if_pos he] at hw
        rcases hfold _ _ _ hw with ⟨ext, hext, hv⟩
        refine ⟨ext, by rw [hext]; simp, ?_⟩
        intro p hp
        rcases List.mem_cons.mp hp with hp | hp
        · exact ⟨n, by rw [hp]; exact hn⟩
        · exact hv p hp
      · rw [if_neg he] at hw
        refine ⟨[], by rw [← Option.some.inj hw], ?_⟩
        intro p hp
        simp only [List.mem_singleton] at hp
        exact ⟨n, by rw [hp]; exact hn⟩

theorem FlattenVisible_valid {h : Heap} {fuel : Nat} {root : Option Nat} {r : List Nat}
    (hw : FlattenVisible h fuel root = some r) :
    (root = none → r = []) ∧ (∀ q, root = some q → ∃ ext, r = q :: ext) ∧
    ∀ p ∈ r, ∃ n, h[p]? = some n := by
  unfold FlattenVisible at hw
  cases root with
  | none =>
    have : r = [] := (Option.some.inj hw).symm
    subst this
    exact ⟨fun _ => rfl, fun q hq => (by cases hq), fun p hp => (by cases hp)⟩
  | some q =>
    rcases walk_valid h fuel q [] r hw with ⟨ext, hext, hv⟩
    rw [List.nil_append] at hext
    refine ⟨fun hq => (by cases hq), fun q' hq' => ?_, fun p hp => hv p (hext ▸ hp)⟩
    cases hq'
    exact ⟨ext, hext⟩

theorem ViewInv.of_key {fuel : Nat} {m m' : Model} (hm : ViewInv m)
    (he : KeyEffect fuel m m') : ViewInv m' := by
  rcases he with ⟨hroot, ⟨hheap, hvis, hsel⟩ | ⟨node, n, hnode, _, _, hflat, hsel⟩⟩
  · constructor
    · rcases hm.flat with ⟨f, hf⟩
      exact ⟨f, fun fuel hfuel => by rw [hheap, hvis, hroot]; exact hf fuel hfuel⟩
    · have := hm.nonneg
      rcases hsel with h | ⟨h, _⟩ | ⟨h, _⟩ | ⟨i, _, h⟩ <;> omega
  · constructor
    · exact ⟨fuel, fun f' hf' => FlattenVisible_le _ hf' (by rw [hroot]; exact hflat)⟩
    · have h0 := hm.nonneg
      rcases hsel with h | ⟨_, h⟩
      · omega
      · rcases selectedNode_ok hnode with ⟨_, hv, _⟩
        have hlen := getElem?_lt hv
        rcases hm.flat with ⟨f, hf⟩
        rcases FlattenVisible_valid (hf f (le_refl f)) with ⟨hnone, _, _⟩
        cases hr : m.root with
        | none =>
          have := hnone hr
          rw [this] at hlen
          simp at hlen
        | some q =>
          rcases FlattenVisible_valid hflat with ⟨_, hsome, _⟩
          rcases hsome q hr with ⟨ext, hext⟩
          rw [h, hext]
          simp only [List.length_cons]
          omega

theorem ViewInv.of_loaded {sortSlice : (Nat → Nat → Bool) → List Nat → List Nat} {fuel : Nat}
    {m m' : Model} {promises : List Promise} {c : Cmd}
    (h : m.loaded sortSlice fuel promises = .ok (m', c)) : ViewInv m' := by
  unfold Model.loaded at h
  split at h
  · exact Except.noConfusion h
  · rename_i built hb
    cases hf : Model.flatten fuel built.1 (some built.2) with
    | error e => rw [hf] at h; exact Except.noConfusion h
    | ok visible =>
      rw [hf] at h
      simp only [Except.ok.injEq, Prod.mk.injEq] at h
      obtain ⟨rfl, _⟩ := h
      exact ⟨⟨fuel, fun f' hf' => FlattenVisible_le _ hf' (flatten_ok hf)⟩, le_refl _⟩

theorem ViewInv.of_update {sortSlice : (Nat → Nat → Bool) → List Nat → List Nat} {fuel : Nat}
    {m m' : Model} {msg : Msg} {c : Cmd} (hm : ViewInv m)
    (h : m.Update sortSlice fuel msg = .ok (m', c)) : ViewInv m' := by
  cases msg with
  | KeyMsg key => exact hm.of_key (updateNavigation_effect h)
  | TreeLoadedMsg promises err =>
    cases err with
    | some e =>
      simp only [Model.Update, Except.ok.injEq, Prod.mk.injEq] at h
      obtain ⟨rfl, _⟩ := h
      exact ⟨hm.flat, hm.nonneg⟩
    | none => exact ViewInv.of_loaded h
  | TickMsg =>
    simp only [Model.Update, Except.ok.injEq, Prod.mk.injEq] at h
    obtain ⟨rfl, _⟩ := h
    exact hm
  | WindowSizeMsg w hgt =>
    simp only [Model.Update, Except.ok.injEq, Prod.mk.injEq] at h
    obtain ⟨rfl, _⟩ := h
    exact ⟨hm.flat, hm.nonneg⟩

theorem ViewInv.of_reachable {sortSlice : (Nat → Nat → Bool) → List Nat → List Nat}
    {allowed : List Promise → Prop} {m : Model} (hm : Reachable sortSlice allowed m) :
    ViewInv m := by
  induction hm with
  | init => exact ⟨⟨0, fun _ _ => rfl⟩, le_refl _⟩
  | load m rootID _ _ => exact ⟨⟨0, fun _ _ => rfl⟩, le_refl _⟩
  | update m m' fuel msg c _ _ hupd ih => exact ih.of_update hupd

/-- C27: in every state of the tree view reached from `New` by `Load` and by messages
(tree-loaded, keys, spinner ticks, window sizes), the stored visible list is
`FlattenVisible` of the current tree with its current `Expanded` flags, for every
allowance of nested calls from some point on; and a key handler that returns with an
`Expanded` flag changed has flattened the tree again before it returns.  Any model of
`sort.Slice` will do. -/
theorem visible_is_flattened (sortSlice : (Nat → Nat → Bool) → List Nat → List Nat)
    (m : Model) (hm : Reachable sortSlice (fun _ => True) m) :
    (∃ f, ∀ fuel, f ≤ fuel → FlattenVisible m.heap fuel m.root = some m.visible) ∧
    ∀ (fuel : Nat) (key : String) (m' : Model) (c : Cmd),
      m.updateNavigation fuel key = .ok (m', c) →
      (∃ p, expandedAt m'.heap p ≠ expandedAt m.heap p) →
      FlattenVisible m'.heap fuel m'.root = some m'.visible := by
  refine ⟨(ViewInv.of_reachable hm).flat, ?_⟩
  intro fuel key m' c hupd ⟨p, hp⟩
  rcases updateNavigation_effect hupd with ⟨hroot, ⟨hheap, _, _⟩ | ⟨_, _, _, _, _, hflat, _⟩⟩
  · rw [hheap] at hp
    exact absurd rfl hp
  · rw [hroot]
    exact hflat

/-- Witness for `visible_is_flattened`: the state after a load of `r`, the arrival of
`chainRecords` and the key `j`. -/
theorem visible_is_flattened_witness :
    (∃ f, ∀ fuel, f ≤ fuel →
      FlattenVisible loadedChain.heap fuel loadedChain.root = some loadedChain.visible) ∧
    ∀ (fuel : Nat) (key : String) (m' : Model) (c : Cmd),
      loadedChain.updateNavigation fuel key = .ok (m', c) →
      (∃ p, expandedAt m'.heap p ≠ expandedAt loadedChain.heap p) →
      FlattenVisible m'.heap fuel m'.root = some m'.visible :=
  visible_is_flattened (sort.Slice sort.xorshiftNext) loadedChain
    (Reachable.update _ _ 5 (Msg.KeyMsg "j") Cmd.none
      (Reachable.update (New.Load "r").1 _ 5 (Msg.TreeLoadedMsg chainRecords none) Cmd.none
        (Reachable.load New "r" Reachable.init) (fun _ _ => trivial) rfl)
      (fun _ _ => trivial) rfl)

/-- What flipping the flag of the selected node does to the store and the walk. -/
theorem flip_selected {m : Model} {t : Shape} {fuel : Nat} (hroot : m.root = some t.ptr)
    (hh : Holds m.heap t) (hnd : t.nodes.Nodup) (hfuel : t.height ≤ fuel)
    (hvis : m.visible = t.visible m.heap) {node : Nat} {n : TreeNode}
    (hsel : m.selectedNode = .ok (node, n)) :
    Holds (m.heap.set node { n with Expanded := !n.Expanded }) t ∧
    Model.flatten fuel (m.heap.set node { n with Expanded := !n.Expanded }) m.root
      = .ok (t.visible (m.heap.set node { n with Expanded := !n.Expanded })) ∧
    (t.visible (m.heap.set node { n with Expanded := !n.Expanded }))[m.selected.toNat]?
      = some node := by
  rcases selectedNode_ok hsel with ⟨_, hv, hn⟩
  have hh' : Holds (m.heap.set node { n with Expanded := !n.Expanded }) t := by
    rw [set_flag_eq_setExpanded hn]
    exact hh.setExpanded node _
  refine ⟨hh', ?_, visible_flip_index hh hnd hn (hvis ▸ hv)⟩
  unfold Model.flatten
  rw [hroot, FlattenVisible_eq_visible hh' hfuel]

/-- The key `l` on a selected node with children. -/
theorem expand_step {m : Model} {t : Shape} {fuel : Nat} (hroot : m.root = some t.ptr)
    (hh : Holds m.heap t) (hnd : t.nodes.Nodup) (hfuel : t.height ≤ fuel)
    (hvis : m.visible = t.visible m.heap) {node : Nat} {n : TreeNode}
    (hsel : m.selectedNode = .ok (node, n)) (hkids : n.Children ≠ []) :
    m.expand fuel = .ok (m, Cmd.none) ∨
    m.expand fuel = .ok ({ m with
      heap := m.heap.set node { n with Expanded := !n.Expanded }
      visible := t.visible (m.heap.set node { n with Expanded := !n.Expanded }) },
      Cmd.none) := by
  rcases selectedNode_ok hsel with ⟨h0, hv, hn⟩
  have hlt := getElem?_lt hv
  rcases flip_selected hroot hh hnd hfuel hvis hsel with ⟨_, hflat, _⟩
  unfold Model.expand
  rw [if_pos ⟨by omega, by omega⟩, hsel]
  simp only []
  cases hb : n.Expanded with
  | true =>
    left
    rw [if_neg (by simp)]
  | false =>
    right
    rw [hb] at hflat
    rw [if_pos ⟨List.length_pos.mpr hkids, rfl⟩]
    simp only [Bool.not_false] at hflat ⊢
    rw [hflat]

/-- The key `h` on a selected node with children that is expanded. -/
theorem collapse_step {m : Model} {t : Shape} {fuel : Nat} (hroot : m.root = some t.ptr)
    (hh : Holds m.heap t) (hnd : t.nodes.Nodup) (hfuel : t.height ≤ fuel)
    (hvis : m.visible = t.visible m.heap) {node : Nat} {n : TreeNode}
    (hsel : m.selectedNode = .ok (node, n)) (hkids : n.Children ≠ [])
    (hexp : n.Expanded = true) :
    m.collapse fuel = .ok ({ m with
      heap := m.heap.set node { n with Expanded := !n.Expanded }
      visible := t.visible (m.heap.set node { n with Expanded := !n.Expanded }) },
      Cmd.none) := by
  rcases selectedNode_ok hsel with ⟨h0, hv, hn⟩
  have hlt := getElem?_lt hv
  rcases flip_selected hroot hh hnd hfuel hvis hsel with ⟨_, hflat, _⟩
  unfold Model.collapse
  rw [if_pos ⟨by omega, by omega⟩, hsel]
  simp only []
  rw [if_pos ⟨hexp, List.length_pos.mpr hkids⟩]
  rw [hexp] at hflat ⊢
  simp only [Bool.not_true] at hflat ⊢
  rw [hflat]

/-- C28 (counterexample): in `collapsedModel` the visible list is `FlattenVisible` of a
finite tree and the selection is on `r.1`, a node with children that is collapsed; the
key `h` moves the selection from index 1 to index 0, the parent. -/
theorem collapse_key_jumps_to_parent :
    FlattenVisible collapsedModel.heap 5 collapsedModel.root = some collapsedModel.visible ∧
    exampleShape.check collapsedModel.heap = true ∧ exampleShape.nodes.Nodup ∧
    collapsedModel.root = some exampleShape.ptr ∧
    collapsedModel.selected = 1 ∧
    (∃ n, collapsedModel.selectedNode = .ok (1, n) ∧ n.Children = [3, 4]) ∧
    ∃ m', collapsedModel.updateNavigation 5 "h" = .ok (m', Cmd.none) ∧ m'.selected = 0 := by
  refine ⟨by decide, by decide, by decide, by decide, by decide,
    ⟨collapsedCell, selectedNode_of (by decide) (by decide) (by decide), rfl⟩,
    ⟨{ collapsedModel with selected := 0 }, ?_, rfl⟩⟩
  rfl

/-- C28 (amended): in a tree view whose visible list is `FlattenVisible` of a finite
tree without shared nodes, with the selection on a node that has children, the toggle
key (enter, space), the expand key (`l`, right) and, when the node is expanded, the
collapse key (`h`, left) leave the selection index as it is, and after the key that
index still holds the same node in the new visible list, which is again
`FlattenVisible` of the tree; so the clamp after the toggle does not change the
selection. -/
theorem flip_keeps_selection (m : Model) (t : Shape) (key : String) (fuel : Nat)
    (hroot : m.root = some t.ptr) (hh : Holds m.heap t) (hnd : t.nodes.Nodup)
    (hfuel : t.height ≤ fuel) (hvis : FlattenVisible m.heap fuel m.root = some m.visible)
    (node : Nat) (n : TreeNode) (hsel : m.selectedNode = .ok (node, n))
    (hkids : n.Children ≠ [])
    (hkey : key = "enter" ∨ key = " " ∨ key = "l" ∨ key = "right" ∨
      ((key = "h" ∨ key = "left") ∧ n.Expanded = true)) :
    ∃ m' c, m.updateNavigation fuel key = .ok (m', c) ∧ m'.selected = m.selected ∧
      m'.visible[m.selected.toNat]? = some node ∧
      FlattenVisible m'.heap fuel m'.root = some m'.visible ∧
      m.selected < (m'.visible.length : Int) := by
  rw [hroot, FlattenVisible_eq_visible hh hfuel] at hvis
  have hvis' : m.visible = t.visible m.heap := (Option.some.inj hvis).symm
  rcases selectedNode_ok hsel with ⟨h0, hv, hn⟩
  rcases flip_selected hroot hh hnd hfuel hvis' hsel with ⟨hh', _, hidx⟩
  have hlt' := getElem?_lt hidx
  have hlt := getElem?_lt hv
  have hsame : FlattenVisible m.heap fuel m.root = some m.visible := by
    rw [hroot, FlattenVisible_eq_visible hh hfuel, hvis']
  have hflip : ∀ c : Cmd, ∃ m' c', (Except.ok
      (({ m with
        heap := m.heap.set node { n with Expanded := !n.Expanded }
        visible := t.visible (m.heap.set node { n with Expanded := !n.Expanded }) } : Model),
        c) : Except Fault (Model × Cmd)) = .ok (m', c') ∧ m'.selected = m.selected ∧
      m'.visible[m.selected.toNat]? = some node ∧
      FlattenVisible m'.heap fuel m'.root = some m'.visible ∧
      m.selected < (m'.visible.length : Int) := by
    intro c
    have hsel_lt : m.selected <
        ((t.visible (m.heap.set node { n with Expanded := !n.Expanded })).length : Int) := by
      omega
    refine ⟨_, _, rfl, rfl, hidx, ?_, hsel_lt⟩
    show FlattenVisible (m.heap.set node { n with Expanded := !n.Expanded }) fuel m.root = _
    rw [hroot, FlattenVisible_eq_visible hh' hfuel]
  have hkeep : ∃ m' c', (Except.ok (m, Cmd.none) : Except Fault (Model × Cmd)) = .ok (m', c') ∧
      m'.selected = m.selected ∧ m'.visible[m.selected.toNat]? = some node ∧
      FlattenVisible m'.heap fuel m'.root = some m'.visible ∧
      m.selected < (m'.visible.length : Int) :=
    ⟨m, Cmd.none, rfl, rfl, hv, hsame, by omega⟩
  have htoggle := toggle_step hroot hh hnd hfuel hvis' hsel hkids
  have hexpand := expand_step hroot hh hnd hfuel hvis' hsel hkids
  unfold Model.updateNavigation
  rcases hkey with e | e | e | e | ⟨e | e, hexp⟩
  · subst e
    rw [if_neg (by decide), if_neg (by decide), if_pos (by decide), htoggle]
    exact hflip _
  · subst e
    rw [if_neg (by decide), if_neg (by decide), if_pos (by decide), htoggle]
    exact hflip _
  · subst e
    rw [if_neg (by decide), if_neg (by decide), if_neg (by decide), if_pos (by decide)]
    rcases hexpand with h | h <;> rw [h]
    · exact hkeep
    · exact hflip _
  · subst e
    rw [if_neg (by decide), if_neg (by decide), if_neg (by decide), if_pos (by decide)]
    rcases hexpand with h | h <;> rw [h]
    · exact hkeep
    · exact hflip _
  · subst e
    rw [if_neg (by decide), if_neg (by decide), if_neg (by decide), if_neg (by decide),
      if_pos (by decide), collapse_step hroot hh hnd hfuel hvis' hsel hkids hexp]
    exact hflip _
  · subst e
    rw [if_neg (by decide), if_neg (by decide), if_neg (by decide), if_neg (by decide),
      if_pos (by decide), collapse_step hroot hh hnd hfuel hvis' hsel hkids hexp]
    exact hflip _

/-- Witness for `flip_keeps_selection`: the key `h` on the expanded node `r.1` of
`exampleModel`. -/
theorem flip_keeps_selection_witness :
    ∃ m' c, exampleModel.updateNavigation 5 "h" = .ok (m', c) ∧
      m'.selected = exampleModel.selected ∧
      m'.visible[exampleModel.selected.toNat]? = some 1 ∧
      FlattenVisible m'.heap 5 m'.root = some m'.visible ∧
      exampleModel.selected < (m'.visible.length : Int) :=
  flip_keeps_selection exampleModel exampleShape "h" 5 rfl
    (Holds.of_check _ _ (by decide)) (by decide) (by decide) (by decide) 1
    (cell (record "r.1" (some "r") none) [3, 4] 1)
    (selectedNode_of (by decide) (by decide) (by decide)) (by decide)
    (Or.inr (Or.inr (Or.inr (Or.inr ⟨Or.inl rfl, rfl⟩))))

/-- Along the children index, the id of every pointer reached from the root is reached
from the root id by a chain of parent tags. -/
theorem reach_chain {sortSlice : (Nat → Nat → Bool) → List Nat → List Nat}
    {ps : List Promise} (hsI : SortsIndex sortSlice ps) {rootID : String} {h0 : Heap}
    {root : Nat} (st : Start ps rootID h0 root) {q : Nat}
    (hq : Relation.ReflTransGen (Edge (sortChildren sortSlice (buildIndex ps)) (promisesOf h0))
      root q) :
    ∀ x, (promisesOf h0)[q]? = some x →
      Relation.ReflTransGen (ParentEdge ps) rootID x.ID := by
  induction hq with
  | refl =>
    intro x hx
    rcases st.root_id with ⟨x0, hx0, hid0⟩
    rw [hx0] at hx
    rw [← Option.some.inj hx, hid0]
  | @tail b c _ hbc ih =>
    intro x hx
    rcases edge_record hsI st hbc with ⟨xb, r, hxb, hr, hPc, htag, hne⟩
    rw [hPc] at hx
    rw [← Option.some.inj hx]
    exact (ih xb hxb).tail ⟨r, mem_of_getElem? hr, rfl, htag, hne⟩

/-- Every id reached from the root id by a chain of parent tags is the id of a pointer
reached from the root along the children index. -/
theorem chain_reach {sortSlice : (Nat → Nat → Bool) → List Nat → List Nat}
    {ps : List Promise} (hsI : SortsIndex sortSlice ps) {rootID : String} {h0 : Heap}
    {root : Nat} (st : Start ps rootID h0 root) {id : String}
    (hc : Relation.ReflTransGen (ParentEdge ps) rootID id) :
    ∃ q x, Relation.ReflTransGen
        (Edge (sortChildren sortSlice (buildIndex ps)) (promisesOf h0)) root q ∧
      (promisesOf h0)[q]? = some x ∧ x.ID = id := by
  induction hc with
  | refl =>
    rcases st.root_id with ⟨x0, hx0, hid0⟩
    exact ⟨root, x0, Relation.ReflTransGen.refl, hx0, hid0⟩
  | @tail b c _ hbc ih =>
    rcases ih with ⟨q, x, hq, hx, hxb⟩
    rcases hbc with ⟨p, hp, hpc, htag, hne⟩
    rcases List.getElem_of_mem hp with ⟨j, hj, hjp⟩
    have hj' : ps[j]? = some p := by rw [List.getElem?_eq_getElem hj, hjp]
    have hmem : j ∈ (buildIndex ps).childrenMap b :=
      ((buildIndex_inv ps).mem_children b j).mpr ⟨p, hj', htag, by rw [hpc]; exact hne⟩
    have hmem' : j ∈ sortChildren sortSlice (buildIndex ps) x.ID := by
      rw [hxb]
      exact (hsI b).mem_iff.mpr hmem
    exact ⟨j, p, hq.tail ⟨x, hx, hmem'⟩, st.pre j p hj', hpc⟩

/-- C29: for every root id and every acyclic record collection with pairwise distinct
ids, `BuildTree` returns, and `FlattenVisible` of the tree it returns, in which every
node is expanded, lists every node of the tree exactly once, the root first; the node of
a record is in the list exactly when a chain of parent tags leads from the root id to
the record's id, and the list has 1 plus the number of descendant records as its
length.  The library call `sort.Slice` is assumed to meet its contract
`SortSliceSpec`. -/
theorem BuildTree_complete (sortSlice : (Nat → Nat → Bool) → List Nat → List Nat)
    (hs : SortSliceSpec sortSlice) (rootID : String) (promises : List Promise)
    (hac : Acyclic promises) (hid : (promises.map (fun p => p.ID)).Nodup) :
    (∃ fuel res, BuildTree sortSlice fuel rootID promises = some res) ∧
    ∀ fuel h root, BuildTree sortSlice fuel rootID promises = some (h, root) →
      ∃ vis desc,
        (∃ f, ∀ fuel', f ≤ fuel' → FlattenVisible h fuel' (some root) = some vis) ∧
        vis.Nodup ∧ vis = root :: desc ∧ vis.length = 1 + desc.length ∧
        (∀ q, q ∈ vis ↔ InTree h root q) ∧
        (∀ (j : Nat) (r : Promise), promises[j]? = some r →
          (j ∈ vis ↔ Relation.ReflTransGen (ParentEdge promises) rootID r.ID)) ∧
        (∀ j, j ∈ desc ↔
          ∃ r, promises[j]? = some r ∧ Relation.TransGen (ParentEdge promises) rootID r.ID) := by
  have hsI := sortsIndex_of_spec hs promises
  refine ⟨BuildTree_returns rootID promises hsI hac, ?_⟩
  intro fuel h root hb
  rcases BuildTree_shape hs hac hid hb with ⟨t, hptr, hh, hnd, hmem, hin, hvis⟩
  rcases BuildTree_eq_some hb with ⟨hroot, hassign⟩
  have st := resolveRoot_start promises rootID
  rw [← hroot] at st
  have hP := assign_promisesOf _ fuel root _ h hassign
  rw [hP] at hmem
  -- the record of a pointer of the tree
  have hrec : ∀ (j : Nat) (r : Promise), promises[j]? = some r →
      (j ∈ t.nodes ↔ Relation.ReflTransGen (ParentEdge promises) rootID r.ID) := by
    intro j r hr
    rw [hmem]
    constructor
    · intro hj
      exact reach_chain hsI st hj r (st.pre j r hr)
    · intro hc
      rcases chain_reach hsI st hc with ⟨q, x, hq, hx, hxid⟩
      have hqj : q = j := by
        rcases st.ids q x hx with h1 | ⟨hz, _, _, hno⟩
        · exact index_of_id hid h1 hr hxid
        · have : r.ID = rootID := by rw [← hxid, hz]; rfl
          exact absurd this (hno r (mem_of_getElem? hr))
      rw [← hqj]
      exact hq
  have hnodes : t.nodes = root :: Shape.nodesList t.children := by
    cases t with
    | node p cs =>
      have : p = root := hptr
      rw [← this]
      rfl
  have hnd' : (root :: Shape.nodesList t.children).Nodup := hnodes ▸ hnd
  refine ⟨t.nodes, Shape.nodesList t.children, ⟨t.height, ?_⟩, hnd, hnodes, ?_, hin, hrec, ?_⟩
  · intro fuel' hfuel'
    rw [← hptr, FlattenVisible_eq_visible hh hfuel', hvis]
  · rw [hnodes, List.length_cons]
    omega
  · intro j
    have hroot_rec : ∀ r, promises[root]? = some r → r.ID = rootID := by
      intro r hr
      rcases st.root_id with ⟨x0, hx0, hid0⟩
      have := st.pre root r hr
      rw [hx0] at this
      rw [← Option.some.inj this, hid0]
    constructor
    · intro hj
      have hjn : j ∈ t.nodes := by rw [hnodes]; exact List.mem_cons_of_mem _ hj
      have hjr : j ≠ root := fun e => (List.nodup_cons.mp hnd').1 (e ▸ hj)
      rcases Relation.ReflTransGen.cases_tail ((hmem j).mp hjn) with e | ⟨b, _, hbj⟩
      · exact absurd e hjr
      · rcases edge_record hsI st hbj with ⟨_, r, _, hr, _, _, _⟩
        refine ⟨r, hr, ?_⟩
        rcases Relation.reflTransGen_iff_eq_or_transGen.mp ((hrec j r hr).mp hjn) with e | htg
        · -- the record has the root id: it is the root
          exfalso
          rcases st.root_id with ⟨x0, hx0, hid0⟩
          rcases st.ids root x0 hx0 with h1 | ⟨_, _, _, hno⟩
          · exact hjr (index_of_id hid hr h1 (by rw [e, hid0]))
          · exact hno r (mem_of_getElem? hr) e
        · exact htg
    · rintro ⟨r, hr, htg⟩
      have hjn : j ∈ t.nodes := (hrec j r hr).mpr htg.to_reflTransGen
      rw [hnodes] at hjn
      rcases List.mem_cons.mp hjn with e | hj
      · exfalso
        rw [e] at hr
        have := hroot_rec r hr
        rw [this] at htg
        exact hac rootID htg
      · exact hj

/-- Witness for `BuildTree_complete`: `strayRecords` holds the tree of `r` next to two
records that no chain of parent tags links to `r`. -/
theorem BuildTree_complete_witness :
    (∃ fuel res, BuildTree referenceSort fuel "r" strayRecords = some res) ∧
    ∀ fuel h root, BuildTree referenceSort fuel "r" strayRecords = some (h, root) →
      ∃ vis desc,
        (∃ f, ∀ fuel', f ≤ fuel' → FlattenVisible h fuel' (some root) = some vis) ∧
        vis.Nodup ∧ vis = root :: desc ∧ vis.length = 1 + desc.length ∧
        (∀ q, q ∈ vis ↔ InTree h root q) ∧
        (∀ (j : Nat) (r : Promise), strayRecords[j]? = some r →
          (j ∈ vis ↔ Relation.ReflTransGen (ParentEdge strayRecords) "r" r.ID)) ∧
        (∀ j, j ∈ desc ↔
          ∃ r, strayRecords[j]? = some r ∧
            Relation.TransGen (ParentEdge strayRecords) "r" r.ID) :=
  BuildTree_complete referenceSort referenceSort_spec "r" strayRecords
    (acyclic_of_rankGrows String.length strayRecords (by decide)) (by decide)

/-! ### The selection of the tree view stays inside the visible list -/

theorem selectedNode_total {m : Model} (hm : ViewInv m)
    (hlt : m.selected < (m.visible.length : Int)) : ∃ node n, m.selectedNode = .ok (node, n) := by
  have h0 := hm.nonneg
  have hi : m.selected.toNat < m.visible.length := by omega
  rcases hm.flat with ⟨f, hf⟩
  rcases FlattenVisible_valid (hf f (le_refl f)) with ⟨_, _, hvalid⟩
  rcases hvalid _ (List.getElem_mem hi) with ⟨n, hn⟩
  exact ⟨_, n, selectedNode_of h0 (List.getElem?_eq_getElem hi) hn⟩

theorem flatten_error {fuel : Nat} {heap : Heap} {root : Option Nat} {e : Fault}
    (h : Model.flatten fuel heap root = .error e) : e = Fault.outOfFuel := by
  unfold Model.flatten at h
  split at h
  · exact Except.noConfusion h
  · exact (Except.error.inj h).symm

theorem selectedNode_fault {m : Model} (hm : ViewInv m) {e : Fault}
    (hg : m.visible.length > 0 ∧ m.selected < (m.visible.length : Int))
    (hsel : m.selectedNode = .error e) : False := by
  rcases selectedNode_total hm hg.2 with ⟨node, n, hok⟩
  rw [hok] at hsel
  exact Except.noConfusion hsel

theorem toggle_fault {fuel : Nat} {m : Model} {e : Fault} (hm : ViewInv m)
    (h : m.toggle fuel = .error e) : e = Fault.outOfFuel := by
  unfold Model.toggle at h
  split at h
  · rename_i hg
    cases hsel : m.selectedNode with
    | error e2 => exact (selectedNode_fault hm hg hsel).elim
    | ok r =>
      obtain ⟨node, n⟩ := r
      rw [hsel] at h
      simp only [] at h
      split at h
      · cases hf : Model.flatten fuel (m.heap.set node { n with Expanded := !n.Expanded })
            m.root with
        | error e2 =>
          rw [hf] at h
          rw [← Except.error.inj h]
          exact flatten_error hf
        | ok v => rw [hf] at h; exact Except.noConfusion h
      · exact Except.noConfusion h
  · exact Except.noConfusion h

theorem expand_fault {fuel : Nat} {m : Model} {e : Fault} (hm : ViewInv m)
    (h : m.expand fuel = .error e) : e = Fault.outOfFuel := by
  unfold Model.expand at h
  split at h
  · rename_i hg
    cases hsel : m.selectedNode with
    | error e2 => exact (selectedNode_fault hm hg hsel).elim
    | ok r =>
      obtain ⟨node, n⟩ := r
      rw [hsel] at h
      simp only [] at h
      split at h
      · cases hf : Model.flatten fuel (m.heap.set node { n with Expanded := true }) m.root with
        | error e2 =>
          rw [hf] at h
          rw [← Except.error.inj h]
          exact flatten_error hf
        | ok v => rw [hf] at h; exact Except.noConfusion h
      · exact Except.noConfusion h
  · exact Except.noConfusion h

theorem collapse_fault {fuel : Nat} {m : Model} {e : Fault} (hm : ViewInv m)
    (h : m.collapse fuel = .error e) : e = Fault.outOfFuel := by
  unfold Model.collapse at h
  split at h
  · rename_i hg
    cases hsel : m.selectedNode with
    | error e2 => exact (selectedNode_fault hm hg hsel).elim
    | ok r =>
      obtain ⟨node, n⟩ := r
      rw [hsel] at h
      simp only [] at h
      split at h
      · cases hf : Model.flatten fuel (m.heap.set node { n with Expanded := false }) m.root with
        | error e2 =>
          rw [hf] at h
          rw [← Except.error.inj h]
          exact flatten_error hf
        | ok v => rw [hf] at h; exact Except.noConfusion h
      · split at h
        · split at h <;> exact Except.noConfusion h
        · exact Except.noConfusion h
  · exact Except.noConfusion h

theorem inspect_fault {m : Model} {e : Fault} (hm : ViewInv m)
    (h : m.inspect = .error e) : e = Fault.outOfFuel := by
  unfold Model.inspect at h
  split at h
  · rename_i hg
    cases hsel : m.selectedNode with
    | error e2 => exact (selectedNode_fault hm hg hsel).elim
    | ok r =>
      rw [hsel] at h
      exact Except.noConfusion h
  · exact Except.noConfusion h

/-- In a state whose selection is not negative and whose visible list holds pointers of
the store, a key handler stops without a result only when a walk runs out of fuel. -/
theorem updateNavigation_fault {fuel : Nat} {m : Model} {key : String} {e : Fault}
    (hm : ViewInv m) (h : m.updateNavigation fuel key = .error e) : e = Fault.outOfFuel := by
  unfold Model.updateNavigation at h
  by_cases k1 : theme.Key key ["j", "down"] = true
  · rw [if_pos k1] at h
    split at h <;> exact Except.noConfusion h
  rw [if_neg k1] at h
  by_cases k2 : theme.Key key ["k", "up"] = true
  · rw [if_pos k2] at h
    split at h <;> exact Except.noConfusion h
  rw [if_neg k2] at h
  by_cases k3 : theme.Key key ["enter", " "] = true
  · rw [if_pos k3] at h
    exact toggle_fault hm h
  rw [if_neg k3] at h
  by_cases k4 : theme.Key key ["l", "right"] = true
  · rw [if_pos k4] at h
    exact expand_fault hm h
  rw [if_neg k4] at h
  by_cases k5 : theme.Key key ["h", "left"] = true
  · rw [if_pos k5] at h
    exact collapse_fault hm h
  rw [if_neg k5] at h
  by_cases k6 : theme.Key key ["i"] = true
  · rw [if_pos k6] at h
    exact inspect_fault hm h
  rw [if_neg k6] at h
  by_cases k7 : theme.Key key ["r"] = true
  · rw [if_pos k7] at h
    exact Except.noConfusion h
  rw [if_neg k7] at h
  exact Except.noConfusion h

theorem TreeInv.after_key {fuel : Nat} {m m' : Model} (hm : TreeInv m)
    (he : KeyEffect fuel m m') : TreeInv m' := by
  have h0 := hm.nonneg
  rcases he with ⟨hroot, ⟨hheap, hvis, hsel⟩ | ⟨node, n, hnode, _, hheap, hflat, hsel⟩⟩
  · refine ⟨?_, ?_, ?_⟩
    · rw [hroot, hvis, hheap]
      exact hm.shape
    · rcases hsel with h | ⟨h, _⟩ | ⟨h, _⟩ | ⟨i, _, h⟩ <;> omega
    · intro hne
      rw [hvis] at hne ⊢
      have hr := hm.inRange hne
      rcases hsel with h | ⟨h, _⟩ | ⟨h, _⟩ | ⟨i, _, h⟩ <;> omega
  · rcases selectedNode_ok hnode with ⟨_, hv, hn⟩
    rcases hm.shape with ⟨_, hnil⟩ | ⟨t, hr, hh, hnd, hvt⟩
    · rw [hnil] at hv
      simp at hv
    · rcases flip_selected hr hh hnd (le_refl t.height) hvt hnode with ⟨hh', _, hidx⟩
      have hvis' : m'.visible = t.visible m'.heap := by
        rw [hheap]
        have h1 := FlattenVisible_eq_visible hh' (le_refl t.height)
        rw [hheap, hr] at hflat
        exact FlattenVisible_det _ hflat h1
      have hlt := getElem?_lt hidx
      rw [← hheap, ← hvis'] at hlt
      have hsame : m'.selected = m.selected := by
        rcases hsel with h | ⟨h, _⟩
        · exact h
        · omega
      refine ⟨Or.inr ⟨t, by rw [hroot]; exact hr, by rw [hheap]; exact hh', hnd, hvis'⟩, ?_, ?_⟩
      · omega
      · intro _
        omega

theorem TreeInv.after_loaded {sortSlice : (Nat → Nat → Bool) → List Nat → List Nat}
    (hs : SortSliceSpec sortSlice) {fuel : Nat} {m m' : Model} {promises : List Promise}
    {c : Cmd} (hac : Acyclic promises) (hid : (promises.map (fun p => p.ID)).Nodup)
    (h : m.loaded sortSlice fuel promises = .ok (m', c)) : TreeInv m' := by
  unfold Model.loaded at h
  split at h
  · exact Except.noConfusion h
  · rename_i built hb
    cases hf : Model.flatten fuel built.1 (some built.2) with
    | error e => rw [hf] at h; exact Except.noConfusion h
    | ok visible =>
      rw [hf] at h
      simp only [Except.ok.injEq, Prod.mk.injEq] at h
      obtain ⟨rfl, _⟩ := h
      have hb' : BuildTree sortSlice fuel m.RootID promises = some (built.1, built.2) := hb
      rcases BuildTree_shape hs hac hid hb' with ⟨t, hptr, hh, hnd, _, _, _⟩
      have hflat := flatten_ok hf
      have hvis : visible = t.visible built.1 := by
        rw [← hptr] at hflat
        exact FlattenVisible_det _ hflat (FlattenVisible_eq_visible hh (le_refl t.height))
      rcases FlattenVisible_valid hflat with ⟨_, hsome, _⟩
      rcases hsome built.2 rfl with ⟨ext, hext⟩
      refine ⟨Or.inr ⟨t, by rw [hptr], hh, hnd, hvis⟩, le_refl _, ?_⟩
      intro _
      show (0 : Int) < (visible.length : Int)
      rw [hext, List.length_cons]
      omega

theorem TreeInv.all_reachable {sortSlice : (Nat → Nat → Bool) → List Nat → List Nat}
    (hs : SortSliceSpec sortSlice) {m : Model}
    (hm : Reachable sortSlice
      (fun promises => Acyclic promises ∧ (promises.map (fun p => p.ID)).Nodup) m) :
    TreeInv m := by
  induction hm with
  | init => exact ⟨Or.inl ⟨rfl, rfl⟩, le_refl _, fun hne => absurd rfl hne⟩
  | load m rootID _ _ => exact ⟨Or.inl ⟨rfl, rfl⟩, le_refl _, fun hne => absurd rfl hne⟩
  | update m m' fuel msg c _ hall hupd ih =>
    cases msg with
    | KeyMsg key => exact ih.after_key (updateNavigation_effect hupd)
    | TreeLoadedMsg promises err =>
      cases err with
      | some e =>
        simp only [Model.Update, Except.ok.injEq, Prod.mk.injEq] at hupd
        obtain ⟨rfl, _⟩ := hupd
        exact ⟨ih.shape, ih.nonneg, ih.inRange⟩
      | none =>
        rcases hall promises rfl with ⟨hac, hid⟩
        exact TreeInv.after_loaded hs hac hid hupd
    | TickMsg =>
      simp only [Model.Update, Except.ok.injEq, Prod.mk.injEq] at hupd
      obtain ⟨rfl, _⟩ := hupd
      exact ih
    | WindowSizeMsg w hgt =>
      simp only [Model.Update, Except.ok.injEq, Prod.mk.injEq] at hupd
      obtain ⟨rfl, _⟩ := hupd
      exact ⟨ih.shape, ih.nonneg, ih.inRange⟩

/-- C21 (the code at the failing input): the records of `sharedChildRecords`, in which
the id `x` occurs twice, give a tree in which the node `c` hangs below both nodes `x`.
After the load, five presses of `j` select the second occurrence of `c`, and the key `h`
collapses `c` and flattens the tree again without the clamp that the toggle key applies:
the visible list then has 5 entries while the selection index is still 5.  The toggle
key pressed in the same state gives the same list and clamps the selection to 4. -/
theorem selection_past_the_end :
    ∃ m, Reachable (sort.Slice sort.xorshiftNext) (fun _ => True) m ∧
      m.visible = [0, 1, 3, 2, 3] ∧ m.selected = 5 ∧ m.visible ≠ [] ∧
      ¬ m.selected < (m.visible.length : Int) ∧
      ∃ m0 mt, Reachable (sort.Slice sort.xorshiftNext) (fun _ => True) m0 ∧
        m0.updateNavigation 10 "h" = .ok (m, Cmd.none) ∧
        m0.updateNavigation 10 "enter" = .ok (mt, Cmd.none) ∧
        mt.visible = [0, 1, 3, 2, 3] ∧ mt.selected = 4 := by
  have h0 : Reachable (sort.Slice sort.xorshiftNext) (fun _ => True) (New.Load "r").1 :=
    Reachable.load New "r" Reachable.init
  have h1 := Reachable.update _ _ 10 (Msg.TreeLoadedMsg sharedChildRecords none) Cmd.none h0
    (fun _ _ => trivial) rfl
  have h2 := Reachable.update _ _ 10 (Msg.KeyMsg "j") Cmd.none h1 (fun _ _ => trivial) rfl
  have h3 := Reachable.update _ _ 10 (Msg.KeyMsg "j") Cmd.none h2 (fun _ _ => trivial) rfl
  have h4 := Reachable.update _ _ 10 (Msg.KeyMsg "j") Cmd.none h3 (fun _ _ => trivial) rfl
  have h5 := Reachable.update _ _ 10 (Msg.KeyMsg "j") Cmd.none h4 (fun _ _ => trivial) rfl
  have h6 := Reachable.update _ _ 10 (Msg.KeyMsg "j") Cmd.none h5 (fun _ _ => trivial) rfl
  have h7 := Reachable.update _ _ 10 (Msg.KeyMsg "h") Cmd.none h6 (fun _ _ => trivial) rfl
  exact ⟨_, h7, by decide, by decide, by decide, by decide,
    ⟨_, _, h6, rfl, rfl, by decide, by decide⟩⟩

/-- What the code as it stands keeps of the selection: in every state of the tree view
reached from `New` by `Load` and by messages, the selection index is not negative, no
key handler indexes the visible list out of range or follows a pointer outside the
store, and move-down at the last index and move-up at index 0 return the state
unchanged.  When the record collections of the tree-loaded messages are acyclic with
pairwise distinct ids, no node is shared and the selection index is moreover smaller
than the length of the visible list whenever that list is not empty.  The library call
`sort.Slice` is assumed to meet its contract `SortSliceSpec`. -/
theorem selection_in_range (sortSlice : (Nat → Nat → Bool) → List Nat → List Nat)
    (hs : SortSliceSpec sortSlice) :
    (∀ m, Reachable sortSlice (fun _ => True) m →
      0 ≤ m.selected ∧
      (∀ (fuel : Nat) (key : String) (e : Fault), m.updateNavigation fuel key = .error e →
        e ≠ Fault.indexOutOfRange ∧ e ≠ Fault.badPointer) ∧
      (∀ (fuel : Nat) (key : String), key = "j" ∨ key = "down" →
        m.selected = (m.visible.length : Int) - 1 →
        m.updateNavigation fuel key = .ok (m, Cmd.none)) ∧
      (∀ (fuel : Nat) (key : String), key = "k" ∨ key = "up" → m.selected = 0 →
        m.updateNavigation fuel key = .ok (m, Cmd.none))) ∧
    (∀ m, Reachable sortSlice
        (fun promises => Acyclic promises ∧ (promises.map (fun p => p.ID)).Nodup) m →
      m.visible ≠ [] → m.selected < (m.visible.length : Int)) := by
  constructor
  · intro m hm
    have hv := ViewInv.of_reachable hm
    refine ⟨hv.nonneg, ?_, ?_, ?_⟩
    · intro fuel key e he
      have := updateNavigation_fault hv he
      rw [this]
      exact ⟨by decide, by decide⟩
    · intro fuel key hkey hlast
      unfold Model.updateNavigation
      rcases hkey with rfl | rfl <;>
        rw [if_pos (by decide), if_neg (by omega)]
    · intro fuel key hkey hfirst
      unfold Model.updateNavigation
      rcases hkey with rfl | rfl <;>
        rw [if_neg (by decide), if_pos (by decide), if_neg (by omega)]
  · intro m hm hne
    exact (TreeInv.all_reachable hs hm).inRange hne

/-- Witness for `selection_in_range`, with the merge sort as the sort. -/
theorem selection_in_range_witness :
    (∀ m, Reachable referenceSort (fun _ => True) m →
      0 ≤ m.selected ∧
      (∀ (fuel : Nat) (key : String) (e : Fault), m.updateNavigation fuel key = .error e →
        e ≠ Fault.indexOutOfRange ∧ e ≠ Fault.badPointer) ∧
      (∀ (fuel : Nat) (key : String), key = "j" ∨ key = "down" →
        m.selected = (m.visible.length : Int) - 1 →
        m.updateNavigation fuel key = .ok (m, Cmd.none)) ∧
      (∀ (fuel : Nat) (key : String), key = "k" ∨ key = "up" → m.selected = 0 →
        m.updateNavigation fuel key = .ok (m, Cmd.none))) ∧
    (∀ m, Reachable referenceSort
        (fun promises => Acyclic promises ∧ (promises.map (fun p => p.ID)).Nodup) m →
      m.visible ≠ [] → m.selected < (m.visible.length : Int)) :=
  selection_in_range referenceSort referenceSort_spec

end tree

namespace promises

open client

/-- C30 (counterexample): for the record `a.1`, which names `a` as its parent and has
neither a scope nor a timeout tag, the promise list's `promiseRole` returns the empty
role and the forest's returns `root`; so on the page `a`, `a.1` the list's filter
"roots only" keeps `a` alone while the forest's role filter `root` keeps both. -/
theorem promiseRole_differs_on_child :
    promiseRole (tree.record "a.1" (some "a") none) = "" ∧
    forest.promiseRole (tree.record "a.1" (some "a") none) = "root" ∧
    ({ allPromises := childPage, promises := [], selected := 0, rootsOnly := true }
        : Model).applyFilter.promises = [tree.record "a" none none] ∧
    forest.filterRoots "root" childPage = childPage := by
  decide

/-- C30 (amended): the promise list's `promiseRole` and the forest's return the same
role for every record, except that a record the forest calls `root` whose parent tag is
non-empty and differs from its id gets the empty role in the list.  So the records the
list's filter "roots only" keeps are those of the forest's role filter `root` whose
parent tag is empty, absent or their own id, in the same order. -/
theorem promiseRole_list_vs_forest (p : Promise) (page : List Promise) (sel : Int) :
    promiseRole p =
      (if forest.promiseRole p = "root" ∧ tag p.Tags "resonate:parent" ≠ "" ∧
          tag p.Tags "resonate:parent" ≠ p.ID then ""
        else forest.promiseRole p) ∧
    ({ allPromises := page, promises := [], selected := sel, rootsOnly := true }
        : Model).applyFilter.promises =
      (forest.filterRoots "root" page).filter (fun q =>
        decide (tag q.Tags "resonate:parent" = "" ∨ tag q.Tags "resonate:parent" = q.ID)) := by
  have hrole : ∀ q : Promise, promiseRole q =
      (if forest.promiseRole q = "root" ∧ tag q.Tags "resonate:parent" ≠ "" ∧
          tag q.Tags "resonate:parent" ≠ q.ID then ""
        else forest.promiseRole q) := by
    intro q
    unfold promiseRole forest.promiseRole
    by_cases h1 : tag q.Tags "resonate:timeout" ≠ ""
    · rw [if_pos h1, if_pos h1, if_neg]
      rintro ⟨h, _⟩
      exact absurd h (by decide)
    · rw [if_neg h1, if_neg h1]
      by_cases h2 : tag q.Tags "resonate:scope" = "global"
      · rw [if_pos h2, if_pos h2, if_neg]
        rintro ⟨h, _⟩
        exact absurd h (by decide)
      · rw [if_neg h2, if_neg h2]
        by_cases h3 : tag q.Tags "resonate:scope" = "local"
        · rw [if_pos h3, if_pos h3, if_neg]
          rintro ⟨h, _⟩
          exact absurd h (by decide)
        · rw [if_neg h3, if_neg h3]
          simp only []
          by_cases h4 : tag q.Tags "resonate:parent" = "" ∨ tag q.Tags "resonate:parent" = q.ID
          · rw [if_pos h4, if_neg]
            rintro ⟨_, h5, h6⟩
            rcases h4 with h4 | h4
            · exact h5 h4
            · exact h6 h4
          · rw [if_neg h4, if_pos]
            exact ⟨trivial, fun e => h4 (Or.inl e), fun e => h4 (Or.inr e)⟩
  refine ⟨hrole p, ?_⟩
  have hfilter : ({ allPromises := page, promises := [], selected := sel, rootsOnly := true }
      : Model).applyFilter.promises = page.filter (fun q => decide (promiseRole q = "root")) := by
    unfold Model.applyFilter
    simp only [if_true]
    split_ifs <;> rfl
  rw [hfilter]
  unfold forest.filterRoots
  rw [List.filter_filter]
  apply List.filter_congr
  intro q _
  have hne : ("root" : String) ≠ "" := by decide
  rw [if_neg hne, hrole q]
  by_cases hf : forest.promiseRole q = "root"
  · by_cases h4 : tag q.Tags "resonate:parent" = "" ∨ tag q.Tags "resonate:parent" = q.ID
    · have : ¬ (forest.promiseRole q = "root" ∧ tag q.Tags "resonate:parent" ≠ "" ∧
          tag q.Tags "resonate:parent" ≠ q.ID) := by
        rintro ⟨_, h5, h6⟩
        rcases h4 with h4 | h4
        · exact h5 h4
        · exact h6 h4
      rw [if_neg this]
      simp [hf, h4]
    · have : forest.promiseRole q = "root" ∧ tag q.Tags "resonate:parent" ≠ "" ∧
          tag q.Tags "resonate:parent" ≠ q.ID :=
        ⟨hf, fun e => h4 (Or.inl e), fun e => h4 (Or.inr e)⟩
      rw [if_pos this]
      simp [hf, h4]
  · have : ¬ (forest.promiseRole q = "root" ∧ tag q.Tags "resonate:parent" ≠ "" ∧
        tag q.Tags "resonate:parent" ≠ q.ID) := fun h => hf h.1
    rw [if_neg this]
    simp [hf]

end promises
